import Mathlib

/-!
# Bogart layout engine: unitig construction and position optimisation

A shallow embedding of `src/bogart/AS_BAT_OptimizePositions.C` and
`src/bogart/AS_BAT_PopulateUnitig.C`.

Conventions of the embedding.

* `double` values are modelled by `Dbl`: an exact rational number or one of the
  IEEE special values `+inf`, `-inf`, `NaN`.  Arithmetic on finite values is exact
  (no rounding, no overflow), where the machine rounds each result to the nearest
  binary64 number; the special values follow IEEE 754, including `0/0 = NaN` and
  `x/0 = ±inf`.  Zero carries no sign and divides as `+0`.  The examples that are
  evaluated use values that binary64 represents exactly; nothing is concluded from
  the exactness of a sum, product or quotient that the machine would round, except
  where a statement says so.
* The conversion `(int32) d` truncates toward zero; it is undefined for `NaN`,
  the infinities and values outside the `int32` range, which the model reports as
  `none`.
* The working arrays `optPos *op, *np` are functions from read id to `optPos`.
* Read lengths and hangs are mathematical integers; they are far below the `int32`
  range in the program, so no wrap-around is modelled.
* `assert` is enabled: a failed assertion stops the run, and the model says which one.
* The OpenMP loops are run in index order.  Every iteration of such a loop writes only
  the records of its own read or of the reads of its own unitig.
* The `while` loop of the graph walk takes a bound on its iterations (`fuel`).
* Log output is not modelled; it never influences control flow.
-/

namespace Bogart

/-! ## Doubles -/

/-- Idealised IEEE double: exact rationals plus the three special values.  The
arithmetic below is exact on finite values, where the machine rounds every result to
the nearest binary64 number; the special values, the comparisons and the casts follow
IEEE 754 and C.  The evaluations of this development run on values the machine
represents exactly, and its general statements are about which operations are
performed on which operands, with one exception: the convergence bound is derived
from the computed test in this exact arithmetic, and is stated on the computed test
itself as well. -/
inductive Dbl where
  | fin (q : ℚ)
  | pinf
  | ninf
  | nan
deriving DecidableEq

namespace Dbl

/-- Conversion of an integer to `double`. -/
def ofInt (z : Int) : Dbl := fin (z : ℚ)

/-- IEEE negation. -/
def neg : Dbl → Dbl
  | fin a => fin (-a)
  | pinf => ninf
  | ninf => pinf
  | nan => nan

/-- IEEE addition on the special values; on finite values the exact sum, where the
machine returns the sum rounded to the nearest binary64 number. -/
def add : Dbl → Dbl → Dbl
  | fin a, fin b => fin (a + b)
  | fin _, pinf => pinf
  | fin _, ninf => ninf
  | pinf, fin _ => pinf
  | pinf, pinf => pinf
  | ninf, fin _ => ninf
  | ninf, ninf => ninf
  | _, _ => nan

/-- IEEE subtraction. -/
def sub (x y : Dbl) : Dbl := add x (neg y)

/-- Sign-directed infinity: the result of multiplying or dividing an infinity by a
finite value of the given sign. -/
def signedInf (positive : Bool) : Dbl := if positive then pinf else ninf

/-- IEEE multiplication on the special values, `inf * 0 = NaN`; on finite values the
exact product, where the machine returns the product rounded to the nearest binary64
number. -/
def mul : Dbl → Dbl → Dbl
  | fin a, fin b => fin (a * b)
  | fin a, pinf => if a = 0 then nan else signedInf (decide (0 < a))
  | fin a, ninf => if a = 0 then nan else signedInf (decide (a < 0))
  | pinf, fin b => if b = 0 then nan else signedInf (decide (0 < b))
  | ninf, fin b => if b = 0 then nan else signedInf (decide (b < 0))
  | pinf, pinf => pinf
  | pinf, ninf => ninf
  | ninf, pinf => ninf
  | ninf, ninf => pinf
  | _, _ => nan

/-- IEEE division: `0/0 = NaN`, `x/0 = ±inf` by the sign of `x`, `x/±inf = 0`,
`inf/inf = NaN`; on finite values with a divisor other than zero the exact quotient,
where the machine returns the quotient rounded to the nearest binary64 number. -/
def div : Dbl → Dbl → Dbl
  | fin a, fin b =>
      if b = 0 then (if a = 0 then nan else signedInf (decide (0 < a))) else fin (a / b)
  | fin _, pinf => fin 0
  | fin _, ninf => fin 0
  | pinf, fin b => signedInf (decide (0 ≤ b))
  | ninf, fin b => signedInf (decide (b < 0))
  | _, _ => nan

instance : Add Dbl := ⟨add⟩
instance : Sub Dbl := ⟨sub⟩
instance : Mul Dbl := ⟨mul⟩
instance : Div Dbl := ⟨div⟩
instance : Neg Dbl := ⟨neg⟩

/-- The comparison `x < y` of C; false as soon as an operand is `NaN`. -/
def lt : Dbl → Dbl → Bool
  | fin a, fin b => decide (a < b)
  | fin _, pinf => true
  | ninf, fin _ => true
  | ninf, pinf => true
  | _, _ => false

/-- The comparison `x <= y` of C; false as soon as an operand is `NaN`. -/
def le : Dbl → Dbl → Bool
  | fin a, fin b => decide (a ≤ b)
  | fin _, pinf => true
  | ninf, fin _ => true
  | ninf, pinf => true
  | pinf, pinf => true
  | ninf, ninf => true
  | _, _ => false

/-- Truncation of a rational toward zero. -/
def truncQ (q : ℚ) : Int := if 0 ≤ q then Rat.floor q else -Rat.floor (-q)

/-- The cast `(int32) d`: truncation toward zero when the truncated value is
representable, undefined (`none`) otherwise. -/
def toInt32 : Dbl → Option Int
  | fin q =>
      if -2147483648 ≤ truncQ q ∧ truncQ q ≤ 2147483647 then some (truncQ q) else none
  | _ => none

end Dbl

/-! ## Data model -/

/-- Interval of a placed read, `SeqInterval` of `AS_BAT_Unitig.H`. -/
structure SeqInterval where
  bgn : Int
  end_ : Int
deriving DecidableEq

/-- Modelled from the spec: `SeqInterval::min()`, declared in `AS_BAT_Unitig.H`
(not among the sources); the smaller endpoint of the interval. -/
def SeqInterval.min (p : SeqInterval) : Int := if p.bgn < p.end_ then p.bgn else p.end_

/-- Modelled from the spec: `SeqInterval::max()`, declared in `AS_BAT_Unitig.H`
(not among the sources); the larger endpoint of the interval. -/
def SeqInterval.max (p : SeqInterval) : Int := if p.bgn < p.end_ then p.end_ else p.bgn

/-- Modelled from the spec: `SeqInterval::isForward()`, declared in
`AS_BAT_Unitig.H` (not among the sources); `begin < end` encodes forward
orientation. -/
def SeqInterval.isForward (p : SeqInterval) : Bool := decide (p.bgn < p.end_)

/-- Modelled from the spec: `isOverlapping(a, b)`, declared in `AS_BAT_Unitig.H`
(not among the sources); two placed reads overlap when their intervals intersect. -/
def isOverlapping (a b : SeqInterval) : Bool :=
  decide (a.min < b.max) && decide (b.min < a.max)

/-- A placed read, `ufNode`. -/
structure ufNode where
  ident : Nat
  contained : Nat
  parent : Nat
  ahang : Int
  bhang : Int
  position : SeqInterval
deriving DecidableEq

/-- A unitig: its id and its path of placed reads. -/
structure Unitig where
  id : Nat
  ufpath : List ufNode
deriving DecidableEq

/-- The collection of unitigs with its two inverse indices.  Slot `ti` of `tigs` is
`operator[](ti)`; `none` is a `NULL` unitig. -/
structure TigVector where
  tigs : List (Option Unitig)
  inUnitig : Nat → Nat
  ufpathIdx : Nat → Nat

/-- One overlap of the overlap cache, `BAToverlap`. -/
structure BAToverlap where
  b_iid : Nat
  a_hang : Int
  b_hang : Int
deriving DecidableEq

/-- The read store `RI` and the overlap cache `OC`. -/
structure Env where
  numReads : Nat
  readLength : Nat → Nat
  getOverlaps : Nat → List BAToverlap

/-- The working record `optPos`. -/
structure optPos where
  ident : Nat
  min : Dbl
  max : Dbl
  fwd : Bool
deriving DecidableEq

/-- The method `optPos::set`. -/
def optPos.set (n : ufNode) : optPos :=
  { ident := n.ident
    min := Dbl.ofInt n.position.min
    max := Dbl.ofInt n.position.max
    fwd := n.position.isForward }

/-- A zeroed record, as left by `memset(op, 0, ...)`. -/
def optPos.zero : optPos := { ident := 0, min := Dbl.fin 0, max := Dbl.fin 0, fwd := false }

/-- The assignment `op[i].min = v`. -/
def setMin (op : Nat → optPos) (i : Nat) (v : Dbl) : Nat → optPos :=
  fun k => if k = i then { op k with min := v } else op k

/-- The assignment `op[i].max = v`. -/
def setMax (op : Nat → optPos) (i : Nat) (v : Dbl) : Nat → optPos :=
  fun k => if k = i then { op k with max := v } else op k

/-! ## Expansion pass -/

/-- The first statement of the inner loop of `Unitig::optimize_expand` (lines 260 to
265): the adjustment of `op[jid].min` against the read `iid` being stretched. -/
def expand_adjust_min (iid : Nat) (opiimin scale expand : Dbl)
    (op : Nat → optPos) (jid : Nat) : Nat → optPos :=
  if Dbl.lt (op jid).min (op iid).min then op
  else if Dbl.lt (op jid).min (op iid).max then
    setMin op jid (opiimin + ((op jid).min - (op iid).min) * scale)
  else setMin op jid ((op jid).min + expand)

/-- The second statement of the inner loop of `Unitig::optimize_expand` (lines 268 to
273): the adjustment of `op[jid].max`. -/
def expand_adjust_max (iid : Nat) (opiimin scale expand : Dbl)
    (op : Nat → optPos) (jid : Nat) : Nat → optPos :=
  if Dbl.lt (op jid).max (op iid).min then op
  else if Dbl.lt (op jid).max (op iid).max then
    setMax op jid (opiimin + ((op jid).max - (op iid).min) * scale)
  else setMax op jid ((op jid).max + expand)

/-- One iteration of the inner loop of `Unitig::optimize_expand`: the adjustment of
read `jid` against the read `iid` being stretched.  `op[iid]` is read from the
current array at each comparison, as the source does. -/
def optimize_expand_inner (iid : Nat) (opiimin scale expand : Dbl)
    (op : Nat → optPos) (jid : Nat) : Nat → optPos :=
  expand_adjust_max iid opiimin scale expand
    (expand_adjust_min iid opiimin scale expand op jid) jid

/-- One iteration of the outer loop of `Unitig::optimize_expand`, for the path entry
with read id `iid`. -/
def optimize_expand_step (env : Env) (path : List ufNode)
    (op : Nat → optPos) (iid : Nat) : Nat → optPos :=
  let readLen : Int := (env.readLength iid : Int)
  let opiimin := (op iid).min
  let opiimax := (op iid).min + Dbl.ofInt readLen
  let opiilen := (op iid).max - (op iid).min
  if Dbl.le (Dbl.ofInt readLen) opiilen then op
  else
    let scale := Dbl.ofInt readLen / opiilen
    let expand := opiimax - (op iid).max
    let op1 := path.foldl
      (fun o n => optimize_expand_inner iid opiimin scale expand o n.ident) op
    setMax (setMin op1 iid opiimin) iid opiimax

/-- The method `Unitig::optimize_expand`. -/
def Unitig.optimize_expand (env : Env) (u : Unitig) (op : Nat → optPos) : Nat → optPos :=
  u.ufpath.foldl (fun o n => optimize_expand_step env u.ufpath o n.ident) op

/-! ## Commit -/

/-- The body of the loop of `Unitig::optimize_setPositions` for one path entry:
the new interval of the read, or `none` when a cast to `int32` is undefined. -/
def setPosition (op : Nat → optPos) (n : ufNode) : Option ufNode :=
  match Dbl.toInt32 (op n.ident).min, Dbl.toInt32 (op n.ident).max with
  | some lo, some hi =>
      if (op n.ident).fwd then some { n with position := { bgn := lo, end_ := hi } }
      else some { n with position := { bgn := hi, end_ := lo } }
  | _, _ => none

/-- The loop of `Unitig::optimize_setPositions` over the path. -/
def setPositions_path (op : Nat → optPos) : List ufNode → Option (List ufNode)
  | [] => some []
  | n :: ns =>
      match setPosition op n with
      | none => none
      | some n1 =>
          match setPositions_path op ns with
          | none => none
          | some ns1 => some (n1 :: ns1)

/-- The method `Unitig::optimize_setPositions`. -/
def Unitig.optimize_setPositions (u : Unitig) (op : Nat → optPos) : Option Unitig :=
  match setPositions_path op u.ufpath with
  | none => none
  | some p => some { u with ufpath := p }

/-! ## Initial placement and recomputation -/

/-- The ways a run of the optimiser can stop without a result. -/
inductive Fault where
  | assertFailed
  | undefinedCast
  | outOfRange
deriving DecidableEq

/-- The candidate start of read `iid` implied by one overlap, line 120 and line 197
of the source. -/
def candMin (op : Nat → optPos) (iid : Nat) (o : BAToverlap) : Dbl :=
  if (op iid).fwd then (op o.b_iid).min - Dbl.ofInt o.a_hang
  else (op o.b_iid).min + Dbl.ofInt o.b_hang

/-- The candidate end of read `iid` implied by one overlap, line 198 of the source. -/
def candMax (op : Nat → optPos) (iid : Nat) (o : BAToverlap) : Dbl :=
  if (op iid).fwd then (op o.b_iid).max - Dbl.ofInt o.b_hang
  else (op o.b_iid).max + Dbl.ofInt o.a_hang

/-- The overlap loop of `Unitig::optimize_initPlace`: the running sum `nmin` and the
count `cnt` after the overlaps `ovl`. -/
def initPlace_scan (tv : TigVector) (u : Unitig) (ii : Nat) (firstPass : Bool)
    (op : Nat → optPos) (iid : Nat) :
    List BAToverlap → Dbl × Nat → Except Fault (Dbl × Nat)
  | [], acc => .ok acc
  | o :: rest, acc =>
      let jid := o.b_iid
      let uu := tv.inUnitig jid
      let jj := tv.ufpathIdx jid
      if uu ≠ u.id then initPlace_scan tv u ii firstPass op iid rest acc
      else
        match u.ufpath[ii]?, u.ufpath[jj]? with
        | some ni, some nj =>
            if isOverlapping ni.position nj.position = false then
              initPlace_scan tv u ii firstPass op iid rest acc
            else if firstPass && decide (jj > ii) then
              initPlace_scan tv u ii firstPass op iid rest acc
            else
              initPlace_scan tv u ii firstPass op iid rest
                (acc.1 + candMin op iid o, acc.2 + 1)
        | _, _ => .error Fault.outOfRange

/-- The state threaded through the initialisation pass of one unitig. -/
structure InitState where
  op : Nat → optPos
  np : Nat → optPos
  failed : List Nat

/-- The tail of `Unitig::optimize_initPlace` (lines 147 to 151): the forced read
length. -/
def initPlace_store (env : Env) (iid : Nat) (nmin : Dbl) (cnt : Nat)
    (st : InitState) : InitState :=
  let m := if cnt = 0 then Dbl.fin 0 else nmin / Dbl.ofInt cnt
  let op1 := setMin st.op iid m
  let op2 := setMax op1 iid ((op1 iid).min + Dbl.ofInt (env.readLength iid))
  { op := op2, np := setMax (setMin st.np iid (Dbl.fin 0)) iid (Dbl.fin 0), failed := st.failed }

/-- The method `Unitig::optimize_initPlace`. -/
def Unitig.optimize_initPlace (env : Env) (tv : TigVector) (u : Unitig) (ii : Nat)
    (firstPass : Bool) (st : InitState) : Except Fault InitState :=
  match u.ufpath[ii]? with
  | none => .error Fault.outOfRange
  | some n =>
    let iid := n.ident
    if firstPass = false ∧ iid ∉ st.failed then .ok st
    else if ii > 0 then
      match initPlace_scan tv u ii firstPass st.op iid (env.getOverlaps iid) (Dbl.fin 0, 0) with
      | .error e => .error e
      | .ok (nmin, cnt) =>
          if firstPass = true ∧ cnt = 0 then .ok { st with failed := iid :: st.failed }
          else if cnt = 0 then .error Fault.assertFailed
          else .ok (initPlace_store env iid nmin cnt st)
    else .ok (initPlace_store env iid (Dbl.fin 0) 0 st)

/-- The overlap loop of `Unitig::optimize_recompute`: the running sums `nmin`, `nmax`
and the count `cnt` after the overlaps `ovl`. -/
def recompute_scan (tv : TigVector) (u : Unitig) (op : Nat → optPos) (iid : Nat) :
    List BAToverlap → Dbl × Dbl × Nat → Except Fault (Dbl × Dbl × Nat)
  | [], acc => .ok acc
  | o :: rest, acc =>
      let jid := o.b_iid
      let uu := tv.inUnitig jid
      let jj := tv.ufpathIdx jid
      if uu ≠ u.id then recompute_scan tv u op iid rest acc
      else
        match u.ufpath[tv.ufpathIdx iid]?, u.ufpath[jj]? with
        | some ni, some nj =>
            if isOverlapping ni.position nj.position = false then
              recompute_scan tv u op iid rest acc
            else
              recompute_scan tv u op iid rest
                (acc.1 + candMin op iid o, acc.2.1 + candMax op iid o, acc.2.2 + 1)
        | _, _ => .error Fault.outOfRange

/-- The method `Unitig::optimize_recompute`: the new array `np`. -/
def Unitig.optimize_recompute (env : Env) (tv : TigVector) (u : Unitig) (iid : Nat)
    (op np : Nat → optPos) : Except Fault (Nat → optPos) :=
  let readLen : Int := (env.readLength iid : Int)
  match recompute_scan tv u op iid (env.getOverlaps iid) (Dbl.fin 0, Dbl.fin 0, 0) with
  | .error e => .error e
  | .ok (nmin0, nmax0, cnt0) =>
      let nmin := nmin0 + Dbl.ofInt ((cnt0 / 4 : Nat) : Int) * ((op iid).max - Dbl.ofInt readLen)
      let nmax := nmax0 + Dbl.ofInt ((cnt0 / 4 : Nat) : Int) * ((op iid).min + Dbl.ofInt readLen)
      let cnt := cnt0 + cnt0 / 4
      .ok (setMax (setMin np iid (nmin / Dbl.ofInt cnt)) iid (nmax / Dbl.ofInt cnt))

/-! ## The driver `TigVector::optimizePositions` -/

/-- The unitig `operator[](ti)`, or a fault when the slot is out of range or `NULL`
and is dereferenced. -/
def TigVector.deref (tv : TigVector) (ti : Nat) : Except Fault Unitig :=
  match tv.tigs[ti]? with
  | some (some u) => .ok u
  | _ => .error Fault.outOfRange

/-- The snapshot loop (lines 358 to 367) for one read id. -/
def snapshot_step (tv : TigVector) (acc : (Nat → optPos) × (Nat → optPos)) (fi : Nat) :
    Except Fault ((Nat → optPos) × (Nat → optPos)) :=
  if tv.inUnitig fi = 0 then .ok acc
  else
    match tv.deref (tv.inUnitig fi) with
    | .error e => .error e
    | .ok u =>
        match u.ufpath[tv.ufpathIdx fi]? with
        | none => .error Fault.outOfRange
        | some n =>
            .ok (fun k => if k = fi then optPos.set n else acc.1 k,
                 fun k => if k = fi then optPos.set n else acc.2 k)

/-- A loop over a list whose body can fault. -/
def foldE {α β : Type} (f : α → β → Except Fault α) : List β → α → Except Fault α
  | [], a => .ok a
  | b :: bs, a =>
      match f a b with
      | .error e => .error e
      | .ok a1 => foldE f bs a1

/-- The snapshot: both working arrays zeroed, then filled from the placed reads. -/
def snapshot (env : Env) (tv : TigVector) :
    Except Fault ((Nat → optPos) × (Nat → optPos)) :=
  foldE (snapshot_step tv) (List.range (env.numReads + 1))
    (fun _ => optPos.zero, fun _ => optPos.zero)

/-- The two initialisation passes over one unitig (lines 381 to 391). -/
def initTig (env : Env) (tv : TigVector) (acc : (Nat → optPos) × (Nat → optPos))
    (t : Option Unitig) : Except Fault ((Nat → optPos) × (Nat → optPos)) :=
  match t with
  | none => .ok acc
  | some u =>
      match foldE (fun st ii => u.optimize_initPlace env tv ii true st)
          (List.range u.ufpath.length) { op := acc.1, np := acc.2, failed := [] } with
      | .error e => .error e
      | .ok st1 =>
          match foldE (fun st ii => u.optimize_initPlace env tv ii false st)
              (List.range u.ufpath.length) st1 with
          | .error e => .error e
          | .ok st2 => .ok (st2.op, st2.np)

/-- The working arrays `op` and `np` when the refinement loop starts: the snapshot
followed by the initialisation pass over all unitigs. -/
def initArrays (env : Env) (tv : TigVector) :
    Except Fault ((Nat → optPos) × (Nat → optPos)) :=
  match snapshot env tv with
  | .error e => .error e
  | .ok s0 => foldE (initTig env tv) tv.tigs s0

/-- The recompute loop of one round (lines 406 to 413) for one read id. -/
def recompute_step (env : Env) (tv : TigVector) (op : Nat → optPos)
    (np : Nat → optPos) (fi : Nat) : Except Fault (Nat → optPos) :=
  if tv.inUnitig fi = 0 then .ok np
  else
    match tv.deref (tv.inUnitig fi) with
    | .error e => .error e
    | .ok u => u.optimize_recompute env tv fi op np

/-- The reset-zero step (lines 419 to 433) for one unitig. -/
def resetZero (np : Nat → optPos) (t : Option Unitig) : Except Fault (Nat → optPos) :=
  match t with
  | none => .ok np
  | some u =>
      match u.ufpath with
      | [] => .error Fault.outOfRange
      | first :: _ =>
          match Dbl.toInt32 (np first.ident).min with
          | none => .error Fault.undefinedCast
          | some z =>
              .ok (u.ufpath.foldl
                (fun a n =>
                  let a1 := setMin a n.ident ((a n.ident).min - Dbl.ofInt z)
                  setMax a1 n.ident ((a1 n.ident).max - Dbl.ofInt z)) np)

/-- The absolute value computed by `if (x < 0) x = -x`. -/
def absIf (x : Dbl) : Dbl := if Dbl.lt x (Dbl.fin 0) then -x else x

/-- The convergence test of one read (lines 444 to 450). -/
def isConverged (env : Env) (op np : Nat → optPos) (fi : Nat) : Bool :=
  let minp := absIf ((Dbl.fin 2 * ((op fi).min - (np fi).min)) / Dbl.ofInt (env.readLength fi))
  let maxp := absIf ((Dbl.fin 2 * ((op fi).max - (np fi).max)) / Dbl.ofInt (env.readLength fi))
  Dbl.lt minp (Dbl.fin (5 / 1000)) && Dbl.lt maxp (Dbl.fin (5 / 1000))

/-- The counter `nChanged` of one round. -/
def countChanged (env : Env) (op np : Nat → optPos) : Nat :=
  ((List.range (env.numReads + 1)).filter (fun fi => !isConverged env op np fi)).length

/-- What one refinement round leaves: the array `op` it read, the zero-reset array
`np` it wrote, and its counter `nChanged`. -/
structure Round where
  op : Nat → optPos
  np : Nat → optPos
  nChanged : Nat

/-- One round of the refinement loop, up to the convergence count (lines 401 to
454). -/
def refineRound (env : Env) (tv : TigVector) (op np : Nat → optPos) : Except Fault Round :=
  match foldE (recompute_step env tv op) (List.range (env.numReads + 1)) np with
  | .error e => .error e
  | .ok np1 =>
      match foldE resetZero tv.tigs np1 with
      | .error e => .error e
      | .ok np2 => .ok { op := op, np := np2, nChanged := countChanged env op np2 }

/-- The outcome of the refinement loop: the arrays after the last swap and the number
of rounds that were executed. -/
structure Refined where
  op : Nat → optPos
  np : Nat → optPos
  rounds : Nat

/-- The refinement loop `for (iter = 0; iter < 5; iter++)` with `left` iterations
still allowed: each round ends with the swap of `op` and `np` and breaks when
`nChanged == 0`. -/
def refineLoop (env : Env) (tv : TigVector) :
    Nat → (Nat → optPos) → (Nat → optPos) → Except Fault Refined
  | 0, op, np => .ok { op := op, np := np, rounds := 0 }
  | left + 1, op, np =>
      match refineRound env tv op np with
      | .error e => .error e
      | .ok r =>
          if r.nChanged = 0 then .ok { op := r.np, np := r.op, rounds := 1 }
          else
            match refineLoop env tv left r.np r.op with
            | .error e => .error e
            | .ok res => .ok { res with rounds := res.rounds + 1 }

/-- The expansion pass over all unitigs (lines 477 to 484). -/
def expandAll (env : Env) (tv : TigVector) (op : Nat → optPos) : Nat → optPos :=
  tv.tigs.foldl
    (fun a t => match t with
      | none => a
      | some u => u.optimize_expand env a) op

/-- The commit of one slot (lines 493 to 498): `optimize_setPositions` on a unitig
that is not `NULL`. -/
def commitTig (op : Nat → optPos) (t : Option Unitig) : Except Fault (Option Unitig) :=
  match t with
  | none => .ok none
  | some u =>
      match u.optimize_setPositions op with
      | none => .error Fault.undefinedCast
      | some u1 => .ok (some u1)

/-- The commit loop over all slots. -/
def commitAll (op : Nat → optPos) :
    List (Option Unitig) → Except Fault (List (Option Unitig))
  | [] => .ok []
  | t :: ts =>
      match commitTig op t with
      | .error e => .error e
      | .ok t1 =>
          match commitAll op ts with
          | .error e => .error e
          | .ok ts1 => .ok (t1 :: ts1)

/-- The working arrays of `TigVector::optimizePositions` when the expansion pass has
run and the commit is about to start. -/
def optimizeArrays (env : Env) (tv : TigVector) : Except Fault Refined :=
  match initArrays env tv with
  | .error e => .error e
  | .ok s1 =>
      match refineLoop env tv 5 s1.1 s1.2 with
      | .error e => .error e
      | .ok r => .ok { r with op := expandAll env tv r.op }

/-- The unitigs of `TigVector::optimizePositions` as `optimize_setPositions` commits
them, before the external `Unitig::cleanUp` is applied to each. -/
def TigVector.committedPositions (env : Env) (tv : TigVector) :
    Except Fault (List (Option Unitig)) :=
  match optimizeArrays env tv with
  | .error e => .error e
  | .ok r => commitAll r.op tv.tigs

/-- The method `TigVector::optimizePositions`: the unitigs it leaves.  The external
`Unitig::cleanUp` is a parameter; it is applied to every committed unitig. -/
def TigVector.optimizePositions (env : Env) (cleanUp : Unitig → Unitig) (tv : TigVector) :
    Except Fault (List (Option Unitig)) :=
  match tv.committedPositions env with
  | .error e => .error e
  | .ok l => .ok (l.map (fun t => t.map cleanUp))

/-! ## Unitig construction -/

/-- A best edge, `BestEdgeOverlap`.  The null edge is the edge with `readId = 0`. -/
structure BestEdgeOverlap where
  readId : Nat
  read3p : Bool
  ahang : Int
  bhang : Int
  evalue : Nat
deriving DecidableEq

/-- Modelled from the spec: `BestEdgeOverlap::set`, declared in
`AS_BAT_BestOverlapGraph.H` (not among the sources); it fills the edge record, its
arguments in the order target read, target end, a-hang, b-hang, score. -/
def BestEdgeOverlap.set (id : Nat) (r3p : Bool) (ah bh : Int) (ev : Nat) : BestEdgeOverlap :=
  { readId := id, read3p := r3p, ahang := ah, bhang := bh, evalue := ev }

/-- The read store `RI` and the best overlap graph `OG` as the builder consults them,
with the external `Unitig::placeRead`: from the vector, the unitig, the incoming value
of `read`, the read to place, its end and the reversed edge it returns the placed
node, or `none` when it returns `false`. -/
structure Graph where
  readLength : Nat → Nat
  getBestEdgeOverlap : Nat → Bool → BestEdgeOverlap
  isContained : Nat → Bool
  isZombie : Nat → Bool
  isSuspicious : Nat → Bool
  placeRead : TigVector → Unitig → ufNode → Nat → Bool → BestEdgeOverlap → Option ufNode

/-- The unitig behind the pointer `operator[](tid)`; an empty unitig stands for a
slot that holds none. -/
def TigVector.tig (tv : TigVector) (tid : Nat) : Unitig :=
  match tv.tigs[tid]? with
  | some (some u) => u
  | _ => { id := tid, ufpath := [] }

/-- Modelled from the spec: `TigVector::newUnitig`, defined in `AS_BAT_TigVector.C`
(not among the sources); it creates an empty unitig in a fresh slot at the end of
the vector and returns its id. -/
def TigVector.newUnitig (tv : TigVector) : TigVector × Nat :=
  ({ tv with tigs := tv.tigs ++ [some { id := tv.tigs.length, ufpath := [] }] },
   tv.tigs.length)

/-- Modelled from the spec: `Unitig::addRead(node, offset, report)`, defined in
`AS_BAT_Unitig_AddRead.C` (not among the sources); it appends the node, shifted by
`offset`, to the path of unitig `tid` and records the read in both inverse indices
of the vector. -/
def TigVector.addRead (tv : TigVector) (tid : Nat) (node : ufNode) (offset : Int) :
    TigVector :=
  let u := tv.tig tid
  let placed : ufNode :=
    { node with position :=
        { bgn := node.position.bgn + offset, end_ := node.position.end_ + offset } }
  { tigs := tv.tigs.set tid (some { u with ufpath := u.ufpath ++ [placed] })
    inUnitig := fun k => if k = node.ident then tid else tv.inUnitig k
    ufpathIdx := fun k => if k = node.ident then u.ufpath.length else tv.ufpathIdx k }

/-- Modelled from the spec: `Unitig::getLength()`, declared in `AS_BAT_Unitig.H` (not
among the sources); the largest coordinate of a placed read, `0` for an empty
unitig. -/
def Unitig.getLength (u : Unitig) : Int :=
  u.ufpath.foldl (fun m n => if m < n.position.max then n.position.max else m) 0

/-- Modelled from the spec: `Unitig::reverseComplement(false)`, defined in
`AS_BAT_Unitig.C` (not among the sources); it mirrors every interval of unitig `tid`
within the unitig length, which flips its orientation, and reverses the path, so that
the seed becomes the last read, and records the new path positions. -/
def TigVector.reverseComplement (tv : TigVector) (tid : Nat) : TigVector :=
  let u := tv.tig tid
  let len := u.getLength
  let flipped : List ufNode :=
    (u.ufpath.map (fun n => { n with position :=
        { bgn := len - n.position.bgn, end_ := len - n.position.end_ } })).reverse
  { tigs := tv.tigs.set tid (some { u with ufpath := flipped })
    inUnitig := tv.inUnitig
    ufpathIdx := fun k =>
      match flipped.findIdx? (fun n => n.ident = k) with
      | some i => i
      | none => tv.ufpathIdx k }

/-- How a call of `populateUnitig` ends, with the vector as it stands at that point:
normal return, a failed dovetail assertion (lines 167 to 170), the failed placement
`assert(0)` (line 90), the failed `assert(unitig->getLength() > 0)` (line 51), or the
loop bound of the model being reached. -/
inductive Outcome where
  | done (tv : TigVector)
  | dovetailFailed (tv : TigVector)
  | placeFailed (tv : TigVector)
  | lengthFailed (tv : TigVector)
  | outOfFuel (tv : TigVector)

/-- The vector an outcome carries. -/
def Outcome.tv : Outcome → TigVector
  | done tv => tv
  | dovetailFailed tv => tv
  | placeFailed tv => tv
  | lengthFailed tv => tv
  | outOfFuel tv => tv

/-- The call returned normally. -/
def Outcome.isDone : Outcome → Bool
  | done _ => true
  | _ => false

/-- The call stopped at a dovetail assertion. -/
def Outcome.isDovetailFailed : Outcome → Bool
  | dovetailFailed _ => true
  | _ => false

/-- The reversed edge `bestprev` built at lines 76 to 79. -/
def reverseEdge (lastID : Nat) (last3p : Bool) (bestnext : BestEdgeOverlap) :
    BestEdgeOverlap :=
  if last3p = bestnext.read3p then
    BestEdgeOverlap.set lastID last3p bestnext.bhang bestnext.ahang bestnext.evalue
  else
    BestEdgeOverlap.set lastID last3p (-bestnext.ahang) (-bestnext.bhang) bestnext.evalue

/-- The `while` loop of `populateUnitig(Unitig *, BestEdgeOverlap *)` (lines 68 to
99), run for at most `fuel` iterations on unitig `tid`. -/
def populateUnitig_loop (g : Graph) (tid : Nat) :
    Nat → TigVector → ufNode → Nat → Bool → BestEdgeOverlap → Outcome
  | 0, tv, _, _, _, bestnext =>
      if bestnext.readId ≠ 0 ∧ tv.inUnitig bestnext.readId = 0 then Outcome.outOfFuel tv
      else Outcome.done tv
  | fuel + 1, tv, read, lastID, last3p, bestnext =>
      if bestnext.readId ≠ 0 ∧ tv.inUnitig bestnext.readId = 0 then
        let bestprev := reverseEdge lastID last3p bestnext
        match g.placeRead tv (tv.tig tid) read bestnext.readId bestnext.read3p bestprev with
        | none => Outcome.placeFailed tv
        | some read1 =>
            let tv1 := tv.addRead tid read1 0
            let lastID1 := read1.ident
            let last3p1 := decide (read1.position.bgn < read1.position.end_)
            populateUnitig_loop g tid fuel tv1 read1 lastID1 last3p1
              (g.getBestEdgeOverlap lastID1 last3p1)
      else Outcome.done tv

/-- The function `populateUnitig(Unitig *unitig, BestEdgeOverlap *bestnext)`, on the
unitig `tid` of the vector. -/
def populateUnitig_edge (g : Graph) (fuel : Nat) (tv : TigVector) (tid : Nat)
    (bestnext : BestEdgeOverlap) : Outcome :=
  if ¬ (tv.tig tid).getLength > 0 then Outcome.lengthFailed tv
  else if bestnext.readId = 0 then Outcome.done tv
  else
    match (tv.tig tid).ufpath.getLast? with
    | none => Outcome.lengthFailed tv
    | some read =>
        populateUnitig_loop g tid fuel tv read read.ident
          (decide (read.position.bgn < read.position.end_)) bestnext

/-- The first read of a new unitig (lines 134 to 142). -/
def seedNode (g : Graph) (fi : Nat) : ufNode :=
  { ident := fi, contained := 0, parent := 0, ahang := 0, bhang := 0
    position := { bgn := (g.readLength fi : Int), end_ := 0 } }

/-- The vector after lines 129 to 144: a new unitig holding the seed alone. -/
def seedTig (g : Graph) (tv : TigVector) (fi : Nat) : TigVector :=
  (tv.newUnitig).1.addRead (tv.newUnitig).2 (seedNode g fi) 0

/-- The function `populateUnitig(TigVector &tigs, int32 fi)`. -/
def populateUnitig (g : Graph) (fuel : Nat) (tv : TigVector) (fi : Nat) : Outcome :=
  if g.readLength fi = 0 ∨ tv.inUnitig fi ≠ 0 then Outcome.done tv
  else if g.isContained fi = true ∧ g.isZombie fi = false then Outcome.done tv
  else
    let tid := (tv.newUnitig).2
    let tv2 := seedTig g tv fi
    if g.isSuspicious fi then Outcome.done tv2
    else if g.isZombie fi then Outcome.done tv2
    else
      let bestedge5 := g.getBestEdgeOverlap fi false
      let bestedge3 := g.getBestEdgeOverlap fi true
      if ¬ (bestedge5.ahang ≤ 0 ∧ bestedge5.bhang ≤ 0 ∧
            bestedge3.ahang ≥ 0 ∧ bestedge3.bhang ≥ 0) then Outcome.dovetailFailed tv2
      else
        let r5 :=
          if bestedge5.readId ≠ 0 then populateUnitig_edge g fuel tv2 tid bestedge5
          else Outcome.done tv2
        match r5 with
        | Outcome.done tv3 =>
            let tv4 := tv3.reverseComplement tid
            if bestedge3.readId ≠ 0 then populateUnitig_edge g fuel tv4 tid bestedge3
            else Outcome.done tv4
        | other => other

/-- The first refinement round of `TigVector::optimizePositions`: the round run on the
arrays the initialisation pass leaves. -/
def firstRound (env : Env) (tv : TigVector) : Except Fault Round :=
  match initArrays env tv with
  | .error e => .error e
  | .ok s => refineRound env tv s.1 s.2

/-! ## Example inputs -/

/-- A placed read with no provenance, at `[b, e)`. -/
def plainNode (i : Nat) (b e : Int) : ufNode :=
  { ident := i, contained := 0, parent := 0, ahang := 0, bhang := 0
    position := { bgn := b, end_ := e } }

/-- Three reads of length 10 whose pairwise hangs do not add up exactly: read 2 lies
5 before read 1, read 3 lies 3 before read 1, and read 3 lies 3 after read 2.  Every
overlap is recorded in both reads' lists with opposite hangs. -/
def discordEnv : Env where
  numReads := 3
  readLength := fun i => if i = 0 then 0 else 10
  getOverlaps := fun i =>
    if i = 1 then [⟨2, -5, -5⟩, ⟨3, -3, -3⟩]
    else if i = 2 then [⟨1, 5, 5⟩, ⟨3, 3, 3⟩]
    else if i = 3 then [⟨1, 3, 3⟩, ⟨2, -3, -3⟩]
    else []

/-- One unitig with path `[1, 2, 3]`, all forward, at `[5,15)`, `[0,10)`, `[2,12)`. -/
def discordTigs : TigVector where
  tigs := [none, some ⟨1, [plainNode 1 5 15, plainNode 2 0 10, plainNode 3 2 12]⟩]
  inUnitig := fun i => if 1 ≤ i ∧ i ≤ 3 then 1 else 0
  ufpathIdx := fun i => i - 1

/-- One read of length 10 with no overlap. -/
def singletonEnv : Env where
  numReads := 1
  readLength := fun i => if i = 1 then 10 else 0
  getOverlaps := fun _ => []

/-- One unitig holding read 1 alone, forward at `[0,10)` or reverse at `[10,0)`. -/
def singletonTigs (forward : Bool) : TigVector where
  tigs := [none, some ⟨1, [if forward then plainNode 1 0 10 else plainNode 1 10 0]⟩]
  inUnitig := fun i => if i = 1 then 1 else 0
  ufpathIdx := fun _ => 0

/-- Two reads of length 500 joined by one overlap with both hangs 0, recorded in both
reads' lists; `len0` is the length the read store reports for read id 0. -/
def coincidentEnv (len0 : Nat) : Env where
  numReads := 2
  readLength := fun i => if i = 0 then len0 else 500
  getOverlaps := fun i => if i = 1 then [⟨2, 0, 0⟩] else if i = 2 then [⟨1, 0, 0⟩] else []

/-- One unitig with path `[1, 2]`: read 1 at `[0,500)` and read 2 at `[10,510)`. -/
def coincidentTigs : TigVector where
  tigs := [none, some ⟨1, [plainNode 1 0 500, plainNode 2 10 510]⟩]
  inUnitig := fun i => if i = 1 ∨ i = 2 then 1 else 0
  ufpathIdx := fun i => if i = 2 then 1 else 0

/-- The null edge. -/
def nullEdge : BestEdgeOverlap :=
  { readId := 0, read3p := false, ahang := 0, bhang := 0, evalue := 0 }

/-- The graph of the construction example: reads 1 (`R`) and 2 (`S`) of length 1000,
the 5' best edge of `R` pointing to `S` with hangs `ah` and `bh`, no other edge, no
read contained, zombie or suspicious, and a `placeRead` that always succeeds. -/
def seedGraph (ah bh : Int) : Graph where
  readLength := fun i => if i = 1 ∨ i = 2 then 1000 else 0
  getBestEdgeOverlap := fun i e =>
    if i = 1 ∧ e = false then
      { readId := 2, read3p := true, ahang := ah, bhang := bh, evalue := 0 }
    else nullEdge
  isContained := fun _ => false
  isZombie := fun _ => false
  isSuspicious := fun _ => false
  placeRead := fun _ _ _ id _ e =>
    some { ident := id, contained := 0, parent := e.readId, ahang := e.ahang,
           bhang := e.bhang, position := { bgn := 2000, end_ := 1000 } }

/-- A vector with no unitig yet: slot 0 is the reserved `NULL` and every read is
unplaced. -/
def emptyTigs : TigVector where
  tigs := [none]
  inUnitig := fun _ => 0
  ufpathIdx := fun _ => 0

/-! ## Predicates of the statements -/

/-- Two records of read `fi` agree within 0.5% of the read length: both `min` and both
`max` are finite and differ by at most `0.005 * readLength(fi)`. -/
def Within (env : Env) (a b : optPos) (fi : Nat) : Prop :=
  ∃ a1 b1 a2 b2 : ℚ,
    a.min = Dbl.fin a1 ∧ b.min = Dbl.fin b1 ∧ a.max = Dbl.fin a2 ∧ b.max = Dbl.fin b2 ∧
    |a1 - b1| ≤ 5 / 1000 * (env.readLength fi : ℚ) ∧
    |a2 - b2| ≤ 5 / 1000 * (env.readLength fi : ℚ)

/-- Two working arrays carry the same `fwd` and `ident` in every record. -/
def SameFrame (a b : Nat → optPos) : Prop :=
  ∀ k, (a k).fwd = (b k).fwd ∧ (a k).ident = (b k).ident

/-- The result of a refinement loop that returned; a zeroed result stands for a loop
that did not. -/
def refinedOf (x : Except Fault Refined) : Refined :=
  match x with
  | .ok r => r
  | .error _ => { op := fun _ => optPos.zero, np := fun _ => optPos.zero, rounds := 0 }

/-- A working array with the two coincident reads both at `[0, 500]`. -/
def coincidentOp : Nat → optPos :=
  fun i => if i = 1 ∨ i = 2 then { ident := i, min := Dbl.fin 0, max := Dbl.fin 500, fwd := true }
    else optPos.zero

/-- The pair of working arrays of a step that returned; zeroed arrays stand for a
step that did not. -/
def arraysOf (x : Except Fault ((Nat → optPos) × (Nat → optPos))) :
    (Nat → optPos) × (Nat → optPos) :=
  match x with
  | .ok s => s
  | .error _ => (fun _ => optPos.zero, fun _ => optPos.zero)

/-- A unitig holding read 1 alone. -/
def loneTig : Unitig := { id := 1, ufpath := [plainNode 1 0 10] }

/-- A working array whose coordinates are all `NaN`, as `optimize_recompute` leaves
them for a read without a qualifying overlap. -/
def nanOp : Nat → optPos :=
  fun i => { ident := i, min := Dbl.nan, max := Dbl.nan, fwd := true }

/-- The unitig of the three discordant reads. -/
def discordTig : Unitig :=
  { id := 1, ufpath := [plainNode 1 5 15, plainNode 2 0 10, plainNode 3 2 12] }

/-- A working array that places every read at `[i, i + 5]`, shorter than the read
length 10 of the example reads. -/
def shortOp : Nat → optPos :=
  fun i => { ident := i, min := Dbl.fin i, max := Dbl.fin (i + 5), fwd := true }

/-! ## Qualifying overlaps -/

/-- The test an overlap passes in the loop of `Unitig::optimize_initPlace` before it
contributes (lines 93 to 115): the partner is in this unitig, the two placed intervals
intersect and, in the first pass, the partner is not after the read in the path. -/
def initPlace_qualifies (tv : TigVector) (u : Unitig) (ii : Nat) (firstPass : Bool)
    (o : BAToverlap) : Bool :=
  decide (tv.inUnitig o.b_iid = u.id) &&
    (match u.ufpath[ii]?, u.ufpath[tv.ufpathIdx o.b_iid]? with
      | some ni, some nj =>
          isOverlapping ni.position nj.position &&
            !(firstPass && decide (tv.ufpathIdx o.b_iid > ii))
      | _, _ => false)

/-- The test an overlap passes in the loop of `Unitig::optimize_recompute` before it
contributes (lines 188 to 192): the partner is in this unitig and the two placed
intervals intersect. -/
def recompute_qualifies (tv : TigVector) (u : Unitig) (iid : Nat) (o : BAToverlap) : Bool :=
  decide (tv.inUnitig o.b_iid = u.id) &&
    (match u.ufpath[tv.ufpathIdx iid]?, u.ufpath[tv.ufpathIdx o.b_iid]? with
      | some ni, some nj => isOverlapping ni.position nj.position
      | _, _ => false)

/-- The running sum `s += x` over a list of doubles, in list order. -/
def dsum (s : Dbl) (l : List Dbl) : Dbl := l.foldl (fun a x => a + x) s

/-- The path entries the loops index are there: the entry of the read itself, and the
entry of every overlap partner that is in this unitig. -/
def IndexedIn (tv : TigVector) (u : Unitig) (ii : Nat) (ovl : List BAToverlap) : Prop :=
  (∃ ni, u.ufpath[ii]? = some ni) ∧
  ∀ o ∈ ovl, tv.inUnitig o.b_iid = u.id → ∃ nj, u.ufpath[tv.ufpathIdx o.b_iid]? = some nj

/-- Two reads of length 10 in one unitig and no overlap between them. -/
def strandedEnv : Env where
  numReads := 2
  readLength := fun i => if i = 0 then 0 else 10
  getOverlaps := fun _ => []

/-- The unitig of the two stranded reads: path `[1, 2]` at `[0,10)` and `[5,15)`. -/
def strandedTig : Unitig := { id := 1, ufpath := [plainNode 1 0 10, plainNode 2 5 15] }

/-- The vector that holds the unitig of the two stranded reads. -/
def strandedTigs : TigVector where
  tigs := [none, some strandedTig]
  inUnitig := fun i => if i = 1 ∨ i = 2 then 1 else 0
  ufpathIdx := fun i => if i = 2 then 1 else 0

/-- The state of the initialisation pass of the stranded unitig when its second pass
starts: read 1 at `[0, 10]`, read 2 as the snapshot left it and marked failed. -/
def strandedState : InitState where
  op := fun i =>
    if i = 1 then { ident := 1, min := Dbl.fin 0, max := Dbl.fin 10, fwd := true }
    else if i = 2 then { ident := 2, min := Dbl.fin 5, max := Dbl.fin 15, fwd := true }
    else optPos.zero
  np := fun i =>
    if i = 1 then { ident := 1, min := Dbl.fin 0, max := Dbl.fin 0, fwd := true }
    else if i = 2 then { ident := 2, min := Dbl.fin 5, max := Dbl.fin 15, fwd := true }
    else optPos.zero
  failed := [2]

/-- The fault of a step that stopped; `none` for a step that returned. -/
def faultOf {α : Type} (x : Except Fault α) : Option Fault :=
  match x with
  | .ok _ => none
  | .error e => some e

/-- The value the specification gives for a recomputed coordinate: the sum of the `c`
candidates plus read-length evidence anchored at `anchor`, the evidence weighted by
one quarter of `c`, divided by the total weight. -/
def spec_quarter_weighted (sum : Dbl) (c : Nat) (anchor : Dbl) : Dbl :=
  (sum + Dbl.fin ((c : ℚ) / 4) * anchor) / Dbl.fin ((c : ℚ) + (c : ℚ) / 4)

/-- A working array with the two coincident reads at their perturbed starting places:
read 1 at `[0, 500]` and read 2 at `[10, 510]`. -/
def perturbedOp : Nat → optPos :=
  fun i =>
    if i = 1 then { ident := 1, min := Dbl.fin 0, max := Dbl.fin 500, fwd := true }
    else if i = 2 then { ident := 2, min := Dbl.fin 10, max := Dbl.fin 510, fwd := true }
    else optPos.zero

/-- The unitig of the two coincident reads. -/
def coincidentTig : Unitig := { id := 1, ufpath := [plainNode 1 0 500, plainNode 2 10 510] }

/-- The array a recomputation returned; a zeroed array stands for one that did not. -/
def arrayOf (x : Except Fault (Nat → optPos)) : Nat → optPos :=
  match x with
  | .ok a => a
  | .error _ => fun _ => optPos.zero

/-- The qualifying overlaps of read `iid` in `optimize_recompute`, in list order. -/
def recompute_quals (env : Env) (tv : TigVector) (u : Unitig) (iid : Nat) : List BAToverlap :=
  (env.getOverlaps iid).filter (recompute_qualifies tv u iid)

/-- The qualifying overlaps of the read at path index `ii` in `optimize_initPlace`, in
list order. -/
def initPlace_quals (env : Env) (tv : TigVector) (u : Unitig) (ii : Nat) (firstPass : Bool)
    (iid : Nat) : List BAToverlap :=
  (env.getOverlaps iid).filter (initPlace_qualifies tv u ii firstPass)

/-- What one iteration of the recompute loop writes for read `fi`, computed from `op`
alone: nothing for a read in no unitig, else the new `np[fi].min` and `np[fi].max`. -/
def recompute_write (env : Env) (tv : TigVector) (op : Nat → optPos) (fi : Nat) :
    Except Fault (Option (Dbl × Dbl)) :=
  if tv.inUnitig fi = 0 then .ok none
  else
    match tv.deref (tv.inUnitig fi) with
    | .error e => .error e
    | .ok u =>
        match recompute_scan tv u op fi (env.getOverlaps fi) (Dbl.fin 0, Dbl.fin 0, 0) with
        | .error e => .error e
        | .ok (nmin0, nmax0, cnt0) =>
            .ok (some
              ((nmin0 + Dbl.ofInt ((cnt0 / 4 : Nat) : Int) *
                  ((op fi).max - Dbl.ofInt (env.readLength fi))) / Dbl.ofInt (cnt0 + cnt0 / 4 : Nat),
               (nmax0 + Dbl.ofInt ((cnt0 / 4 : Nat) : Int) *
                  ((op fi).min + Dbl.ofInt (env.readLength fi))) / Dbl.ofInt (cnt0 + cnt0 / 4 : Nat)))

/-- The effect of a write of the recompute loop on `np`. -/
def applyWrite (np : Nat → optPos) (fi : Nat) (w : Option (Dbl × Dbl)) : Nat → optPos :=
  match w with
  | none => np
  | some v => setMax (setMin np fi v.1) fi v.2

/-- Two iterations of the recompute loop in sequence: read `a`, then read `b`. -/
def recompute_two (env : Env) (tv : TigVector) (op np : Nat → optPos) (a b : Nat) :
    Except Fault (Nat → optPos) :=
  match recompute_step env tv op np a with
  | .error e => .error e
  | .ok np1 => recompute_step env tv op np1 b

/-- The working array of the lone read when the refinement starts: `[0, 10]`. -/
def singletonOp : Nat → optPos :=
  fun i => if i = 1 then { ident := 1, min := Dbl.fin 0, max := Dbl.fin 10, fwd := true }
    else optPos.zero

/-- The value of `(int32) d` where the cast is defined, `0` where it is not. -/
def Dbl.trunc32 (d : Dbl) : Int := (Dbl.toInt32 d).getD 0

/-- The entry the specification describes for a committed read: `[min, max)` truncated
for a forward read, `[max, min)` truncated for a reverse read, everything else as it
was. -/
def spec_commit (op : Nat → optPos) (n : ufNode) : ufNode :=
  { n with position :=
      if (op n.ident).fwd then
        { bgn := Dbl.trunc32 (op n.ident).min, end_ := Dbl.trunc32 (op n.ident).max }
      else
        { bgn := Dbl.trunc32 (op n.ident).max, end_ := Dbl.trunc32 (op n.ident).min } }

/-- Both casts of the commit are defined for the record of read `i`. -/
def Castable (op : Nat → optPos) (i : Nat) : Prop :=
  (Dbl.toInt32 (op i).min).isSome = true ∧ (Dbl.toInt32 (op i).max).isSome = true

/-- A best edge to read 2 entering on its 3' end (`true`) or 5' end (`false`), with
hangs 3 and 5. -/
def sampleEdge (read3p : Bool) : BestEdgeOverlap :=
  { readId := 2, read3p := read3p, ahang := 3, bhang := 5, evalue := 0 }

/-! ## Membership of reads in unitigs -/

/-- The read ids of the path held in one slot of the vector. -/
def slotIdents : Option Unitig → List Nat
  | none => []
  | some u => u.ufpath.map ufNode.ident

/-- The read ids of all paths of the vector, slot after slot. -/
def allIdents : List (Option Unitig) → List Nat
  | [] => []
  | t :: ts => slotIdents t ++ allIdents ts

/-- The membership invariant of a vector: slot 0 exists (it is the reserved `NULL`, so
unitig ids start at 1), no read id occurs twice in the paths of the vector, neither
in two unitigs nor twice in one, and every read of a path is recorded as placed. -/
def TigVector.Consistent (tv : TigVector) : Prop :=
  0 < tv.tigs.length ∧ (allIdents tv.tigs).Nodup ∧ ∀ k ∈ allIdents tv.tigs, tv.inUnitig k ≠ 0

/-- The contract of the external `placeRead`: the node it returns is the read it was
asked to place. -/
def Graph.PlacesAsked (g : Graph) : Prop :=
  ∀ (tv : TigVector) (u : Unitig) (r : ufNode) (id : Nat) (r3p : Bool) (e : BestEdgeOverlap)
    (n : ufNode), g.placeRead tv u r id r3p e = some n → n.ident = id

/-- The seed filter of `populateUnitig(TigVector &, int32)` (lines 121 to 127): the
read is deleted, already placed, or contained and not a zombie. -/
def seedFiltered (g : Graph) (tv : TigVector) (fi : Nat) : Prop :=
  g.readLength fi = 0 ∨ tv.inUnitig fi ≠ 0 ∨ (g.isContained fi = true ∧ g.isZombie fi = false)

/-- The overlaps the specification names for the first initialisation pass: the
partner is in the same unitig, lies earlier in the path, and its placed interval
intersects that of the read. -/
def spec_earlier (tv : TigVector) (u : Unitig) (ii : Nat) (o : BAToverlap) : Bool :=
  decide (tv.inUnitig o.b_iid = u.id) && decide (tv.ufpathIdx o.b_iid < ii) &&
    (match u.ufpath[ii]?, u.ufpath[tv.ufpathIdx o.b_iid]? with
      | some ni, some nj => isOverlapping ni.position nj.position
      | _, _ => false)

/-- No overlap of the list has its partner at path index `ii` of this unitig: the read
at `ii` has no overlap with itself. -/
def NoSelfOverlap (tv : TigVector) (u : Unitig) (ii : Nat) (ovl : List BAToverlap) : Prop :=
  ∀ o ∈ ovl, tv.inUnitig o.b_iid = u.id → tv.ufpathIdx o.b_iid ≠ ii

/-- The state of an initialisation step that returned; the given state stands for a
step that did not. -/
def stateOf (d : InitState) (x : Except Fault InitState) : InitState :=
  match x with
  | .ok s => s
  | .error _ => d

/-- The state in which the initialisation pass of the two coincident reads starts:
both arrays as the snapshot fills them, nothing failed. -/
def coincidentInit : InitState where
  op := perturbedOp
  np := perturbedOp
  failed := []

/-- Three reads of length 10 in path order `1, 2, 3`: read 2 lies 3 after read 1,
read 3 lies 6 after read 2 and 8 after read 1.  Every overlap is recorded in both
reads' lists with opposite hangs. -/
def driftEnv : Env where
  numReads := 3
  readLength := fun i => if i = 0 then 0 else 10
  getOverlaps := fun i =>
    if i = 1 then [⟨2, 3, 3⟩, ⟨3, 8, 8⟩]
    else if i = 2 then [⟨1, -3, -3⟩, ⟨3, 6, 6⟩]
    else if i = 3 then [⟨1, -8, -8⟩, ⟨2, -6, -6⟩]
    else []

/-- One unitig with path `[1, 2, 3]`, all forward, at `[0,10)`, `[3,13)`, `[12,22)`:
read 3 is placed too far right and does not intersect read 1. -/
def driftTigs : TigVector where
  tigs := [none, some ⟨1, [plainNode 1 0 10, plainNode 2 3 13, plainNode 3 12 22]⟩]
  inUnitig := fun i => if 1 ≤ i ∧ i ≤ 3 then 1 else 0
  ufpathIdx := fun i => i - 1

/-- The vector after a run of `optimizePositions`: the unitigs the run left, under the
same inverse indices. -/
def TigVector.withTigs (tv : TigVector) (l : List (Option Unitig)) : TigVector :=
  { tv with tigs := l }

/-- Two runs of `TigVector::optimizePositions` in a row: the second run starts from
the unitigs the first run left. -/
def TigVector.optimizeTwice (env : Env) (cleanUp : Unitig → Unitig) (tv : TigVector) :
    Except Fault (List (Option Unitig)) :=
  match tv.optimizePositions env cleanUp with
  | .error e => .error e
  | .ok l => (tv.withTigs l).optimizePositions env cleanUp

/-! ## Layouts that agree but for the coordinates -/

/-- Two path entries are the same read with the same orientation: they agree in every
field but the interval, and both intervals are forward or both are not. -/
def sameRead (n m : ufNode) : Bool :=
  decide ({ m with position := n.position } = n) &&
    (m.position.isForward == n.position.isForward)

/-- Two paths hold the same reads in the same order with the same orientations. -/
def pathAgree (p q : List ufNode) : Bool :=
  decide (q.length = p.length) &&
    (List.range p.length).all (fun i =>
      match p[i]?, q[i]? with
      | some n, some m => sameRead n m
      | _, _ => false)

/-- Two paths have the same pairs of intersecting intervals. -/
def patternAgree (p q : List ufNode) : Bool :=
  (List.range p.length).all (fun i =>
    (List.range p.length).all (fun j =>
      match p[i]?, p[j]?, q[i]?, q[j]? with
      | some ni, some nj, some mi, some mj =>
          isOverlapping mi.position mj.position == isOverlapping ni.position nj.position
      | _, _, _, _ => true))

/-- Two unitigs are the same layout but for the coordinates: same id, same reads in
the same path order, same orientations, same pairs of intersecting intervals. -/
def sameLayout (u v : Unitig) : Bool :=
  decide (v.id = u.id) && pathAgree u.ufpath v.ufpath && patternAgree u.ufpath v.ufpath

/-- Two lists of slots agree slot by slot: `NULL` with `NULL`, a unitig with a unitig
of the same layout but for the coordinates. -/
def sameSlots : List (Option Unitig) → List (Option Unitig) → Bool
  | [], [] => true
  | none :: l, none :: l1 => sameSlots l l1
  | some u :: l, some v :: l1 => sameLayout u v && sameSlots l l1
  | _, _ => false

/-- The inverse indices agree with the paths where the initialisation reads them: in
every unitig, every overlap of a read of the path whose partner is recorded in this
unitig has its partner's path index in range, at an entry that is the partner, and
different from the read's own index (no overlap of a read with itself). -/
def overlapsIndexed (env : Env) (tv : TigVector) : Bool :=
  tv.tigs.all (fun t =>
    match t with
    | none => true
    | some u =>
        (List.range u.ufpath.length).all (fun ii =>
          match u.ufpath[ii]? with
          | none => true
          | some n =>
              (env.getOverlaps n.ident).all (fun o =>
                (tv.inUnitig o.b_iid != u.id) ||
                  ((tv.ufpathIdx o.b_iid != ii) &&
                    (match u.ufpath[tv.ufpathIdx o.b_iid]? with
                      | some nj => nj.ident == o.b_iid
                      | none => false)))))

/-- Every read but the first of each path has an overlap that qualifies in the first
initialisation pass. -/
def allSeeded (env : Env) (tv : TigVector) : Bool :=
  tv.tigs.all (fun t =>
    match t with
    | none => true
    | some u =>
        (List.range u.ufpath.length).all (fun ii =>
          match u.ufpath[ii]? with
          | none => true
          | some n => (ii == 0) || !(initPlace_quals env tv u ii true n.ident).isEmpty))

/-- Every read id that the snapshot copies is a read of some path. -/
def placedIndexed (env : Env) (tv : TigVector) : Bool :=
  (List.range (env.numReads + 1)).all (fun k =>
    (tv.inUnitig k == 0) || (allIdents tv.tigs).contains k)

/-- Two pairs of working arrays `(op, np)` agree in the orientation flag and the read
id of every record, and in the whole record of every read of `P`. -/
def AgreeOn (P : Nat → Prop) (a b : (Nat → optPos) × (Nat → optPos)) : Prop :=
  SameFrame a.1 b.1 ∧ SameFrame a.2 b.2 ∧ ∀ k, P k → b.1 k = a.1 k ∧ b.2 k = a.2 k

/-! ## Seeds that are not extended, and the length of the walk -/

/-- The graph `g` with its best edges replaced by `be`. -/
def Graph.withBestEdges (g : Graph) (be : Nat → Bool → BestEdgeOverlap) : Graph :=
  { g with getBestEdgeOverlap := be }

/-- The graph of the construction example with the illegal hang `bHang = 50` on the 5'
best edge of read 1, and read 1 marked suspicious. -/
def suspectGraph : Graph :=
  { seedGraph (-100) 50 with isSuspicious := fun i => decide (i = 1) }

/-- The call reached the loop bound of the model with the loop condition still true. -/
def Outcome.isOutOfFuel : Outcome → Bool
  | outOfFuel _ => true
  | _ => false

/-- The number of reads `1..N` that are recorded as being in no unitig. -/
def unplacedCount (tv : TigVector) (N : Nat) : Nat :=
  ((List.range' 1 N).filter (fun k => decide (tv.inUnitig k = 0))).length

/-- The best overlap graph is over the reads `1..N`: every best edge is null or points
to a read id of at most `N`. -/
def Graph.EdgesWithin (g : Graph) (N : Nat) : Prop :=
  ∀ (i : Nat) (e : Bool), (g.getBestEdgeOverlap i e).readId ≤ N

/-- Three reads of length 1000 whose 3' best edges form a cycle, 1 to 2, 2 to 3, 3 to
1, with no 5' best edge; no read is contained, zombie or suspicious, and `placeRead`
always succeeds, placing the read forward. -/
def cycleGraph : Graph where
  readLength := fun i => if 1 ≤ i ∧ i ≤ 3 then 1000 else 0
  getBestEdgeOverlap := fun i e =>
    if e = true ∧ 1 ≤ i ∧ i ≤ 3 then
      { readId := i % 3 + 1, read3p := false, ahang := 10, bhang := 10, evalue := 0 }
    else nullEdge
  isContained := fun _ => false
  isZombie := fun _ => false
  isSuspicious := fun _ => false
  placeRead := fun _ _ r id _ e =>
    some { ident := id, contained := 0, parent := e.readId, ahang := e.ahang,
           bhang := e.bhang,
           position := { bgn := r.position.bgn + 10, end_ := r.position.end_ + 10 } }

/-- The vector of the cycle example when the 3' walk starts: the seed, read 1, alone in
unitig 1 and flipped forward. -/
def cycleStart : TigVector := (seedTig cycleGraph emptyTigs 1).reverseComplement 1

/-! ## Inputs for the stretch step and the committed orientation -/

/-- Three reads of length 10 and no overlap. -/
def stretchEnv : Env where
  numReads := 3
  readLength := fun i => if i = 0 then 0 else 10
  getOverlaps := fun _ => []

/-- A working array in which read 1, of length 10, is only 5 long at `[0, 5]`, read 2
is at `[9, 20]` and read 3 at `[10, 20]`. -/
def stretchOp : Nat → optPos :=
  fun i =>
    if i = 1 then { ident := 1, min := Dbl.fin 0, max := Dbl.fin 5, fwd := true }
    else if i = 2 then { ident := 2, min := Dbl.fin 9, max := Dbl.fin 20, fwd := true }
    else if i = 3 then { ident := 3, min := Dbl.fin 10, max := Dbl.fin 20, fwd := true }
    else optPos.zero

/-- The path `[1, 2, 3]`: the short read comes first. -/
def stretchFirst : List ufNode := [plainNode 1 0 5, plainNode 2 9 20, plainNode 3 10 20]

/-- The path `[2, 3, 1]`: the short read comes last. -/
def stretchLast : List ufNode := [plainNode 2 9 20, plainNode 3 10 20, plainNode 1 0 5]

/-- Three reads of length 1; the overlaps of reads 1 and 2 and of reads 1 and 3 have
hangs 0, the overlap of reads 2 and 3 has hangs 1. -/
def unitEnv : Env where
  numReads := 3
  readLength := fun i => if i = 0 then 0 else 1
  getOverlaps := fun i =>
    if i = 1 then [⟨2, 0, 0⟩, ⟨3, 0, 0⟩]
    else if i = 2 then [⟨1, 0, 0⟩, ⟨3, 1, 1⟩]
    else if i = 3 then [⟨1, 0, 0⟩, ⟨2, -1, -1⟩]
    else []

/-- One unitig with path `[1, 2, 3]`, the three reads of length 1 all forward at
`[0,1)`. -/
def unitTigs : TigVector where
  tigs := [none, some ⟨1, [plainNode 1 0 1, plainNode 2 0 1, plainNode 3 0 1]⟩]
  inUnitig := fun i => if 1 ≤ i ∧ i ≤ 3 then 1 else 0
  ufpathIdx := fun i => i - 1

/-- One read of length 1. -/
def straddleEnv : Env where
  numReads := 1
  readLength := fun i => if i = 1 then 1 else 0
  getOverlaps := fun _ => []

/-- A unitig holding read 1 alone. -/
def straddleTig : Unitig := { id := 1, ufpath := [plainNode 1 0 1] }

/-- A working array with read 1 at `[-1/2, 1/2]`, exactly 1 long, with the given
orientation flag. -/
def straddleOp (fwd : Bool) : Nat → optPos :=
  fun i =>
    if i = 1 then { ident := 1, min := Dbl.fin (-1 / 2), max := Dbl.fin (1 / 2), fwd := fwd }
    else optPos.zero

/-- The commit that follows the expansion: `optimize_expand`, then
`optimize_setPositions` on the array it leaves. -/
def Unitig.expandAndCommit (env : Env) (u : Unitig) (op : Nat → optPos) : Option Unitig :=
  u.optimize_setPositions (u.optimize_expand env op)

/-! ## Evaluations on the example inputs -/

/-- Claim C1, evaluated on the code: on the three discordant reads of length 10 the
whole pass (refinement, expansion, commit) leaves read 2 at `[-5, 4)` and read 3 at
`[-2, 7)`, both 9 long, one base short of the read length.  After expansion their
working intervals are `[-331/64, 309/64]` and `[-5/2, 15/2]`, exactly 10 long; the
casts to `int32` truncate the negative start up and the positive end down. -/
theorem optimizePositions_commits_short_interval :
    discordTigs.committedPositions discordEnv =
      .ok [none, some ⟨1, [plainNode 1 0 10, plainNode 2 (-5) 4, plainNode 3 (-2) 7]⟩] := by
  with_unfolding_all rfl

/-- Claim C3, evaluated on the code: for a unitig holding one read of length 10 with
no overlap, in either orientation, `optimize_recompute` divides `0.0` by `cnt = 0` and
stores `NaN`; the zero reset then casts `NaN` to `int32`, which is undefined, so the
pass does not end with the interval `[0, 10)`. -/
theorem optimizePositions_singleton_undefined :
    (∀ cleanUp, (singletonTigs true).optimizePositions singletonEnv cleanUp =
      .error Fault.undefinedCast) ∧
    (∀ cleanUp, (singletonTigs false).optimizePositions singletonEnv cleanUp =
      .error Fault.undefinedCast) := by
  have h1 : (singletonTigs true).committedPositions singletonEnv =
      .error Fault.undefinedCast := by with_unfolding_all rfl
  have h2 : (singletonTigs false).committedPositions singletonEnv =
      .error Fault.undefinedCast := by with_unfolding_all rfl
  constructor <;> intro c <;> simp only [TigVector.optimizePositions, h1, h2]

/-- The committed unitigs of the two coincident reads, when the read store reports
length 0 for the unused read id 0 (all five rounds run). -/
theorem committedPositions_coincident :
    coincidentTigs.committedPositions (coincidentEnv 0) =
      .ok [none, some ⟨1, [plainNode 1 0 500, plainNode 2 0 500]⟩] := by
  with_unfolding_all rfl

/-- The committed unitigs of the two coincident reads, when the read store reports a
positive length for the unused read id 0 (the loop leaves after the first round). -/
theorem committedPositions_coincident_early :
    coincidentTigs.committedPositions (coincidentEnv 500) =
      .ok [none, some ⟨1, [plainNode 1 0 500, plainNode 2 0 500]⟩] := by
  with_unfolding_all rfl

/-- Claim C4: two forward reads of length 500 starting at `[0,500)` and `[10,510)`,
joined by one overlap with both hangs 0 recorded in both lists, are committed to the
same interval `[0,500)`; the external `cleanUp` then receives that unitig.  The result
is the same whether the refinement runs all five rounds or leaves after the first. -/
theorem optimizePositions_coincident_reads (cleanUp : Unitig → Unitig) :
    coincidentTigs.optimizePositions (coincidentEnv 0) cleanUp =
      .ok [none, some (cleanUp ⟨1, [plainNode 1 0 500, plainNode 2 0 500]⟩)] ∧
    coincidentTigs.optimizePositions (coincidentEnv 500) cleanUp =
      .ok [none, some (cleanUp ⟨1, [plainNode 1 0 500, plainNode 2 0 500]⟩)] := by
  constructor
  · simp only [TigVector.optimizePositions, committedPositions_coincident, List.map,
      Option.map]
  · simp only [TigVector.optimizePositions, committedPositions_coincident_early, List.map,
      Option.map]

/-- Claim C5, evaluated on the code: in the first refinement round on the three
discordant reads, the first read of the path has `np.min = 1/4` after the reset-zero
step, not `0`: the step subtracts `z = (int32) np.min`, the truncated value. -/
theorem resetZero_leaves_fraction :
    (match firstRound discordEnv discordTigs with
      | .ok r => (r.np 1).min
      | .error _ => Dbl.nan) = Dbl.fin (1 / 4) := by
  with_unfolding_all rfl

/-- Claim C9 as stated fails: with the 5' best edge of the seed carrying
`aHang = -100` and `bHang = 50`, `populateUnitig` stops at the dovetail assertion
`bestedge5->bhang() <= 0`; it does not complete, and the new unitig holds the seed
alone. -/
theorem populateUnitig_example_aborts :
    (populateUnitig (seedGraph (-100) 50) 10 emptyTigs 1).isDone = false ∧
    (populateUnitig (seedGraph (-100) 50) 10 emptyTigs 1).tv.tigs =
      [none, some ⟨1, [plainNode 1 1000 0]⟩] := by
  constructor <;> decide

/-! ## Commit -/

/-- The commit of one read keeps its id and, repeated, writes the same interval. -/
theorem setPosition_again (op : Nat → optPos) (n n1 : ufNode)
    (h : setPosition op n = some n1) : setPosition op n1 = some n1 := by
  unfold setPosition at h
  split at h
  · rename_i lo hi hlo hhi
    split at h
    · rename_i hf
      injection h with h
      subst h
      simp [setPosition, hlo, hhi, hf]
    · rename_i hf
      injection h with h
      subst h
      simp [setPosition, hlo, hhi, hf]
  · exact absurd h (by simp)

/-- The commit loop, repeated on its own result, returns it unchanged. -/
theorem setPositions_path_again (op : Nat → optPos) :
    ∀ (l l1 : List ufNode), setPositions_path op l = some l1 →
      setPositions_path op l1 = some l1
  | [], l1, h => by
      simp [setPositions_path] at h
      subst h
      rfl
  | n :: ns, l1, h => by
      unfold setPositions_path at h
      split at h
      · exact absurd h (by simp)
      · rename_i n1 hn
        split at h
        · exact absurd h (by simp)
        · rename_i ns1 hns
          injection h with h
          subst h
          simp [setPositions_path, setPosition_again op n n1 hn,
            setPositions_path_again op ns ns1 hns]

/-- Claim C8: calling `Unitig::optimize_setPositions(op)` a second time on the unitig
the first call leaves, with the same `op`, returns that unitig unchanged: the same
path with the same `bgn` and `end` in every entry (and the second call is undefined
exactly when the first is). -/
theorem optimize_setPositions_idempotent (u : Unitig) (op : Nat → optPos) :
    (match u.optimize_setPositions op with
      | none => none
      | some u1 => u1.optimize_setPositions op) = u.optimize_setPositions op := by
  unfold Unitig.optimize_setPositions
  cases h : setPositions_path op u.ufpath with
  | none => rfl
  | some p => simp [setPositions_path_again op u.ufpath p h]

/-! ## Unitig construction: the dovetail check -/

/-- The walk loop never ends at a dovetail assertion. -/
theorem populateUnitig_loop_not_dovetail (g : Graph) (tid : Nat) :
    ∀ (fuel : Nat) (tv : TigVector) (read : ufNode) (lastID : Nat) (last3p : Bool)
      (bestnext : BestEdgeOverlap),
      (populateUnitig_loop g tid fuel tv read lastID last3p bestnext).isDovetailFailed = false
  | 0, tv, read, lastID, last3p, bestnext => by
      unfold populateUnitig_loop
      split <;> rfl
  | fuel + 1, tv, read, lastID, last3p, bestnext => by
      unfold populateUnitig_loop
      split
      · simp only []
        split
        · rfl
        · exact populateUnitig_loop_not_dovetail g tid fuel _ _ _ _ _
      · rfl

/-- The walk from one edge never ends at a dovetail assertion. -/
theorem populateUnitig_edge_not_dovetail (g : Graph) (fuel : Nat) (tv : TigVector)
    (tid : Nat) (bestnext : BestEdgeOverlap) :
    (populateUnitig_edge g fuel tv tid bestnext).isDovetailFailed = false := by
  unfold populateUnitig_edge
  split
  · rfl
  · split
    · rfl
    · split
      · rfl
      · exact populateUnitig_loop_not_dovetail g tid fuel _ _ _ _ _

/-- The unitig created for a seed holds the seed alone, in the fresh last slot. -/
theorem seedTig_tigs (g : Graph) (tv : TigVector) (fi : Nat) :
    (seedTig g tv fi).tigs =
      tv.tigs ++ [some { id := tv.tigs.length, ufpath := [seedNode g fi] }] := by
  simp [seedTig, TigVector.newUnitig, TigVector.addRead, TigVector.tig, seedNode]

/-- Creating the unitig of a seed places no read but the seed. -/
theorem seedTig_inUnitig (g : Graph) (tv : TigVector) (fi k : Nat) (hk : k ≠ fi) :
    (seedTig g tv fi).inUnitig k = tv.inUnitig k := by
  simp [seedTig, TigVector.newUnitig, TigVector.addRead, seedNode, hk]

/-- Claim C10: for a seed that passes the seed filter and is neither suspicious nor a
zombie, `populateUnitig(tigs, fi)` stops at a dovetail assertion exactly when the 5'
best edge has `aHang > 0` or `bHang > 0`, or the 3' best edge has `aHang < 0` or
`bHang < 0`; it then stops with the vector as it stood after the seed was added: the
new unitig holds the seed alone and every other read is where it was. -/
theorem populateUnitig_dovetail_check (g : Graph) (fuel : Nat) (tv : TigVector) (fi : Nat)
    (hlen : g.readLength fi ≠ 0) (hun : tv.inUnitig fi = 0)
    (hcont : ¬ (g.isContained fi = true ∧ g.isZombie fi = false))
    (hsus : g.isSuspicious fi = false) (hzom : g.isZombie fi = false) :
    ((populateUnitig g fuel tv fi).isDovetailFailed = true ↔
      ((g.getBestEdgeOverlap fi false).ahang > 0 ∨ (g.getBestEdgeOverlap fi false).bhang > 0 ∨
       (g.getBestEdgeOverlap fi true).ahang < 0 ∨ (g.getBestEdgeOverlap fi true).bhang < 0)) ∧
    ((populateUnitig g fuel tv fi).isDovetailFailed = true →
      populateUnitig g fuel tv fi = Outcome.dovetailFailed (seedTig g tv fi) ∧
      (seedTig g tv fi).tigs =
        tv.tigs ++ [some { id := tv.tigs.length, ufpath := [seedNode g fi] }] ∧
      ∀ k, k ≠ fi → (seedTig g tv fi).inUnitig k = tv.inUnitig k) := by
  have hfilter : ¬ (g.readLength fi = 0 ∨ tv.inUnitig fi ≠ 0) := by
    rintro (h | h)
    · exact hlen h
    · exact h hun
  by_cases hd : (g.getBestEdgeOverlap fi false).ahang ≤ 0 ∧
      (g.getBestEdgeOverlap fi false).bhang ≤ 0 ∧
      (g.getBestEdgeOverlap fi true).ahang ≥ 0 ∧ (g.getBestEdgeOverlap fi true).bhang ≥ 0
  · have hno : (populateUnitig g fuel tv fi).isDovetailFailed = false := by
      have h5 : (if (g.getBestEdgeOverlap fi false).readId ≠ 0 then
            populateUnitig_edge g fuel (seedTig g tv fi) (tv.newUnitig).2
              (g.getBestEdgeOverlap fi false)
          else Outcome.done (seedTig g tv fi)).isDovetailFailed = false := by
        split
        · exact populateUnitig_edge_not_dovetail g fuel _ _ _
        · rfl
      unfold populateUnitig
      rw [if_neg hfilter, if_neg hcont]
      simp only [hsus, hzom, Bool.false_eq_true, if_false]
      rw [if_neg (not_not.mpr hd)]
      generalize (if (g.getBestEdgeOverlap fi false).readId ≠ 0 then
            populateUnitig_edge g fuel (seedTig g tv fi) (tv.newUnitig).2
              (g.getBestEdgeOverlap fi false)
          else Outcome.done (seedTig g tv fi)) = r5 at h5 ⊢
      cases r5 with
      | done tv3 =>
          simp only []
          split
          · exact populateUnitig_edge_not_dovetail g fuel _ _ _
          · rfl
      | dovetailFailed tv3 => exact h5
      | placeFailed tv3 => rfl
      | lengthFailed tv3 => rfl
      | outOfFuel tv3 => rfl
    constructor
    · constructor
      · intro h
        rw [hno] at h
        exact absurd h (by simp)
      · intro h
        exfalso
        obtain ⟨h1, h2, h3, h4⟩ := hd
        rcases h with h | h | h | h <;> omega
    · intro h
      rw [hno] at h
      exact absurd h (by simp)
  · have hyes : populateUnitig g fuel tv fi = Outcome.dovetailFailed (seedTig g tv fi) := by
      unfold populateUnitig
      rw [if_neg hfilter, if_neg hcont]
      simp only [hsus, hzom, Bool.false_eq_true, if_false]
      rw [if_pos hd]
    constructor
    · constructor
      · intro _
        by_contra hc
        apply hd
        push_neg at hc
        obtain ⟨h1, h2, h3, h4⟩ := hc
        exact ⟨h1, h2, h3, h4⟩
      · intro _
        rw [hyes]
        rfl
    · intro _
      exact ⟨hyes, seedTig_tigs g tv fi, fun k hk => seedTig_inUnitig g tv fi k hk⟩

/-- Witness for claim C10: a seed whose 5' best edge has `aHang = 7 > 0`. -/
theorem populateUnitig_dovetail_check_witness :
    (seedGraph 7 0).readLength 1 ≠ 0 ∧ emptyTigs.inUnitig 1 = 0 ∧
    ((populateUnitig (seedGraph 7 0) 10 emptyTigs 1).isDovetailFailed = true ↔
      (((seedGraph 7 0).getBestEdgeOverlap 1 false).ahang > 0 ∨
       ((seedGraph 7 0).getBestEdgeOverlap 1 false).bhang > 0 ∨
       ((seedGraph 7 0).getBestEdgeOverlap 1 true).ahang < 0 ∨
       ((seedGraph 7 0).getBestEdgeOverlap 1 true).bhang < 0)) :=
  ⟨by decide, by decide,
    (populateUnitig_dovetail_check (seedGraph 7 0) 10 emptyTigs 1 (by decide) (by decide)
      (by decide) (by decide) (by decide)).1⟩

/-- Claim C9, amended: for a seed `R` of length 1000 that is unplaced, not contained,
not a zombie and not suspicious, whose 5' best edge points to the unplaced read `S`
with `aHang = -100` and `bHang = 50` and whose 3' best edge is null,
`populateUnitig(tigs, R)` creates one new unitig, adds `R` to it, and stops at the
dovetail assertion on the 5' edge: the new unitig holds `R` alone and `S` is still in
no unitig. -/
theorem populateUnitig_example_stops_at_dovetail (g : Graph) (fuel : Nat) (tv : TigVector)
    (R S : Nat) (hRS : S ≠ R) (hlen : g.readLength R = 1000)
    (hunR : tv.inUnitig R = 0) (hunS : tv.inUnitig S = 0)
    (hcont : g.isContained R = false) (hzom : g.isZombie R = false)
    (hsus : g.isSuspicious R = false)
    (_h5 : (g.getBestEdgeOverlap R false).readId = S)
    (_h5a : (g.getBestEdgeOverlap R false).ahang = -100)
    (h5b : (g.getBestEdgeOverlap R false).bhang = 50)
    (_h3 : (g.getBestEdgeOverlap R true).readId = 0) :
    populateUnitig g fuel tv R = Outcome.dovetailFailed (seedTig g tv R) ∧
    (seedTig g tv R).tigs =
      tv.tigs ++ [some { id := tv.tigs.length, ufpath := [seedNode g R] }] ∧
    (seedTig g tv R).inUnitig S = 0 := by
  have hfilter : ¬ (g.readLength R = 0 ∨ tv.inUnitig R ≠ 0) := by
    rintro (h | h)
    · rw [hlen] at h
      exact absurd h (by decide)
    · exact h hunR
  have hc : ¬ (g.isContained R = true ∧ g.isZombie R = false) := by
    rw [hcont]
    simp
  have hd : ¬ ((g.getBestEdgeOverlap R false).ahang ≤ 0 ∧
      (g.getBestEdgeOverlap R false).bhang ≤ 0 ∧
      (g.getBestEdgeOverlap R true).ahang ≥ 0 ∧ (g.getBestEdgeOverlap R true).bhang ≥ 0) := by
    rw [h5b]
    rintro ⟨_, h, _⟩
    exact absurd h (by decide)
  refine ⟨?_, seedTig_tigs g tv R, ?_⟩
  · unfold populateUnitig
    rw [if_neg hfilter, if_neg hc]
    simp only [hsus, hzom, Bool.false_eq_true, if_false]
    rw [if_pos hd]
  · rw [seedTig_inUnitig g tv R S hRS, hunS]

/-- Witness for the amended claim C9: the example graph with reads `R = 1`, `S = 2`. -/
theorem populateUnitig_example_stops_at_dovetail_witness :
    populateUnitig (seedGraph (-100) 50) 3 emptyTigs 1 =
      Outcome.dovetailFailed (seedTig (seedGraph (-100) 50) emptyTigs 1) ∧
    (seedTig (seedGraph (-100) 50) emptyTigs 1).tigs =
      emptyTigs.tigs ++
        [some { id := emptyTigs.tigs.length, ufpath := [seedNode (seedGraph (-100) 50) 1] }] ∧
    (seedTig (seedGraph (-100) 50) emptyTigs 1).inUnitig 2 = 0 :=
  populateUnitig_example_stops_at_dovetail (seedGraph (-100) 50) 3 emptyTigs 1 2
    (by decide) (by decide) (by decide) (by decide) (by decide) (by decide) (by decide)
    (by decide) (by decide) (by decide) (by decide)

/-! ## Arithmetic of the double model -/

namespace Dbl

/-- Addition of finite values is exact. -/
@[simp] theorem fin_add (a b : ℚ) : fin a + fin b = fin (a + b) := rfl

/-- Subtraction of finite values is exact. -/
@[simp] theorem fin_sub (a b : ℚ) : fin a - fin b = fin (a - b) := by
  show add (fin a) (neg (fin b)) = fin (a - b)
  simp [add, neg, sub_eq_add_neg]

/-- Multiplication of finite values is exact. -/
@[simp] theorem fin_mul (a b : ℚ) : fin a * fin b = fin (a * b) := rfl

/-- Negation of a finite value is exact. -/
@[simp] theorem fin_neg (a : ℚ) : -fin a = fin (-a) := rfl

/-- Finite values compare as rationals under `<`. -/
@[simp] theorem lt_fin (a b : ℚ) : lt (fin a) (fin b) = decide (a < b) := rfl

/-- Finite values compare as rationals under `<=`. -/
@[simp] theorem le_fin (a b : ℚ) : le (fin a) (fin b) = decide (a ≤ b) := rfl

/-- Division of finite values by a non-zero finite value is exact. -/
theorem fin_div (a b : ℚ) (hb : b ≠ 0) : fin a / fin b = fin (a / b) := by
  show div (fin a) (fin b) = fin (a / b)
  simp [div, hb]

/-- A difference is finite only when both operands are. -/
theorem sub_eq_fin {x y : Dbl} {d : ℚ} (h : x - y = fin d) :
    ∃ a b, x = fin a ∧ y = fin b ∧ d = a - b := by
  cases x <;> cases y <;> first
    | (rename_i a b
       rw [fin_sub] at h
       injection h with h
       exact ⟨a, b, rfl, rfl, h.symm⟩)
    | exact absurd h (by intro h'; cases h')

/-- A product with `2` is finite only when the other factor is. -/
theorem two_mul_eq_fin {x : Dbl} {d : ℚ} (h : fin 2 * x = fin d) :
    ∃ a, x = fin a ∧ d = 2 * a := by
  cases x with
  | fin a =>
      rw [fin_mul] at h
      injection h with h
      exact ⟨a, rfl, h.symm⟩
  | pinf =>
      exfalso
      have : fin 2 * pinf = pinf := by
        show mul (fin 2) pinf = pinf
        simp [mul, signedInf]
      rw [this] at h
      cases h
  | ninf =>
      exfalso
      have : fin 2 * ninf = ninf := by
        show mul (fin 2) ninf = ninf
        simp [mul, signedInf]
      rw [this] at h
      cases h
  | nan => cases h

/-- A quotient by an integer is finite only when the dividend is finite and the
divisor is not zero. -/
theorem div_ofInt_eq_fin {x : Dbl} {z : Int} {q : ℚ} (h : x / ofInt z = fin q) :
    ∃ a, x = fin a ∧ (z : ℚ) ≠ 0 ∧ q = a / (z : ℚ) := by
  cases x with
  | fin a =>
      by_cases hz : (z : ℚ) = 0
      · exfalso
        have h' : div (fin a) (fin (z : ℚ)) = fin q := h
        simp only [div, hz, if_true] at h'
        split at h'
        · cases h'
        · unfold signedInf at h'
          split at h' <;> cases h'
      · rw [ofInt, fin_div a _ hz] at h
        injection h with h
        exact ⟨a, rfl, hz, h.symm⟩
  | pinf =>
      exfalso
      have h' : div pinf (fin (z : ℚ)) = fin q := h
      simp only [div, signedInf] at h'
      split at h' <;> cases h'
  | ninf =>
      exfalso
      have h' : div ninf (fin (z : ℚ)) = fin q := h
      simp only [div, signedInf] at h'
      split at h' <;> cases h'
  | nan => cases h

end Dbl

/-- The absolute value taken by the convergence test is below a bound only for a
finite argument whose absolute value is below it. -/
theorem absIf_lt_fin {x : Dbl} {c : ℚ} (h : Dbl.lt (absIf x) (Dbl.fin c) = true) :
    ∃ q, x = Dbl.fin q ∧ |q| < c := by
  cases x with
  | fin q =>
      refine ⟨q, rfl, ?_⟩
      unfold absIf at h
      by_cases hq : q < 0
      · simp [hq] at h
        rw [abs_of_neg hq]
        exact h
      · simp [hq] at h
        rw [abs_of_nonneg (not_lt.mp hq)]
        exact h
  | pinf => simp [absIf, Dbl.lt] at h
  | ninf =>
      have : absIf Dbl.ninf = Dbl.pinf := by
        simp [absIf, Dbl.lt]
        rfl
      rw [this] at h
      simp [Dbl.lt] at h
  | nan => simp [absIf, Dbl.lt] at h

/-- One side of the convergence test: a measure below `0.005` bounds the difference
of the two coordinates by `0.0025` of the read length. -/
theorem measure_lt (x y : Dbl) (L : Nat)
    (h : Dbl.lt (absIf ((Dbl.fin 2 * (x - y)) / Dbl.ofInt (L : Int))) (Dbl.fin (5 / 1000)) = true) :
    ∃ a b : ℚ, x = Dbl.fin a ∧ y = Dbl.fin b ∧ |a - b| ≤ 5 / 1000 * (L : ℚ) := by
  obtain ⟨q, hq, hlt⟩ := absIf_lt_fin h
  obtain ⟨n, hn, hz, hqn⟩ := Dbl.div_ofInt_eq_fin hq
  obtain ⟨d, hd, hnd⟩ := Dbl.two_mul_eq_fin hn
  obtain ⟨a, b, ha, hb, hdab⟩ := Dbl.sub_eq_fin hd
  refine ⟨a, b, ha, hb, ?_⟩
  have hL : (0 : ℚ) < (L : ℚ) := by
    have h0 : (0 : ℚ) ≤ (L : ℚ) := Nat.cast_nonneg L
    have hne : (L : ℚ) ≠ 0 := by
      intro hc
      apply hz
      simp [hc]
    exact lt_of_le_of_ne h0 (Ne.symm hne)
  have hq' : q = 2 * (a - b) / (L : ℚ) := by
    rw [hqn, hnd, hdab]
    simp
  rw [hq', abs_div, abs_mul, abs_of_pos hL, div_lt_iff₀ hL] at hlt
  have h2 : |(2 : ℚ)| = 2 := abs_of_pos (by norm_num)
  rw [h2] at hlt
  have hnn : (0 : ℚ) ≤ |a - b| := abs_nonneg _
  nlinarith

/-- A read counted as converged has both coordinates within 0.5% of its length. -/
theorem isConverged_within (env : Env) (op np : Nat → optPos) (fi : Nat)
    (h : isConverged env op np fi = true) : Within env (op fi) (np fi) fi := by
  unfold isConverged at h
  simp only [Bool.and_eq_true] at h
  obtain ⟨a1, b1, h1, h2, h3⟩ := measure_lt _ _ _ h.1
  obtain ⟨a2, b2, h4, h5, h6⟩ := measure_lt _ _ _ h.2
  exact ⟨a1, b1, a2, b2, h1, h2, h4, h5, h3, h6⟩

/-- A round that counts no changed read has every read id converged. -/
theorem countChanged_zero (env : Env) (op np : Nat → optPos)
    (h : countChanged env op np = 0) (fi : Nat) (hfi : fi ≤ env.numReads) :
    isConverged env op np fi = true := by
  unfold countChanged at h
  rw [List.length_eq_zero, List.filter_eq_nil_iff] at h
  have := h fi (List.mem_range.mpr (Nat.lt_succ_of_le hfi))
  simpa using this

/-- What a refinement round returns: the array `op` it was given and the counter of
the convergence check on its zero-reset `np`. -/
theorem refineRound_ok (env : Env) (tv : TigVector) (op np : Nat → optPos) (r : Round)
    (h : refineRound env tv op np = .ok r) :
    r.op = op ∧ r.nChanged = countChanged env op r.np := by
  unfold refineRound at h
  split at h
  · cases h
  · split at h
    · cases h
    · injection h with h
      subst h
      exact ⟨rfl, rfl⟩

/-- A round that reports zero changed reads leaves `op` and `np` within 0.5% of the
read length at every read id. -/
theorem refineRound_converged (env : Env) (tv : TigVector) (op np : Nat → optPos)
    (r : Round) (h : refineRound env tv op np = .ok r) (h0 : r.nChanged = 0)
    (fi : Nat) (hfi : fi ≤ env.numReads) : Within env (r.op fi) (r.np fi) fi := by
  obtain ⟨h1, h2⟩ := refineRound_ok env tv op np r h
  rw [h2] at h0
  have := isConverged_within env op r.np fi (countChanged_zero env op r.np h0 fi hfi)
  rw [h1]
  exact this

/-- The refinement loop allowed `left` iterations runs at most `left` rounds, and when
it runs fewer, its last round reported zero changed reads. -/
theorem refineLoop_rounds (env : Env) (tv : TigVector) :
    ∀ (left : Nat) (op np : Nat → optPos) (res : Refined),
      refineLoop env tv left op np = .ok res →
        res.rounds ≤ left ∧
        (res.rounds < left → ∀ fi, fi ≤ env.numReads → Within env (res.np fi) (res.op fi) fi)
  | 0, op, np, res, h => by
      simp only [refineLoop] at h
      injection h with h
      subst h
      exact ⟨Nat.le_refl _, fun hlt => absurd hlt (Nat.lt_irrefl _)⟩
  | left + 1, op, np, res, h => by
      unfold refineLoop at h
      split at h
      · cases h
      · rename_i r hr
        split at h
        · rename_i h0
          injection h with h
          subst h
          exact ⟨Nat.succ_le_succ (Nat.zero_le _),
            fun _ fi hfi => refineRound_converged env tv op np r hr h0 fi hfi⟩
        · split at h
          · cases h
          · rename_i res1 hres1
            injection h with h
            subst h
            obtain ⟨hle, hclose⟩ := refineLoop_rounds env tv left _ _ res1 hres1
            exact ⟨Nat.succ_le_succ hle, fun hlt => hclose (Nat.lt_of_succ_lt_succ hlt)⟩

/-! ## Orientation and identity of the working records -/

/-- An array has its own frame. -/
theorem SameFrame.refl (a : Nat → optPos) : SameFrame a a := fun _ => ⟨rfl, rfl⟩

/-- Having the same frame is transitive. -/
theorem SameFrame.trans {a b c : Nat → optPos} (h1 : SameFrame a b) (h2 : SameFrame b c) :
    SameFrame a c :=
  fun k => ⟨(h1 k).1.trans (h2 k).1, (h1 k).2.trans (h2 k).2⟩

/-- Having the same frame is symmetric. -/
theorem SameFrame.symm {a b : Nat → optPos} (h : SameFrame a b) : SameFrame b a :=
  fun k => ⟨(h k).1.symm, (h k).2.symm⟩

/-- Assigning `min` leaves `fwd` and `ident` alone. -/
theorem setMin_sameFrame (op : Nat → optPos) (i : Nat) (v : Dbl) :
    SameFrame (setMin op i v) op := by
  intro k
  unfold setMin
  split <;> exact ⟨rfl, rfl⟩

/-- Assigning `max` leaves `fwd` and `ident` alone. -/
theorem setMax_sameFrame (op : Nat → optPos) (i : Nat) (v : Dbl) :
    SameFrame (setMax op i v) op := by
  intro k
  unfold setMax
  split <;> exact ⟨rfl, rfl⟩

/-- A loop whose body keeps a property keeps it. -/
theorem foldl_inv {α β : Type} (P : α → Prop) (f : α → β → α)
    (hf : ∀ a b, P a → P (f a b)) : ∀ (l : List β) (a : α), P a → P (l.foldl f a)
  | [], _, h => h
  | b :: bs, a, h => foldl_inv P f hf bs (f a b) (hf a b h)

/-- A faulting loop whose body keeps a property keeps it when it returns. -/
theorem foldE_inv {α β : Type} (P : α → Prop) (f : α → β → Except Fault α)
    (hf : ∀ a b a1, P a → f a b = .ok a1 → P a1) :
    ∀ (l : List β) (a a1 : α), P a → foldE f l a = .ok a1 → P a1
  | [], a, a1, h, he => by
      simp only [foldE] at he
      injection he with he
      subst he
      exact h
  | b :: bs, a, a1, h, he => by
      unfold foldE at he
      split at he
      · cases he
      · rename_i a2 h2
        exact foldE_inv P f hf bs a2 a1 (hf a b a2 h h2) he

/-- The inner loop body of the expansion keeps `fwd` and `ident`. -/
theorem optimize_expand_inner_sameFrame (iid : Nat) (m sc e : Dbl) (op : Nat → optPos)
    (jid : Nat) : SameFrame (optimize_expand_inner iid m sc e op jid) op := by
  have h1 : SameFrame (expand_adjust_min iid m sc e op jid) op := by
    unfold expand_adjust_min
    split
    · exact SameFrame.refl _
    · split
      · exact setMin_sameFrame _ _ _
      · exact setMin_sameFrame _ _ _
  have h2 : ∀ o, SameFrame (expand_adjust_max iid m sc e o jid) o := by
    intro o
    unfold expand_adjust_max
    split
    · exact SameFrame.refl _
    · split
      · exact setMax_sameFrame _ _ _
      · exact setMax_sameFrame _ _ _
  exact (h2 _).trans h1

/-- One outer iteration of the expansion keeps `fwd` and `ident`. -/
theorem optimize_expand_step_sameFrame (env : Env) (path : List ufNode)
    (op : Nat → optPos) (iid : Nat) : SameFrame (optimize_expand_step env path op iid) op := by
  unfold optimize_expand_step
  simp only []
  split
  · exact SameFrame.refl _
  · refine (setMax_sameFrame _ _ _).trans ((setMin_sameFrame _ _ _).trans ?_)
    exact foldl_inv (fun o => SameFrame o op) _
      (fun a b ha => (optimize_expand_inner_sameFrame _ _ _ _ a b.ident).trans ha)
      path op (SameFrame.refl _)

/-- The expansion of one unitig keeps `fwd` and `ident`. -/
theorem optimize_expand_sameFrame (env : Env) (u : Unitig) (op : Nat → optPos) :
    SameFrame (u.optimize_expand env op) op := by
  unfold Unitig.optimize_expand
  exact foldl_inv (fun o => SameFrame o op) _
    (fun a b ha => (optimize_expand_step_sameFrame env u.ufpath a b.ident).trans ha)
    u.ufpath op (SameFrame.refl _)

/-- The expansion pass keeps `fwd` and `ident`. -/
theorem expandAll_sameFrame (env : Env) (tv : TigVector) (op : Nat → optPos) :
    SameFrame (expandAll env tv op) op := by
  unfold expandAll
  refine foldl_inv (fun o => SameFrame o op) _ ?_ tv.tigs op (SameFrame.refl _)
  intro a t ha
  cases t with
  | none => exact ha
  | some u => exact (optimize_expand_sameFrame env u a).trans ha

/-- The initial placement of one read keeps `fwd` and `ident` in both arrays. -/
theorem optimize_initPlace_sameFrame (env : Env) (tv : TigVector) (u : Unitig) (ii : Nat)
    (firstPass : Bool) (st st1 : InitState)
    (h : u.optimize_initPlace env tv ii firstPass st = .ok st1) :
    SameFrame st1.op st.op ∧ SameFrame st1.np st.np := by
  have hstore : ∀ iid nmin cnt,
      SameFrame (initPlace_store env iid nmin cnt st).op st.op ∧
      SameFrame (initPlace_store env iid nmin cnt st).np st.np := by
    intro iid nmin cnt
    unfold initPlace_store
    exact ⟨(setMax_sameFrame _ _ _).trans (setMin_sameFrame _ _ _),
      (setMax_sameFrame _ _ _).trans (setMin_sameFrame _ _ _)⟩
  unfold Unitig.optimize_initPlace at h
  split at h
  · cases h
  · simp only [] at h
    split at h
    · injection h with h
      subst h
      exact ⟨SameFrame.refl _, SameFrame.refl _⟩
    · split at h
      · split at h
        · cases h
        · split at h
          · injection h with h
            subst h
            exact ⟨SameFrame.refl _, SameFrame.refl _⟩
          · split at h
            · cases h
            · injection h with h
              subst h
              exact hstore _ _ _
      · injection h with h
        subst h
        exact hstore _ _ _

/-- The recomputation of one read keeps `fwd` and `ident` of `np`. -/
theorem optimize_recompute_sameFrame (env : Env) (tv : TigVector) (u : Unitig) (iid : Nat)
    (op np np1 : Nat → optPos) (h : u.optimize_recompute env tv iid op np = .ok np1) :
    SameFrame np1 np := by
  unfold Unitig.optimize_recompute at h
  simp only [] at h
  split at h
  · cases h
  · injection h with h
    subst h
    exact (setMax_sameFrame _ _ _).trans (setMin_sameFrame _ _ _)

/-- The zero reset of one unitig keeps `fwd` and `ident` of `np`. -/
theorem resetZero_sameFrame (np : Nat → optPos) (t : Option Unitig) (np1 : Nat → optPos)
    (h : resetZero np t = .ok np1) : SameFrame np1 np := by
  unfold resetZero at h
  split at h
  · injection h with h
    subst h
    exact SameFrame.refl _
  · split at h
    · cases h
    · split at h
      · cases h
      · injection h with h
        subst h
        exact foldl_inv (fun o => SameFrame o np) _
          (fun a b ha => ((setMax_sameFrame _ _ _).trans (setMin_sameFrame _ _ _)).trans ha)
          _ np (SameFrame.refl _)

/-- A refinement round keeps `fwd` and `ident` of `np`. -/
theorem refineRound_sameFrame (env : Env) (tv : TigVector) (op np : Nat → optPos)
    (r : Round) (h : refineRound env tv op np = .ok r) : SameFrame r.np np := by
  unfold refineRound at h
  split at h
  · cases h
  · rename_i np1 h1
    split at h
    · cases h
    · rename_i np2 h2
      injection h with h
      subst h
      have hA : SameFrame np1 np := by
        refine foldE_inv (fun o => SameFrame o np) _ ?_ _ np np1 (SameFrame.refl _) h1
        intro a fi a1 ha hstep
        unfold recompute_step at hstep
        split at hstep
        · injection hstep with hstep
          subst hstep
          exact ha
        · split at hstep
          · cases hstep
          · exact (optimize_recompute_sameFrame env tv _ fi op a a1 hstep).trans ha
      have hB : SameFrame np2 np1 :=
        foldE_inv (fun o => SameFrame o np1) _
          (fun a t a1 ha hstep => (resetZero_sameFrame a t a1 hstep).trans ha)
          _ np1 np2 (SameFrame.refl _) h2
      exact hB.trans hA

/-- The refinement loop keeps `fwd` and `ident`: both arrays it returns carry the
frame both arrays had when it started, whichever way the swaps left them. -/
theorem refineLoop_sameFrame (env : Env) (tv : TigVector) (ref : Nat → optPos) :
    ∀ (left : Nat) (op np : Nat → optPos) (res : Refined),
      SameFrame op ref → SameFrame np ref → refineLoop env tv left op np = .ok res →
        SameFrame res.op ref ∧ SameFrame res.np ref
  | 0, op, np, res, h1, h2, h => by
      simp only [refineLoop] at h
      injection h with h
      subst h
      exact ⟨h1, h2⟩
  | left + 1, op, np, res, h1, h2, h => by
      unfold refineLoop at h
      split at h
      · cases h
      · rename_i r hr
        have hnp : SameFrame r.np ref := (refineRound_sameFrame env tv op np r hr).trans h2
        have hop : SameFrame r.op ref := by
          rw [(refineRound_ok env tv op np r hr).1]
          exact h1
        split at h
        · injection h with h
          subst h
          exact ⟨hnp, hop⟩
        · split at h
          · cases h
          · rename_i res1 hres1
            injection h with h
            subst h
            exact refineLoop_sameFrame env tv ref left _ _ res1 hnp hop hres1

/-- The snapshot fills both arrays alike. -/
theorem snapshot_same (env : Env) (tv : TigVector) (s : (Nat → optPos) × (Nat → optPos))
    (h : snapshot env tv = .ok s) : s.1 = s.2 := by
  unfold snapshot at h
  refine foldE_inv (fun a => a.1 = a.2) _ ?_ _ _ s rfl h
  intro a fi a1 ha hstep
  unfold snapshot_step at hstep
  split at hstep
  · injection hstep with hstep
    subst hstep
    exact ha
  · split at hstep
    · cases hstep
    · split at hstep
      · cases hstep
      · injection hstep with hstep
        subst hstep
        simp only [ha]

/-- The initialisation pass keeps `fwd` and `ident` of both arrays. -/
theorem initTig_sameFrame (env : Env) (tv : TigVector)
    (acc acc1 : (Nat → optPos) × (Nat → optPos)) (t : Option Unitig)
    (h : initTig env tv acc t = .ok acc1) :
    SameFrame acc1.1 acc.1 ∧ SameFrame acc1.2 acc.2 := by
  unfold initTig at h
  split at h
  · injection h with h
    subst h
    exact ⟨SameFrame.refl _, SameFrame.refl _⟩
  · rename_i u
    split at h
    · cases h
    · rename_i st1 h1
      split at h
      · cases h
      · rename_i st2 h2
        injection h with h
        subst h
        have hstep : ∀ (fp : Bool) (a : InitState) (ii : Nat) (a1 : InitState),
            (SameFrame a.op acc.1 ∧ SameFrame a.np acc.2) →
            u.optimize_initPlace env tv ii fp a = .ok a1 →
            (SameFrame a1.op acc.1 ∧ SameFrame a1.np acc.2) := by
          intro fp a ii a1 ha hs
          obtain ⟨h3, h4⟩ := optimize_initPlace_sameFrame env tv u ii fp a a1 hs
          exact ⟨h3.trans ha.1, h4.trans ha.2⟩
        have hA := foldE_inv (fun a : InitState => SameFrame a.op acc.1 ∧ SameFrame a.np acc.2)
          _ (hstep true) _ _ st1 ⟨SameFrame.refl _, SameFrame.refl _⟩ h1
        exact foldE_inv (fun a : InitState => SameFrame a.op acc.1 ∧ SameFrame a.np acc.2)
          _ (hstep false) _ st1 st2 hA h2

/-- Claim C7: at the end of the refinement and expansion of `optimizePositions`, the
`fwd` flag and the `ident` of every working record, in `op` and in `np`, are those the
snapshot copied; and each of `optimize_initPlace`, `optimize_recompute`, the zero
reset and `optimize_expand` returns arrays with the `fwd` and `ident` it was given. -/
theorem optimizePositions_keeps_orientation (env : Env) (tv : TigVector)
    (s : (Nat → optPos) × (Nat → optPos)) (r : Refined)
    (hs : snapshot env tv = .ok s) (hr : optimizeArrays env tv = .ok r) :
    (∀ fi, (r.op fi).fwd = (s.1 fi).fwd ∧ (r.op fi).ident = (s.1 fi).ident ∧
           (r.np fi).fwd = (s.1 fi).fwd ∧ (r.np fi).ident = (s.1 fi).ident) ∧
    (∀ (u : Unitig) (ii : Nat) (firstPass : Bool) (st st1 : InitState),
      u.optimize_initPlace env tv ii firstPass st = .ok st1 →
        SameFrame st1.op st.op ∧ SameFrame st1.np st.np) ∧
    (∀ (u : Unitig) (iid : Nat) (op np np1 : Nat → optPos),
      u.optimize_recompute env tv iid op np = .ok np1 → SameFrame np1 np) ∧
    (∀ (np : Nat → optPos) (t : Option Unitig) (np1 : Nat → optPos),
      resetZero np t = .ok np1 → SameFrame np1 np) ∧
    (∀ (u : Unitig) (op : Nat → optPos), SameFrame (u.optimize_expand env op) op) := by
  refine ⟨?_, fun u ii fp st st1 h => optimize_initPlace_sameFrame env tv u ii fp st st1 h,
    fun u iid op np np1 h => optimize_recompute_sameFrame env tv u iid op np np1 h,
    fun np t np1 h => resetZero_sameFrame np t np1 h,
    fun u op => optimize_expand_sameFrame env u op⟩
  have hsame := snapshot_same env tv s hs
  unfold optimizeArrays at hr
  split at hr
  · cases hr
  · rename_i s1 h1
    split at hr
    · cases hr
    · rename_i res hres
      injection hr with hr
      subst hr
      unfold initArrays at h1
      rw [hs] at h1
      simp only [] at h1
      have hinit : SameFrame s1.1 s.1 ∧ SameFrame s1.2 s.1 := by
        refine foldE_inv (fun a : (Nat → optPos) × (Nat → optPos) =>
          SameFrame a.1 s.1 ∧ SameFrame a.2 s.1) _ ?_ _ s s1
          ⟨SameFrame.refl _, by rw [← hsame]; exact SameFrame.refl _⟩ h1
        intro a t a1 ha hstep
        obtain ⟨h3, h4⟩ := initTig_sameFrame env tv a a1 t hstep
        exact ⟨h3.trans ha.1, h4.trans ha.2⟩
      obtain ⟨hop, hnp⟩ := refineLoop_sameFrame env tv s.1 5 _ _ res hinit.1 hinit.2 hres
      have hexp := (expandAll_sameFrame env tv res.op).trans hop
      intro fi
      exact ⟨(hexp fi).1, (hexp fi).2, (hnp fi).1, (hnp fi).2⟩

/-- Witness for claim C7: the two coincident reads; read 2 is forward in the snapshot
and in both arrays at the end. -/
theorem optimizePositions_keeps_orientation_witness :
    snapshot (coincidentEnv 0) coincidentTigs =
      .ok (arraysOf (snapshot (coincidentEnv 0) coincidentTigs)) ∧
    optimizeArrays (coincidentEnv 0) coincidentTigs =
      .ok (refinedOf (optimizeArrays (coincidentEnv 0) coincidentTigs)) ∧
    ((refinedOf (optimizeArrays (coincidentEnv 0) coincidentTigs)).op 2).fwd =
      ((arraysOf (snapshot (coincidentEnv 0) coincidentTigs)).1 2).fwd ∧
    ((arraysOf (snapshot (coincidentEnv 0) coincidentTigs)).1 2).fwd = true :=
  ⟨by with_unfolding_all rfl, by with_unfolding_all rfl,
    ((optimizePositions_keeps_orientation (coincidentEnv 0) coincidentTigs _ _
      (by with_unfolding_all rfl) (by with_unfolding_all rfl)).1 2).1,
    by with_unfolding_all rfl⟩

/-! ## Assignments to the working records and the frame of the expansion pass -/

/-- A record other than the assigned one is untouched by `op[i].min = v`. -/
theorem setMin_other (op : Nat → optPos) (i k : Nat) (v : Dbl) (hk : k ≠ i) :
    setMin op i v k = op k := by
  simp [setMin, hk]

/-- A record other than the assigned one is untouched by `op[i].max = v`. -/
theorem setMax_other (op : Nat → optPos) (i k : Nat) (v : Dbl) (hk : k ≠ i) :
    setMax op i v k = op k := by
  simp [setMax, hk]

/-- The assignment `op[i].min = v` stores `v`. -/
theorem setMin_min (op : Nat → optPos) (i : Nat) (v : Dbl) : (setMin op i v i).min = v := by
  simp [setMin]

/-- The assignment `op[i].min = v` leaves every `max` alone. -/
theorem setMin_max (op : Nat → optPos) (i k : Nat) (v : Dbl) :
    (setMin op i v k).max = (op k).max := by
  unfold setMin
  split <;> rfl

/-- The assignment `op[i].max = v` stores `v`. -/
theorem setMax_max (op : Nat → optPos) (i : Nat) (v : Dbl) : (setMax op i v i).max = v := by
  simp [setMax]

/-- The assignment `op[i].max = v` leaves every `min` alone. -/
theorem setMax_min (op : Nat → optPos) (i k : Nat) (v : Dbl) :
    (setMax op i v k).min = (op k).min := by
  unfold setMax
  split <;> rfl

/-- The adjustment of `min` changes no record but that of `jid`, and not its `max`. -/
theorem expand_adjust_min_frame (iid : Nat) (m sc e : Dbl) (op : Nat → optPos) (jid : Nat) :
    (∀ k, k ≠ jid → expand_adjust_min iid m sc e op jid k = op k) ∧
    (expand_adjust_min iid m sc e op jid jid).max = (op jid).max := by
  unfold expand_adjust_min
  split_ifs
  · exact ⟨fun _ _ => rfl, rfl⟩
  · exact ⟨fun k hk => setMin_other _ _ _ _ hk, setMin_max _ _ _ _⟩
  · exact ⟨fun k hk => setMin_other _ _ _ _ hk, setMin_max _ _ _ _⟩

/-- The adjustment of `max` changes no record but that of `jid`, and not its `min`. -/
theorem expand_adjust_max_frame (iid : Nat) (m sc e : Dbl) (op : Nat → optPos) (jid : Nat) :
    (∀ k, k ≠ jid → expand_adjust_max iid m sc e op jid k = op k) ∧
    (expand_adjust_max iid m sc e op jid jid).min = (op jid).min := by
  unfold expand_adjust_max
  split_ifs
  · exact ⟨fun _ _ => rfl, rfl⟩
  · exact ⟨fun k hk => setMax_other _ _ _ _ hk, setMax_min _ _ _ _⟩
  · exact ⟨fun k hk => setMax_other _ _ _ _ hk, setMax_min _ _ _ _⟩

/-- The inner loop body of the expansion changes no record but that of `jid`. -/
theorem optimize_expand_inner_other (iid : Nat) (m sc e : Dbl) (op : Nat → optPos)
    (jid k : Nat) (hk : k ≠ jid) : optimize_expand_inner iid m sc e op jid k = op k := by
  unfold optimize_expand_inner
  rw [(expand_adjust_max_frame iid m sc e _ jid).1 k hk,
    (expand_adjust_min_frame iid m sc e op jid).1 k hk]

/-! ## The expansion pass and the floor on the read length -/

/-- Claim C2, evaluated on the code: the floor `readLength <= op.max - op.min` does not
hold after `optimize_expand` on a working array that holds `NaN`.  For the lone read of
length 10, which has no qualifying overlap, `optimize_recompute` stores `NaN` in `min`
and in `max`.  On that array, and on any array that is `NaN` at the read, the test
`readLen <= opiilen` is false, the read is taken for short, and the pass leaves
`min = NaN` and `max = NaN`: the read does not satisfy the floor. -/
theorem optimize_expand_nan_not_floored :
    (arrayOf (loneTig.optimize_recompute singletonEnv (singletonTigs true) 1
      singletonOp singletonOp) 1).min = Dbl.nan ∧
    (arrayOf (loneTig.optimize_recompute singletonEnv (singletonTigs true) 1
      singletonOp singletonOp) 1).max = Dbl.nan ∧
    Dbl.le (Dbl.ofInt (singletonEnv.readLength 1))
      ((loneTig.optimize_expand singletonEnv
          (arrayOf (loneTig.optimize_recompute singletonEnv (singletonTigs true) 1
            singletonOp singletonOp)) 1).max -
        (loneTig.optimize_expand singletonEnv
          (arrayOf (loneTig.optimize_recompute singletonEnv (singletonTigs true) 1
            singletonOp singletonOp)) 1).min) = false ∧
    (loneTig.optimize_expand singletonEnv nanOp 1).min = Dbl.nan ∧
    (loneTig.optimize_expand singletonEnv nanOp 1).max = Dbl.nan ∧
    Dbl.le (Dbl.ofInt (singletonEnv.readLength 1))
      ((loneTig.optimize_expand singletonEnv nanOp 1).max -
        (loneTig.optimize_expand singletonEnv nanOp 1).min) = false := by
  refine ⟨?_, ?_, ?_, ?_, ?_, ?_⟩ <;> with_unfolding_all rfl

/-! ## The overlap loops as sums over the qualifying overlaps -/

/-- The overlap loop of `optimize_initPlace`, when the path entries it indexes are
there: it adds the candidates of the qualifying overlaps, in list order, and counts
them. -/
theorem initPlace_scan_eq (tv : TigVector) (u : Unitig) (ii : Nat) (firstPass : Bool)
    (op : Nat → optPos) (iid : Nat) :
    ∀ (ovl : List BAToverlap) (acc : Dbl × Nat), IndexedIn tv u ii ovl →
      initPlace_scan tv u ii firstPass op iid ovl acc =
        .ok (dsum acc.1 ((ovl.filter (initPlace_qualifies tv u ii firstPass)).map (candMin op iid)),
             acc.2 + (ovl.filter (initPlace_qualifies tv u ii firstPass)).length)
  | [], acc, _ => by simp [initPlace_scan, dsum]
  | o :: rest, acc, h => by
      obtain ⟨⟨ni, hni⟩, hall⟩ := h
      have hrest : IndexedIn tv u ii rest :=
        ⟨⟨ni, hni⟩, fun o1 ho1 => hall o1 (List.mem_cons_of_mem _ ho1)⟩
      unfold initPlace_scan
      by_cases huu : tv.inUnitig o.b_iid = u.id
      · obtain ⟨nj, hnj⟩ := hall o (List.mem_cons_self _ _) huu
        simp only [huu, ne_eq, not_true_eq_false, if_false, hni, hnj]
        by_cases hov : isOverlapping ni.position nj.position = false
        · have hq : initPlace_qualifies tv u ii firstPass o = false := by
            simp [initPlace_qualifies, huu, hni, hnj, hov]
          rw [if_pos hov, initPlace_scan_eq tv u ii firstPass op iid rest acc hrest,
            List.filter_cons_of_neg (by simp [hq])]
        · rw [if_neg hov]
          have hov' : isOverlapping ni.position nj.position = true := by
            cases hb : isOverlapping ni.position nj.position
            · exact absurd hb hov
            · rfl
          by_cases hafter : (firstPass && decide (tv.ufpathIdx o.b_iid > ii)) = true
          · have hq : initPlace_qualifies tv u ii firstPass o = false := by
              simp [initPlace_qualifies, huu, hni, hnj, hov', hafter]
            rw [if_pos hafter, initPlace_scan_eq tv u ii firstPass op iid rest acc hrest,
              List.filter_cons_of_neg (by simp [hq])]
          · have hq : initPlace_qualifies tv u ii firstPass o = true := by
              simp [initPlace_qualifies, huu, hni, hnj, hov', hafter]
            rw [if_neg hafter, initPlace_scan_eq tv u ii firstPass op iid rest _ hrest,
              List.filter_cons_of_pos hq]
            simp [dsum, Nat.add_comm, Nat.add_left_comm]
      · have hq : initPlace_qualifies tv u ii firstPass o = false := by
          simp [initPlace_qualifies, huu]
        simp only [ne_eq, huu, not_false_eq_true, if_true]
        rw [initPlace_scan_eq tv u ii firstPass op iid rest acc hrest,
          List.filter_cons_of_neg (by simp [hq])]

/-! ## The second initialisation pass -/

/-- Claim C11 as stated fails: for the second read of a unitig whose two reads share no
overlap, the second pass of `optimize_initPlace` does not complete: it stops at
`assert(cnt > 0)` (line 140), and so does the whole of `optimizePositions`. -/
theorem optimize_initPlace_second_pass_stops :
    faultOf (strandedTig.optimize_initPlace strandedEnv strandedTigs 1 false strandedState) =
      some Fault.assertFailed ∧
    faultOf (strandedTigs.committedPositions strandedEnv) = some Fault.assertFailed := by
  constructor <;> with_unfolding_all rfl

/-- Claim C11, amended: for a read at path index `ii > 0` none of whose overlaps
qualifies in the first pass, the first pass only adds the read to the failed set; if
none qualifies in the second pass either, the second pass writes its diagnostic and
stops at `assert(cnt > 0)`: it does not return, and `op.min = 0`,
`op.max = readLength` are not written. -/
theorem optimize_initPlace_unplaced_read (env : Env) (tv : TigVector) (u : Unitig)
    (ii : Nat) (n : ufNode) (st : InitState)
    (hn : u.ufpath[ii]? = some n) (hii : ii > 0)
    (hidx : IndexedIn tv u ii (env.getOverlaps n.ident))
    (hfirst : (env.getOverlaps n.ident).filter (initPlace_qualifies tv u ii true) = [])
    (hsecond : (env.getOverlaps n.ident).filter (initPlace_qualifies tv u ii false) = []) :
    u.optimize_initPlace env tv ii true st = .ok { st with failed := n.ident :: st.failed } ∧
    ∀ st2 : InitState, n.ident ∈ st2.failed →
      u.optimize_initPlace env tv ii false st2 = .error Fault.assertFailed := by
  constructor
  · unfold Unitig.optimize_initPlace
    simp only [hn, Bool.true_eq_false, false_and, if_false, if_pos hii]
    rw [initPlace_scan_eq tv u ii true st.op n.ident _ _ hidx, hfirst]
    simp
  · intro st2 hf
    unfold Unitig.optimize_initPlace
    simp only [hn, hf, not_true_eq_false, and_false, if_false, if_pos hii]
    rw [initPlace_scan_eq tv u ii false st2.op n.ident _ _ hidx, hsecond]
    simp

/-- Witness for the amended claim C11: the second of the two stranded reads. -/
theorem optimize_initPlace_unplaced_read_witness :
    strandedTig.optimize_initPlace strandedEnv strandedTigs 1 false strandedState =
      .error Fault.assertFailed :=
  (optimize_initPlace_unplaced_read strandedEnv strandedTigs strandedTig 1 (plainNode 2 5 15)
    strandedState rfl (by decide)
    ⟨⟨_, rfl⟩, fun o ho => absurd ho (List.not_mem_nil _)⟩ rfl rfl).2 strandedState
    (by decide)

/-- The overlap loop of `optimize_recompute`, when the path entries it indexes are
there: it adds the candidate starts and ends of the qualifying overlaps, in list
order, and counts them. -/
theorem recompute_scan_eq (tv : TigVector) (u : Unitig) (op : Nat → optPos) (iid : Nat) :
    ∀ (ovl : List BAToverlap) (acc : Dbl × Dbl × Nat),
      IndexedIn tv u (tv.ufpathIdx iid) ovl →
      recompute_scan tv u op iid ovl acc =
        .ok (dsum acc.1 ((ovl.filter (recompute_qualifies tv u iid)).map (candMin op iid)),
             dsum acc.2.1 ((ovl.filter (recompute_qualifies tv u iid)).map (candMax op iid)),
             acc.2.2 + (ovl.filter (recompute_qualifies tv u iid)).length)
  | [], acc, _ => by simp [recompute_scan, dsum]
  | o :: rest, acc, h => by
      obtain ⟨⟨ni, hni⟩, hall⟩ := h
      have hrest : IndexedIn tv u (tv.ufpathIdx iid) rest :=
        ⟨⟨ni, hni⟩, fun o1 ho1 => hall o1 (List.mem_cons_of_mem _ ho1)⟩
      unfold recompute_scan
      by_cases huu : tv.inUnitig o.b_iid = u.id
      · obtain ⟨nj, hnj⟩ := hall o (List.mem_cons_self _ _) huu
        simp only [huu, ne_eq, not_true_eq_false, if_false, hni, hnj]
        by_cases hov : isOverlapping ni.position nj.position = false
        · have hq : recompute_qualifies tv u iid o = false := by
            simp [recompute_qualifies, huu, hni, hnj, hov]
          rw [if_pos hov, recompute_scan_eq tv u op iid rest acc hrest,
            List.filter_cons_of_neg (by simp [hq])]
        · rw [if_neg hov]
          have hov' : isOverlapping ni.position nj.position = true := by
            cases hb : isOverlapping ni.position nj.position
            · exact absurd hb hov
            · rfl
          have hq : recompute_qualifies tv u iid o = true := by
            simp [recompute_qualifies, huu, hni, hnj, hov']
          rw [recompute_scan_eq tv u op iid rest _ hrest, List.filter_cons_of_pos hq]
          simp [dsum, Nat.add_comm, Nat.add_left_comm]
      · have hq : recompute_qualifies tv u iid o = false := by
          simp [recompute_qualifies, huu]
        simp only [ne_eq, huu, not_false_eq_true, if_true]
        rw [recompute_scan_eq tv u op iid rest acc hrest,
          List.filter_cons_of_neg (by simp [hq])]

/-- Claim C17 as stated fails: read 1 of the two coincident reads has one qualifying
overlap, whose candidate start is 10, and its own record is `[0, 500]` for a read of
length 500.  The specification's formula, with the read-length evidence weighted by
`1/4`, gives `(10 + (1/4) * 0) / (1 + 1/4) = 8`; `optimize_recompute` stores 10, the
plain candidate, because `cnt / 4` is the integer `0`. -/
theorem optimize_recompute_no_quarter_weight :
    (arrayOf (coincidentTig.optimize_recompute (coincidentEnv 0) coincidentTigs 1
      perturbedOp perturbedOp) 1).min = Dbl.fin 10 ∧
    spec_quarter_weighted (Dbl.fin 10) 1 (Dbl.fin 500 - Dbl.fin 500) = Dbl.fin 8 := by
  constructor <;> with_unfolding_all rfl

/-- Claim C17, amended: for a read whose path entries are indexed consistently, with
`c` the number of its qualifying overlaps (partner in the same unitig, placed
intervals intersecting) and `q = c / 4` in integer division, `optimize_recompute`
returns and sets `np.min = (sum of candidate mins + q * (op.max - readLength)) /
(c + q)` and `np.max = (sum of candidate maxes + q * (op.min + readLength)) / (c + q)`,
each candidate being `(partner.min - aHang, partner.max - bHang)` for a forward read
and `(partner.min + bHang, partner.max + aHang)` for a reverse read; no other record
of `np` changes.  The read-length evidence has weight `q = 0` for `c = 1, 2, 3`. -/
theorem optimize_recompute_formula (env : Env) (tv : TigVector) (u : Unitig) (iid : Nat)
    (op np : Nat → optPos)
    (hidx : IndexedIn tv u (tv.ufpathIdx iid) (env.getOverlaps iid)) :
    ∃ np1, u.optimize_recompute env tv iid op np = .ok np1 ∧
      (np1 iid).min =
        (dsum (Dbl.fin 0) ((recompute_quals env tv u iid).map (candMin op iid)) +
          Dbl.ofInt (((recompute_quals env tv u iid).length / 4 : Nat) : Int) *
            ((op iid).max - Dbl.ofInt (env.readLength iid))) /
        Dbl.ofInt (((recompute_quals env tv u iid).length +
          (recompute_quals env tv u iid).length / 4 : Nat) : Int) ∧
      (np1 iid).max =
        (dsum (Dbl.fin 0) ((recompute_quals env tv u iid).map (candMax op iid)) +
          Dbl.ofInt (((recompute_quals env tv u iid).length / 4 : Nat) : Int) *
            ((op iid).min + Dbl.ofInt (env.readLength iid))) /
        Dbl.ofInt (((recompute_quals env tv u iid).length +
          (recompute_quals env tv u iid).length / 4 : Nat) : Int) ∧
      (∀ k, k ≠ iid → np1 k = np k) ∧
      (∀ o, candMin op iid o =
          (if (op iid).fwd then (op o.b_iid).min - Dbl.ofInt o.a_hang
           else (op o.b_iid).min + Dbl.ofInt o.b_hang) ∧
        candMax op iid o =
          (if (op iid).fwd then (op o.b_iid).max - Dbl.ofInt o.b_hang
           else (op o.b_iid).max + Dbl.ofInt o.a_hang)) ∧
      ((1 / 4 : Nat) = 0 ∧ (2 / 4 : Nat) = 0 ∧ (3 / 4 : Nat) = 0) := by
  unfold Unitig.optimize_recompute recompute_quals
  rw [recompute_scan_eq tv u op iid _ _ hidx]
  simp only [Nat.zero_add]
  refine ⟨_, rfl, ?_, ?_, ?_, fun o => ⟨rfl, rfl⟩, by decide⟩
  · rw [setMax_min, setMin_min]
  · rw [setMax_max]
  · intro k hk
    rw [setMax_other _ _ _ _ hk, setMin_other _ _ _ _ hk]

/-- Witness for the amended claim C17: read 1 of the two coincident reads, which has
one qualifying overlap; its recomputed start is the candidate start 10. -/
theorem optimize_recompute_formula_witness :
    IndexedIn coincidentTigs coincidentTig (coincidentTigs.ufpathIdx 1)
      ((coincidentEnv 0).getOverlaps 1) ∧
    (recompute_quals (coincidentEnv 0) coincidentTigs coincidentTig 1).length = 1 ∧
    (arrayOf (coincidentTig.optimize_recompute (coincidentEnv 0) coincidentTigs 1
      perturbedOp perturbedOp) 1).min =
        (dsum (Dbl.fin 0) ((recompute_quals (coincidentEnv 0) coincidentTigs coincidentTig 1).map
            (candMin perturbedOp 1)) +
          Dbl.ofInt (((recompute_quals (coincidentEnv 0) coincidentTigs coincidentTig 1).length
            / 4 : Nat) : Int) *
            ((perturbedOp 1).max - Dbl.ofInt ((coincidentEnv 0).readLength 1))) /
        Dbl.ofInt (((recompute_quals (coincidentEnv 0) coincidentTigs coincidentTig 1).length +
          (recompute_quals (coincidentEnv 0) coincidentTigs coincidentTig 1).length / 4 : Nat)
            : Int) := by
  have hidx : IndexedIn coincidentTigs coincidentTig (coincidentTigs.ufpathIdx 1)
      ((coincidentEnv 0).getOverlaps 1) :=
    ⟨⟨plainNode 1 0 500, rfl⟩, by
      intro o ho _
      have : o = ⟨2, 0, 0⟩ := by simpa [coincidentEnv] using ho
      subst this
      exact ⟨plainNode 2 10 510, rfl⟩⟩
  refine ⟨hidx, by decide, ?_⟩
  obtain ⟨np1, h1, h2, _⟩ := optimize_recompute_formula (coincidentEnv 0) coincidentTigs
    coincidentTig 1 perturbedOp perturbedOp hidx
  rw [h1]
  exact h2

/-! ## Order independence of the recomputation -/

/-- One iteration of the recompute loop is a write to `np[fi]` whose values are
computed from `op` alone. -/
theorem recompute_step_eq (env : Env) (tv : TigVector) (op np : Nat → optPos) (fi : Nat) :
    recompute_step env tv op np fi =
      (match recompute_write env tv op fi with
        | .error e => .error e
        | .ok w => .ok (applyWrite np fi w)) := by
  unfold recompute_step recompute_write
  by_cases h0 : tv.inUnitig fi = 0
  · simp [h0, applyWrite]
  · simp only [if_neg h0]
    cases hd : tv.deref (tv.inUnitig fi) with
    | error e => rfl
    | ok u =>
        simp only []
        unfold Unitig.optimize_recompute
        cases hs : recompute_scan tv u op fi (env.getOverlaps fi) (Dbl.fin 0, Dbl.fin 0, 0) with
        | error e => rfl
        | ok r =>
            obtain ⟨x, y, c⟩ := r
            simp [applyWrite]

/-- The overlap loop of `optimize_recompute` stops only on a path index out of range. -/
theorem recompute_scan_fault (tv : TigVector) (u : Unitig) (op : Nat → optPos) (iid : Nat) :
    ∀ (ovl : List BAToverlap) (acc : Dbl × Dbl × Nat) (e : Fault),
      recompute_scan tv u op iid ovl acc = .error e → e = Fault.outOfRange
  | [], acc, e, h => by simp [recompute_scan] at h
  | o :: rest, acc, e, h => by
      unfold recompute_scan at h
      simp only [] at h
      split at h
      · exact recompute_scan_fault tv u op iid rest acc e h
      · split at h
        · split at h
          · exact recompute_scan_fault tv u op iid rest acc e h
          · exact recompute_scan_fault tv u op iid rest _ e h
        · injection h with h
          exact h.symm

/-- One iteration of the recompute loop stops only on an index out of range. -/
theorem recompute_write_fault (env : Env) (tv : TigVector) (op : Nat → optPos) (fi : Nat)
    (e : Fault) (h : recompute_write env tv op fi = .error e) : e = Fault.outOfRange := by
  unfold recompute_write at h
  split at h
  · cases h
  · split at h
    · rename_i e1 hd
      unfold TigVector.deref at hd
      split at hd
      · cases hd
      · injection hd with hd
        injection h with h
        rw [← h, ← hd]
    · split at h
      · rename_i e1 hs
        injection h with h
        rw [← h]
        exact recompute_scan_fault tv _ op fi _ _ e1 hs
      · cases h

/-- Writes to the records of two different reads commute. -/
theorem applyWrite_comm (np : Nat → optPos) (a b : Nat) (hab : a ≠ b)
    (wa wb : Option (Dbl × Dbl)) :
    applyWrite (applyWrite np a wa) b wb = applyWrite (applyWrite np b wb) a wa := by
  funext k
  cases wa <;> cases wb <;> simp only [applyWrite, setMin, setMax]
  by_cases hka : k = a
  · have hkb : k ≠ b := fun h => hab (hka.symm.trans h)
    simp [hka, hab]
  · by_cases hkb : k = b
    · simp [hkb, Ne.symm hab]
    · simp [hka, hkb]

/-- A read that is in a unitig gets a write. -/
theorem recompute_write_placed (env : Env) (tv : TigVector) (op : Nat → optPos) (fi : Nat)
    (h0 : tv.inUnitig fi ≠ 0) (w : Option (Dbl × Dbl))
    (h : recompute_write env tv op fi = .ok w) : ∃ v, w = some v := by
  unfold recompute_write at h
  rw [if_neg h0] at h
  split at h
  · cases h
  · split at h
    · cases h
    · injection h with h
      exact ⟨_, h.symm⟩

/-- Claim C14: within one round, running the recompute iteration for read `a` and then
for read `b` gives the same `np` as running it for `b` and then for `a` (and stops in
the one order exactly when it stops in the other); `op` is only read.  Each iteration
changes `np[own id].min` and `np[own id].max` alone: nothing for a read in no unitig,
and for a read in a unitig values that do not depend on `np`. -/
theorem recompute_order_independent (env : Env) (tv : TigVector) (op np : Nat → optPos)
    (a b : Nat) :
    recompute_two env tv op np a b = recompute_two env tv op np b a ∧
    (∀ np1, recompute_step env tv op np a = .ok np1 →
      (∀ k, k ≠ a → np1 k = np k) ∧ (np1 a).fwd = (np a).fwd ∧ (np1 a).ident = (np a).ident ∧
      (tv.inUnitig a = 0 → np1 = np) ∧
      (tv.inUnitig a ≠ 0 → ∀ np0 np2, recompute_step env tv op np0 a = .ok np2 →
        (np2 a).min = (np1 a).min ∧ (np2 a).max = (np1 a).max)) := by
  constructor
  · by_cases hab : a = b
    · rw [hab]
    · unfold recompute_two
      simp only [recompute_step_eq]
      cases ha : recompute_write env tv op a with
      | error ea =>
          have hea := recompute_write_fault env tv op a ea ha
          cases hb : recompute_write env tv op b with
          | error eb =>
              have heb := recompute_write_fault env tv op b eb hb
              simp [hea, heb]
          | ok wb => simp [ha]
      | ok wa =>
          cases hb : recompute_write env tv op b with
          | error eb => simp [hb]
          | ok wb =>
              simp only [ha, hb]
              rw [applyWrite_comm np a b hab wa wb]
  · intro np1 h1
    rw [recompute_step_eq] at h1
    cases hw : recompute_write env tv op a with
    | error e =>
        rw [hw] at h1
        cases h1
    | ok w =>
        rw [hw] at h1
        injection h1 with h1
        subst h1
        refine ⟨?_, ?_, ?_, ?_, ?_⟩
        · intro k hk
          cases w with
          | none => rfl
          | some v =>
              simp only [applyWrite]
              rw [setMax_other _ _ _ _ hk, setMin_other _ _ _ _ hk]
        · cases w with
          | none => rfl
          | some v => simp [applyWrite, setMin, setMax]
        · cases w with
          | none => rfl
          | some v => simp [applyWrite, setMin, setMax]
        · intro h0
          unfold recompute_write at hw
          rw [if_pos h0] at hw
          injection hw with hw
          rw [← hw]
          rfl
        · intro h0 np0 np2 h2
          rw [recompute_step_eq, hw] at h2
          injection h2 with h2
          subst h2
          obtain ⟨v, hv⟩ := recompute_write_placed env tv op a h0 w hw
          subst hv
          simp [applyWrite, setMin, setMax]

/-- Witness for claim C14: the two coincident reads, recomputed in either order. -/
theorem recompute_order_independent_witness :
    recompute_step (coincidentEnv 0) coincidentTigs perturbedOp perturbedOp 1 =
      .ok (arrayOf (recompute_step (coincidentEnv 0) coincidentTigs perturbedOp perturbedOp 1)) ∧
    (arrayOf (recompute_step (coincidentEnv 0) coincidentTigs perturbedOp perturbedOp 1) 2) =
      perturbedOp 2 :=
  ⟨by with_unfolding_all rfl,
    ((recompute_order_independent (coincidentEnv 0) coincidentTigs perturbedOp perturbedOp
      1 2).2 _ (by with_unfolding_all rfl)).1 2 (by decide)⟩

/-! ## Divisions of a refinement round -/

/-- Claim C15, evaluated on the code: neither division of a refinement round is
guarded.  For the lone read, which has no qualifying overlap, `optimize_recompute`
divides `0.0` by `cnt = 0` and stores `NaN` in `np.min` and `np.max`.  In the
convergence check, index 0 has read length 0, so with identical `op` and `np` the
measure is `0.0 / 0 = NaN`, the read is not counted converged, and `nChanged` is 1
although nothing changed. -/
theorem refinement_divisions_unguarded :
    (arrayOf (loneTig.optimize_recompute singletonEnv (singletonTigs true) 1
      singletonOp singletonOp) 1).min = Dbl.nan ∧
    (arrayOf (loneTig.optimize_recompute singletonEnv (singletonTigs true) 1
      singletonOp singletonOp) 1).max = Dbl.nan ∧
    isConverged (coincidentEnv 0) coincidentOp coincidentOp 0 = false ∧
    countChanged (coincidentEnv 0) coincidentOp coincidentOp = 1 := by
  refine ⟨?_, ?_, ?_, ?_⟩ <;> with_unfolding_all rfl

/-! ## What the commit writes -/

/-- The cast on a finite value. -/
theorem toInt32_fin (q : ℚ) :
    Dbl.toInt32 (Dbl.fin q) =
      if -2147483648 ≤ Dbl.truncQ q ∧ Dbl.truncQ q ≤ 2147483647 then some (Dbl.truncQ q)
      else none := rfl

/-- The truncation of the model is truncation toward zero: the floor of a value that
is not negative, the ceiling of a negative value. -/
theorem truncQ_eq (q : ℚ) : Dbl.truncQ q = if 0 ≤ q then ⌊q⌋ else ⌈q⌉ := by
  unfold Dbl.truncQ
  split
  · rfl
  · show -⌊-q⌋ = ⌈q⌉
    rw [Int.floor_neg, neg_neg]

/-- The cast `(int32)` truncates toward zero: it is defined on finite values whose
truncation fits 32 bits, and only there. -/
theorem toInt32_spec (d : Dbl) (z : Int) (h : Dbl.toInt32 d = some z) :
    ∃ q : ℚ, d = Dbl.fin q ∧ z = (if 0 ≤ q then ⌊q⌋ else ⌈q⌉) ∧
      -2147483648 ≤ z ∧ z ≤ 2147483647 := by
  cases d with
  | fin q =>
      rw [toInt32_fin] at h
      by_cases hr : -2147483648 ≤ Dbl.truncQ q ∧ Dbl.truncQ q ≤ 2147483647
      · rw [if_pos hr] at h
        injection h with h
        refine ⟨q, rfl, ?_, by rw [← h]; exact hr.1, by rw [← h]; exact hr.2⟩
        rw [← h, truncQ_eq]
      · rw [if_neg hr] at h
        cases h
  | pinf => cases h
  | ninf => cases h
  | nan => cases h

/-- The commit of one entry, when both casts are defined. -/
theorem setPosition_eq (op : Nat → optPos) (n : ufNode) (h : Castable op n.ident) :
    setPosition op n = some (spec_commit op n) := by
  obtain ⟨h1, h2⟩ := h
  obtain ⟨lo, hlo⟩ := Option.isSome_iff_exists.mp h1
  obtain ⟨hi, hhi⟩ := Option.isSome_iff_exists.mp h2
  unfold setPosition spec_commit Dbl.trunc32
  rw [hlo, hhi]
  simp only [Option.getD_some]
  split <;> rfl

/-- The commit of one entry is undefined when a cast is. -/
theorem setPosition_none (op : Nat → optPos) (n : ufNode) (h : ¬ Castable op n.ident) :
    setPosition op n = none := by
  unfold setPosition
  split
  · rename_i lo hi hlo hhi
    exfalso
    apply h
    exact ⟨by rw [hlo]; rfl, by rw [hhi]; rfl⟩
  · rfl

/-- The commit loop over a path all of whose casts are defined. -/
theorem setPositions_path_eq (op : Nat → optPos) :
    ∀ (l : List ufNode), (∀ n ∈ l, Castable op n.ident) →
      setPositions_path op l = some (l.map (spec_commit op))
  | [], _ => rfl
  | n :: ns, h => by
      unfold setPositions_path
      rw [setPosition_eq op n (h n (List.mem_cons_self _ _)),
        setPositions_path_eq op ns (fun m hm => h m (List.mem_cons_of_mem _ hm))]
      rfl

/-- The commit loop over a path with an undefined cast. -/
theorem setPositions_path_none (op : Nat → optPos) :
    ∀ (l : List ufNode), (∃ n ∈ l, ¬ Castable op n.ident) → setPositions_path op l = none
  | [], h => by
      obtain ⟨n, hn, _⟩ := h
      exact absurd hn (List.not_mem_nil _)
  | n :: ns, h => by
      unfold setPositions_path
      by_cases hc : Castable op n.ident
      · rw [setPosition_eq op n hc]
        have hrest : ∃ m ∈ ns, ¬ Castable op m.ident := by
          obtain ⟨m, hm, hmc⟩ := h
          rcases List.mem_cons.mp hm with h1 | h1
          · exact absurd (h1 ▸ hc) hmc
          · exact ⟨m, h1, hmc⟩
        rw [setPositions_path_none op ns hrest]
      · rw [setPosition_none op n hc]

/-- Claim C19: when every cast is defined, `optimize_setPositions` returns the unitig
with, for every read of the path in the same order, `begin = trunc(op.min)`,
`end = trunc(op.max)` if the read's `fwd` flag is set and `begin = trunc(op.max)`,
`end = trunc(op.min)` otherwise, the cast truncating toward zero into the 32-bit
range; the unitig id, the path order, every read's `ident` and its other fields are
unchanged (and `op`, an argument, is not written).  When a cast is undefined the
commit has no defined result. -/
theorem optimize_setPositions_writes (u : Unitig) (op : Nat → optPos) :
    ((∀ n ∈ u.ufpath, Castable op n.ident) →
      u.optimize_setPositions op = some { u with ufpath := u.ufpath.map (spec_commit op) }) ∧
    ((∃ n ∈ u.ufpath, ¬ Castable op n.ident) → u.optimize_setPositions op = none) ∧
    (u.ufpath.map (spec_commit op)).map ufNode.ident = u.ufpath.map ufNode.ident ∧
    (∀ n, (spec_commit op n).ident = n.ident ∧ (spec_commit op n).contained = n.contained ∧
      (spec_commit op n).parent = n.parent ∧ (spec_commit op n).ahang = n.ahang ∧
      (spec_commit op n).bhang = n.bhang ∧
      (spec_commit op n).position =
        (if (op n.ident).fwd then
          { bgn := Dbl.trunc32 (op n.ident).min, end_ := Dbl.trunc32 (op n.ident).max }
        else
          { bgn := Dbl.trunc32 (op n.ident).max, end_ := Dbl.trunc32 (op n.ident).min })) ∧
    (∀ q : ℚ, -2147483648 ≤ (if 0 ≤ q then ⌊q⌋ else ⌈q⌉) →
      (if 0 ≤ q then ⌊q⌋ else ⌈q⌉) ≤ 2147483647 →
      Dbl.trunc32 (Dbl.fin q) = (if 0 ≤ q then ⌊q⌋ else ⌈q⌉)) := by
  refine ⟨?_, ?_, ?_, ?_, ?_⟩
  · intro h
    unfold Unitig.optimize_setPositions
    rw [setPositions_path_eq op u.ufpath h]
  · intro h
    unfold Unitig.optimize_setPositions
    rw [setPositions_path_none op u.ufpath h]
  · rw [List.map_map]
    rfl
  · intro n
    exact ⟨rfl, rfl, rfl, rfl, rfl, rfl⟩
  · intro q h1 h2
    unfold Dbl.trunc32
    rw [toInt32_fin, truncQ_eq, if_pos ⟨h1, h2⟩]
    rfl

/-- Witness for claim C19: the three discordant reads placed 5 long at `[i, i + 5]`. -/
theorem optimize_setPositions_writes_witness :
    discordTig.optimize_setPositions shortOp =
      some { discordTig with ufpath := discordTig.ufpath.map (spec_commit shortOp) } ∧
    discordTig.ufpath.map (spec_commit shortOp) =
      [plainNode 1 1 6, plainNode 2 2 7, plainNode 3 3 8] :=
  ⟨(optimize_setPositions_writes discordTig shortOp).1
      (by
        intro n hn
        have h : n = plainNode 1 5 15 ∨ n = plainNode 2 0 10 ∨ n = plainNode 3 2 12 := by
          simpa [discordTig] using hn
        rcases h with h | h | h <;> subst h <;> constructor <;> with_unfolding_all rfl),
    by with_unfolding_all rfl⟩

/-! ## The reversed edge of the walk -/

/-- Claim C20 as stated fails: when both ends are 3' the reversed edge carries the
hangs swapped, `(5, 3)` for `(3, 5)`, not sign-flipped; when the ends differ it
carries them sign-flipped, `(-3, -5)`, not unchanged. -/
theorem reverseEdge_not_as_claimed :
    (reverseEdge 1 true (sampleEdge true)).ahang = 5 ∧
    (reverseEdge 1 true (sampleEdge true)).bhang = 3 ∧
    (reverseEdge 1 true (sampleEdge false)).ahang = -3 ∧
    (reverseEdge 1 true (sampleEdge false)).bhang = -5 := by
  decide

/-- Claim C20, amended: in the walk, the edge handed to `placeRead`, which points from
the newly added read back to the last read of the path, names that last read and its
end; when the end walked off the last read and the end entered on the target read
agree it carries the hangs of the forward best edge swapped (`aHang := bHang`,
`bHang := aHang`) with their signs kept, and when the two ends differ it carries them
sign-flipped (`-aHang`, `-bHang`). -/
theorem reverseEdge_hangs (g : Graph) (tid fuel : Nat) (tv : TigVector) (read : ufNode)
    (lastID : Nat) (last3p : Bool) (e : BestEdgeOverlap) :
    (e.readId ≠ 0 ∧ tv.inUnitig e.readId = 0 →
      populateUnitig_loop g tid (fuel + 1) tv read lastID last3p e =
        match g.placeRead tv (tv.tig tid) read e.readId e.read3p (reverseEdge lastID last3p e) with
        | none => Outcome.placeFailed tv
        | some read1 =>
            populateUnitig_loop g tid fuel (tv.addRead tid read1 0) read1 read1.ident
              (decide (read1.position.bgn < read1.position.end_))
              (g.getBestEdgeOverlap read1.ident
                (decide (read1.position.bgn < read1.position.end_)))) ∧
    (reverseEdge lastID last3p e).readId = lastID ∧
    (reverseEdge lastID last3p e).read3p = last3p ∧
    (reverseEdge lastID last3p e).evalue = e.evalue ∧
    (last3p = e.read3p →
      (reverseEdge lastID last3p e).ahang = e.bhang ∧
      (reverseEdge lastID last3p e).bhang = e.ahang) ∧
    (last3p ≠ e.read3p →
      (reverseEdge lastID last3p e).ahang = -e.ahang ∧
      (reverseEdge lastID last3p e).bhang = -e.bhang) := by
  refine ⟨?_, ?_, ?_, ?_, ?_, ?_⟩
  · intro h
    rw [populateUnitig_loop, if_pos h]
  · unfold reverseEdge
    split <;> rfl
  · unfold reverseEdge
    split <;> rfl
  · unfold reverseEdge
    split <;> rfl
  · intro h
    unfold reverseEdge
    rw [if_pos h]
    exact ⟨rfl, rfl⟩
  · intro h
    unfold reverseEdge
    rw [if_neg h]
    exact ⟨rfl, rfl⟩

/-- Witness for the amended claim C20: the sample edges walked off a 3' end. -/
theorem reverseEdge_hangs_witness :
    ((reverseEdge 1 true (sampleEdge true)).ahang = (sampleEdge true).bhang ∧
      (reverseEdge 1 true (sampleEdge true)).bhang = (sampleEdge true).ahang) ∧
    ((reverseEdge 1 true (sampleEdge false)).ahang = -(sampleEdge false).ahang ∧
      (reverseEdge 1 true (sampleEdge false)).bhang = -(sampleEdge false).bhang) :=
  ⟨(reverseEdge_hangs (seedGraph 0 0) 1 0 emptyTigs (plainNode 1 0 10) 1 true
      (sampleEdge true)).2.2.2.2.1 (by decide),
    (reverseEdge_hangs (seedGraph 0 0) 1 0 emptyTigs (plainNode 1 0 10) 1 true
      (sampleEdge false)).2.2.2.2.2 (by decide)⟩

/-! ## Unitig construction: the new unitig -/

/-- The read ids of a vector with one more slot. -/
theorem allIdents_append (a b : List (Option Unitig)) :
    allIdents (a ++ b) = allIdents a ++ allIdents b := by
  induction a with
  | nil => rfl
  | cons t ts ih => simp [allIdents, ih]

/-- The unitig in the last slot. -/
theorem tig_last (tv : TigVector) (base : List (Option Unitig)) (u : Unitig)
    (h : tv.tigs = base ++ [some u]) : tv.tig base.length = u := by
  simp [TigVector.tig, h]

/-- Adding a read to the unitig in the last slot appends it to that path. -/
theorem addRead_last (tv : TigVector) (base : List (Option Unitig)) (u : Unitig)
    (node : ufNode) (h : tv.tigs = base ++ [some u]) :
    ∃ placed : ufNode, placed.ident = node.ident ∧
      (tv.addRead base.length node 0).tigs =
        base ++ [some { u with ufpath := u.ufpath ++ [placed] }] := by
  refine ⟨{ node with position :=
      { bgn := node.position.bgn + 0, end_ := node.position.end_ + 0 } }, rfl, ?_⟩
  have ht := tig_last tv base u h
  simp only [TigVector.addRead, ht, h]
  simp

/-- Reverse-complementing the unitig in the last slot reverses its list of read ids. -/
theorem reverseComplement_last (tv : TigVector) (base : List (Option Unitig)) (u : Unitig)
    (h : tv.tigs = base ++ [some u]) :
    ∃ u1 : Unitig, u1.ufpath.map ufNode.ident = (u.ufpath.map ufNode.ident).reverse ∧
      (tv.reverseComplement base.length).tigs = base ++ [some u1] ∧
      (tv.reverseComplement base.length).inUnitig = tv.inUnitig := by
  have ht := tig_last tv base u h
  refine ⟨{ u with ufpath := (u.ufpath.map (fun n => { n with position :=
      { bgn := u.getLength - n.position.bgn, end_ := u.getLength - n.position.end_ } })).reverse },
    ?_, ?_, rfl⟩
  · simp [List.map_reverse, List.map_map, Function.comp]
  · simp only [TigVector.reverseComplement, ht, h]
    simp

/-- The walk loop keeps the new unitig in the last slot and never removes a read from
its path. -/
theorem populateUnitig_loop_last (g : Graph) (base : List (Option Unitig)) (fi : Nat) :
    ∀ (fuel : Nat) (tv : TigVector) (read : ufNode) (lastID : Nat) (last3p : Bool)
      (bestnext : BestEdgeOverlap),
      (∃ u, tv.tigs = base ++ [some u] ∧ fi ∈ u.ufpath.map ufNode.ident) →
      ∃ u, (populateUnitig_loop g base.length fuel tv read lastID last3p bestnext).tv.tigs =
          base ++ [some u] ∧ fi ∈ u.ufpath.map ufNode.ident
  | 0, tv, read, lastID, last3p, bestnext, h => by
      unfold populateUnitig_loop
      split <;> exact h
  | fuel + 1, tv, read, lastID, last3p, bestnext, h => by
      unfold populateUnitig_loop
      split
      · simp only []
        split
        · exact h
        · rename_i read1 _
          obtain ⟨u, hu, hfi⟩ := h
          obtain ⟨placed, _, hadd⟩ := addRead_last tv base u read1 hu
          apply populateUnitig_loop_last g base fi fuel
          refine ⟨_, hadd, ?_⟩
          simp only [List.map_append, List.mem_append]
          exact Or.inl hfi
      · exact h

/-- The walk from one edge keeps the new unitig in the last slot and never removes a
read from its path. -/
theorem populateUnitig_edge_last (g : Graph) (base : List (Option Unitig)) (fi fuel : Nat)
    (tv : TigVector) (bestnext : BestEdgeOverlap)
    (h : ∃ u, tv.tigs = base ++ [some u] ∧ fi ∈ u.ufpath.map ufNode.ident) :
    ∃ u, (populateUnitig_edge g fuel tv base.length bestnext).tv.tigs = base ++ [some u] ∧
      fi ∈ u.ufpath.map ufNode.ident := by
  unfold populateUnitig_edge
  split
  · exact h
  · split
    · exact h
    · split
      · exact h
      · exact populateUnitig_loop_last g base fi fuel tv _ _ _ _ h

/-- Claim C12: `populateUnitig(tigs, fi)` returns with the vector exactly as it was
whenever read `fi` has length 0, is already placed in a unitig, or is contained and not
a zombie; in every other case the vector it leaves, however the call ends, is the old
vector with exactly one new unitig in a fresh last slot, and the path of that unitig
contains `fi`. -/
theorem populateUnitig_seed_filter (g : Graph) (fuel : Nat) (tv : TigVector) (fi : Nat) :
    (seedFiltered g tv fi → populateUnitig g fuel tv fi = Outcome.done tv) ∧
    (¬ seedFiltered g tv fi →
      ∃ u, (populateUnitig g fuel tv fi).tv.tigs = tv.tigs ++ [some u] ∧
        fi ∈ u.ufpath.map ufNode.ident) := by
  constructor
  · intro h
    unfold populateUnitig
    rcases h with h | h | h
    · rw [if_pos (Or.inl h)]
    · rw [if_pos (Or.inr h)]
    · by_cases h1 : g.readLength fi = 0 ∨ tv.inUnitig fi ≠ 0
      · rw [if_pos h1]
      · rw [if_neg h1, if_pos h]
  · intro h
    have h1 : ¬ (g.readLength fi = 0 ∨ tv.inUnitig fi ≠ 0) := by
      rintro (h1 | h1)
      · exact h (Or.inl h1)
      · exact h (Or.inr (Or.inl h1))
    have h2 : ¬ (g.isContained fi = true ∧ g.isZombie fi = false) :=
      fun h2 => h (Or.inr (Or.inr h2))
    have hseed : ∃ u, (seedTig g tv fi).tigs = tv.tigs ++ [some u] ∧
        fi ∈ u.ufpath.map ufNode.ident :=
      ⟨_, seedTig_tigs g tv fi, by simp [seedNode]⟩
    have htid : (tv.newUnitig).2 = tv.tigs.length := rfl
    unfold populateUnitig
    rw [if_neg h1, if_neg h2]
    simp only [htid]
    split
    · exact hseed
    · split
      · exact hseed
      · split
        · exact hseed
        · have h5 : ∃ u, (if (g.getBestEdgeOverlap fi false).readId ≠ 0 then
                populateUnitig_edge g fuel (seedTig g tv fi) tv.tigs.length
                  (g.getBestEdgeOverlap fi false)
              else Outcome.done (seedTig g tv fi)).tv.tigs = tv.tigs ++ [some u] ∧
              fi ∈ u.ufpath.map ufNode.ident := by
            split
            · exact populateUnitig_edge_last g tv.tigs fi fuel _ _ hseed
            · exact hseed
          generalize (if (g.getBestEdgeOverlap fi false).readId ≠ 0 then
                populateUnitig_edge g fuel (seedTig g tv fi) tv.tigs.length
                  (g.getBestEdgeOverlap fi false)
              else Outcome.done (seedTig g tv fi)) = r5 at h5 ⊢
          cases r5 with
          | done tv3 =>
              simp only []
              obtain ⟨u, hu, hfi⟩ := h5
              obtain ⟨u1, hids, hrc, _⟩ := reverseComplement_last tv3 tv.tigs u hu
              have hrev : ∃ u, (tv3.reverseComplement tv.tigs.length).tigs =
                  tv.tigs ++ [some u] ∧ fi ∈ u.ufpath.map ufNode.ident :=
                ⟨u1, hrc, by rw [hids]; exact List.mem_reverse.mpr hfi⟩
              split
              · exact populateUnitig_edge_last g tv.tigs fi fuel _ _ hrev
              · exact hrev
          | dovetailFailed tv3 => exact h5
          | placeFailed tv3 => exact h5
          | lengthFailed tv3 => exact h5
          | outOfFuel tv3 => exact h5

/-- Witness for claim C12: in the example graph read 5 has length 0 and is filtered;
read 1 is a seed and gets a new unitig. -/
theorem populateUnitig_seed_filter_witness :
    populateUnitig (seedGraph (-100) (-50)) 10 emptyTigs 5 = Outcome.done emptyTigs ∧
    ∃ u, (populateUnitig (seedGraph (-100) (-50)) 10 emptyTigs 1).tv.tigs =
        emptyTigs.tigs ++ [some u] ∧ 1 ∈ u.ufpath.map ufNode.ident :=
  ⟨(populateUnitig_seed_filter (seedGraph (-100) (-50)) 10 emptyTigs 5).1
      (Or.inl (by decide)),
    (populateUnitig_seed_filter (seedGraph (-100) (-50)) 10 emptyTigs 1).2
      (by
        intro h
        rcases h with h | h | h
        · exact absurd h (by decide)
        · exact h rfl
        · exact absurd h.1 (by decide))⟩

/-! ## Unitig construction: every read in at most one unitig -/

/-- The read ids of a vector whose last slot holds a unitig. -/
theorem allIdents_last (base : List (Option Unitig)) (u : Unitig) :
    allIdents (base ++ [some u]) = allIdents base ++ u.ufpath.map ufNode.ident := by
  simp [allIdents_append, allIdents, slotIdents]

/-- A read recorded as unplaced is in no path of a consistent vector. -/
theorem not_mem_of_unplaced (tv : TigVector) (h : tv.Consistent) (k : Nat)
    (hk : tv.inUnitig k = 0) : k ∉ allIdents tv.tigs :=
  fun hmem => h.2.2 k hmem hk

/-- Adding a read that is in no path to the unitig in the last slot keeps the
membership invariant. -/
theorem consistent_addRead (tv : TigVector) (base : List (Option Unitig)) (u : Unitig)
    (node : ufNode) (hu : tv.tigs = base ++ [some u]) (hbase : 0 < base.length)
    (hc : tv.Consistent) (hnew : node.ident ∉ allIdents tv.tigs) :
    (tv.addRead base.length node 0).Consistent := by
  obtain ⟨placed, hid, hadd⟩ := addRead_last tv base u node hu
  obtain ⟨_, hnd, hin⟩ := hc
  rw [hu, allIdents_last] at hnd hin hnew
  have hall : allIdents (tv.addRead base.length node 0).tigs =
      (allIdents base ++ u.ufpath.map ufNode.ident) ++ [node.ident] := by
    rw [hadd, allIdents_last]
    simp [hid]
  refine ⟨?_, ?_, ?_⟩
  · rw [hadd]
    simp
  · rw [hall]
    rw [List.nodup_append]
    refine ⟨hnd, List.nodup_singleton _, ?_⟩
    intro a ha hb
    rw [List.mem_singleton] at hb
    exact hnew (hb ▸ ha)
  · intro k hk
    rw [hall] at hk
    show (if k = node.ident then base.length else tv.inUnitig k) ≠ 0
    by_cases hkn : k = node.ident
    · rw [if_pos hkn]
      exact Nat.pos_iff_ne_zero.mp hbase
    · rw [if_neg hkn]
      rcases List.mem_append.mp hk with h | h
      · exact hin k h
      · exact absurd (List.mem_singleton.mp h) hkn

/-- Reverse-complementing the unitig in the last slot keeps the membership
invariant. -/
theorem consistent_reverseComplement (tv : TigVector) (base : List (Option Unitig))
    (u : Unitig) (hu : tv.tigs = base ++ [some u]) (hc : tv.Consistent) :
    (tv.reverseComplement base.length).Consistent := by
  obtain ⟨u1, hids, hrc, hidx⟩ := reverseComplement_last tv base u hu
  obtain ⟨_, hnd, hin⟩ := hc
  rw [hu, allIdents_last] at hnd hin
  have hall : allIdents (tv.reverseComplement base.length).tigs =
      allIdents base ++ (u.ufpath.map ufNode.ident).reverse := by
    rw [hrc, allIdents_last, hids]
  have hperm : (allIdents base ++ (u.ufpath.map ufNode.ident).reverse).Perm
      (allIdents base ++ u.ufpath.map ufNode.ident) :=
    List.Perm.append_left _ (List.reverse_perm _)
  refine ⟨?_, ?_, ?_⟩
  · rw [hrc]
    simp
  · rw [hall]
    exact hperm.nodup_iff.mpr hnd
  · intro k hk
    rw [hall] at hk
    rw [hidx]
    exact hin k (hperm.mem_iff.mp hk)

/-- The walk loop keeps the membership invariant: every read it appends was recorded
as unplaced when it was added. -/
theorem populateUnitig_loop_consistent (g : Graph) (hg : g.PlacesAsked)
    (base : List (Option Unitig)) (hbase : 0 < base.length) :
    ∀ (fuel : Nat) (tv : TigVector) (read : ufNode) (lastID : Nat) (last3p : Bool)
      (bestnext : BestEdgeOverlap),
      (∃ u, tv.tigs = base ++ [some u]) → tv.Consistent →
      (∃ u, (populateUnitig_loop g base.length fuel tv read lastID last3p bestnext).tv.tigs =
          base ++ [some u]) ∧
      (populateUnitig_loop g base.length fuel tv read lastID last3p bestnext).tv.Consistent
  | 0, tv, read, lastID, last3p, bestnext, h, hc => by
      unfold populateUnitig_loop
      split <;> exact ⟨h, hc⟩
  | fuel + 1, tv, read, lastID, last3p, bestnext, h, hc => by
      unfold populateUnitig_loop
      split
      · rename_i hcond
        simp only []
        split
        · exact ⟨h, hc⟩
        · rename_i read1 hplace
          obtain ⟨u, hu⟩ := h
          have hid : read1.ident = bestnext.readId := hg _ _ _ _ _ _ _ hplace
          have hnew : read1.ident ∉ allIdents tv.tigs := by
            rw [hid]
            exact not_mem_of_unplaced tv hc _ hcond.2
          obtain ⟨placed, _, hadd⟩ := addRead_last tv base u read1 hu
          exact populateUnitig_loop_consistent g hg base hbase fuel _ _ _ _ _ ⟨_, hadd⟩
            (consistent_addRead tv base u read1 hu hbase hc hnew)
      · exact ⟨h, hc⟩

/-- The walk from one edge keeps the membership invariant. -/
theorem populateUnitig_edge_consistent (g : Graph) (hg : g.PlacesAsked)
    (base : List (Option Unitig)) (hbase : 0 < base.length) (fuel : Nat) (tv : TigVector)
    (bestnext : BestEdgeOverlap) (h : ∃ u, tv.tigs = base ++ [some u]) (hc : tv.Consistent) :
    (∃ u, (populateUnitig_edge g fuel tv base.length bestnext).tv.tigs = base ++ [some u]) ∧
    (populateUnitig_edge g fuel tv base.length bestnext).tv.Consistent := by
  unfold populateUnitig_edge
  split
  · exact ⟨h, hc⟩
  · split
    · exact ⟨h, hc⟩
    · split
      · exact ⟨h, hc⟩
      · exact populateUnitig_loop_consistent g hg base hbase fuel tv _ _ _ _ h hc

/-- A seed that the filter rejects leaves the vector as it was. -/
theorem populateUnitig_filtered (g : Graph) (fuel : Nat) (tv : TigVector) (fi : Nat)
    (h : seedFiltered g tv fi) : populateUnitig g fuel tv fi = Outcome.done tv := by
  unfold populateUnitig
  rcases h with h | h | h
  · rw [if_pos (Or.inl h)]
  · rw [if_pos (Or.inr h)]
  · by_cases h1 : g.readLength fi = 0 ∨ tv.inUnitig fi ≠ 0
    · rw [if_pos h1]
    · rw [if_neg h1, if_pos h]

/-- Claim C13: `populateUnitig` preserves the invariant that every read belongs to at
most one unitig and occurs at most once in a path.  Starting from a vector that
satisfies it, and with a `placeRead` that returns the read it was asked to place, the
vector the call leaves satisfies it again, however the call ends; the reads of the new
unitig, the seed and every read appended by either walk, are pairwise distinct and
none of them was in a path of the vector before the call. -/
theorem populateUnitig_keeps_membership (g : Graph) (fuel : Nat) (tv : TigVector) (fi : Nat)
    (hg : g.PlacesAsked) (hc : tv.Consistent) :
    (populateUnitig g fuel tv fi).tv.Consistent ∧
    (¬ seedFiltered g tv fi →
      ∃ u, (populateUnitig g fuel tv fi).tv.tigs = tv.tigs ++ [some u] ∧
        (u.ufpath.map ufNode.ident).Nodup ∧
        ∀ k ∈ u.ufpath.map ufNode.ident, k ∉ allIdents tv.tigs) := by
  have hmain : ¬ seedFiltered g tv fi →
      (∃ u, (populateUnitig g fuel tv fi).tv.tigs = tv.tigs ++ [some u]) ∧
      (populateUnitig g fuel tv fi).tv.Consistent := by
    intro h
    have h1 : ¬ (g.readLength fi = 0 ∨ tv.inUnitig fi ≠ 0) := by
      rintro (h1 | h1)
      · exact h (Or.inl h1)
      · exact h (Or.inr (Or.inl h1))
    have h2 : ¬ (g.isContained fi = true ∧ g.isZombie fi = false) :=
      fun h2 => h (Or.inr (Or.inr h2))
    have hun : tv.inUnitig fi = 0 := by
      by_contra hne
      exact h1 (Or.inr hne)
    have hbase : 0 < tv.tigs.length := hc.1
    -- the vector with the new, still empty, unitig
    have hnewc : (tv.newUnitig).1.Consistent := by
      obtain ⟨_, hnd, hin⟩ := hc
      refine ⟨?_, ?_, ?_⟩
      · simp [TigVector.newUnitig]
      · simp only [TigVector.newUnitig, allIdents_last, List.map_nil, List.append_nil]
        exact hnd
      · intro k hk
        simp only [TigVector.newUnitig, allIdents_last, List.map_nil, List.append_nil] at hk
        exact hin k hk
    have hnewt : (tv.newUnitig).1.tigs =
        tv.tigs ++ [some { id := tv.tigs.length, ufpath := [] }] := rfl
    have hseedc : (seedTig g tv fi).Consistent := by
      refine consistent_addRead (tv.newUnitig).1 tv.tigs _ (seedNode g fi) hnewt hbase hnewc ?_
      exact not_mem_of_unplaced _ hnewc fi hun
    have hseedt : ∃ u, (seedTig g tv fi).tigs = tv.tigs ++ [some u] :=
      ⟨_, seedTig_tigs g tv fi⟩
    have htid : (tv.newUnitig).2 = tv.tigs.length := rfl
    unfold populateUnitig
    rw [if_neg h1, if_neg h2]
    simp only [htid]
    split
    · exact ⟨hseedt, hseedc⟩
    · split
      · exact ⟨hseedt, hseedc⟩
      · split
        · exact ⟨hseedt, hseedc⟩
        · have h5 : (∃ u, (if (g.getBestEdgeOverlap fi false).readId ≠ 0 then
                populateUnitig_edge g fuel (seedTig g tv fi) tv.tigs.length
                  (g.getBestEdgeOverlap fi false)
              else Outcome.done (seedTig g tv fi)).tv.tigs = tv.tigs ++ [some u]) ∧
              (if (g.getBestEdgeOverlap fi false).readId ≠ 0 then
                populateUnitig_edge g fuel (seedTig g tv fi) tv.tigs.length
                  (g.getBestEdgeOverlap fi false)
              else Outcome.done (seedTig g tv fi)).tv.Consistent := by
            split
            · exact populateUnitig_edge_consistent g hg tv.tigs hbase fuel _ _ hseedt hseedc
            · exact ⟨hseedt, hseedc⟩
          generalize (if (g.getBestEdgeOverlap fi false).readId ≠ 0 then
                populateUnitig_edge g fuel (seedTig g tv fi) tv.tigs.length
                  (g.getBestEdgeOverlap fi false)
              else Outcome.done (seedTig g tv fi)) = r5 at h5 ⊢
          cases r5 with
          | done tv3 =>
              simp only []
              obtain ⟨⟨u, hu⟩, hc3⟩ := h5
              obtain ⟨u1, _, hrc, _⟩ := reverseComplement_last tv3 tv.tigs u hu
              have hrevc := consistent_reverseComplement tv3 tv.tigs u hu hc3
              split
              · exact populateUnitig_edge_consistent g hg tv.tigs hbase fuel _ _
                  ⟨u1, hrc⟩ hrevc
              · exact ⟨⟨u1, hrc⟩, hrevc⟩
          | dovetailFailed tv3 => exact h5
          | placeFailed tv3 => exact h5
          | lengthFailed tv3 => exact h5
          | outOfFuel tv3 => exact h5
  constructor
  · by_cases hf : seedFiltered g tv fi
    · rw [populateUnitig_filtered g fuel tv fi hf]
      exact hc
    · exact (hmain hf).2
  · intro hf
    obtain ⟨⟨u, hu⟩, hcr⟩ := hmain hf
    refine ⟨u, hu, ?_, ?_⟩
    · have hnd := hcr.2.1
      rw [hu, allIdents_last] at hnd
      exact (List.nodup_append.mp hnd).2.1
    · intro k hk hold
      have hnd := hcr.2.1
      rw [hu, allIdents_last] at hnd
      exact (List.nodup_append.mp hnd).2.2 hold hk

/-- Witness for claim C13: the example graph with legal hangs, from the vector that
holds no unitig yet; the walk places read 2 after the seed 1. -/
theorem populateUnitig_keeps_membership_witness :
    (seedGraph (-100) (-50)).PlacesAsked ∧ emptyTigs.Consistent ∧
    (populateUnitig (seedGraph (-100) (-50)) 10 emptyTigs 1).tv.Consistent ∧
    allIdents (populateUnitig (seedGraph (-100) (-50)) 10 emptyTigs 1).tv.tigs = [2, 1] := by
  have hg : (seedGraph (-100) (-50)).PlacesAsked := by
    intro tv u r id r3p e n h
    simp only [seedGraph] at h
    injection h with h
    rw [← h]
  have hc : emptyTigs.Consistent :=
    ⟨by decide, by decide, fun k hk => absurd hk (List.not_mem_nil _)⟩
  exact ⟨hg, hc,
    (populateUnitig_keeps_membership (seedGraph (-100) (-50)) 10 emptyTigs 1 hg hc).1,
    by decide⟩

/-! ## The first initialisation pass -/

/-- With no overlap of a read with itself, the overlaps that qualify in the first pass
are those whose partner lies earlier in the path. -/
theorem initPlace_quals_earlier (env : Env) (tv : TigVector) (u : Unitig) (ii iid : Nat)
    (hself : NoSelfOverlap tv u ii (env.getOverlaps iid)) :
    initPlace_quals env tv u ii true iid = (env.getOverlaps iid).filter (spec_earlier tv u ii) := by
  unfold initPlace_quals
  apply List.filter_congr
  intro o ho
  unfold initPlace_qualifies spec_earlier
  by_cases huu : tv.inUnitig o.b_iid = u.id
  · have hne := hself o ho huu
    cases h1 : u.ufpath[ii]? with
    | none => simp
    | some ni =>
        cases h2 : u.ufpath[tv.ufpathIdx o.b_iid]? with
        | none => simp
        | some nj =>
            by_cases hlt : tv.ufpathIdx o.b_iid < ii
            · have hngt : ¬ tv.ufpathIdx o.b_iid > ii := by omega
              simp [huu, hlt, hngt]
            · have hgt : tv.ufpathIdx o.b_iid > ii := by omega
              simp [huu, hlt, hgt]
  · simp [huu]

/-- Claim C18: the first initialisation pass.  For the read at path index 0,
`optimize_initPlace` sets `op = [0, readLength]` and leaves the failed set alone.  For
a read at path index `ii > 0`, with its overlaps indexed consistently: if at least one
overlap qualifies, it sets `op.min` to the sum of the candidates
`partner op.min - aHang` (forward read) or `partner op.min + bHang` (reverse read) over
the qualifying overlaps divided by their number, `op.max = op.min + readLength` and
`np.min = np.max = 0`, and leaves the failed set and every other record alone; if none
qualifies, it adds the read to the failed set and changes neither `op` nor `np`.  The
qualifying overlaps are those whose partner is in the same unitig, is not after the
read in the path and has an intersecting placed interval; with no overlap of the read
with itself these are the overlaps whose partner lies earlier in the path. -/
theorem optimize_initPlace_first_pass (env : Env) (tv : TigVector) (u : Unitig)
    (ii : Nat) (n : ufNode) (st : InitState) (hn : u.ufpath[ii]? = some n) :
    (ii = 0 →
      ∃ st1, u.optimize_initPlace env tv ii true st = .ok st1 ∧
        (st1.op n.ident).min = Dbl.fin 0 ∧
        (st1.op n.ident).max = Dbl.ofInt (env.readLength n.ident) ∧
        st1.failed = st.failed) ∧
    (ii > 0 → IndexedIn tv u ii (env.getOverlaps n.ident) →
      initPlace_quals env tv u ii true n.ident ≠ [] →
      ∃ st1, u.optimize_initPlace env tv ii true st = .ok st1 ∧
        (st1.op n.ident).min =
          dsum (Dbl.fin 0) ((initPlace_quals env tv u ii true n.ident).map (candMin st.op n.ident)) /
            Dbl.ofInt ((initPlace_quals env tv u ii true n.ident).length : Nat) ∧
        (st1.op n.ident).max = (st1.op n.ident).min + Dbl.ofInt (env.readLength n.ident) ∧
        (st1.np n.ident).min = Dbl.fin 0 ∧ (st1.np n.ident).max = Dbl.fin 0 ∧
        st1.failed = st.failed ∧
        ∀ k, k ≠ n.ident → st1.op k = st.op k ∧ st1.np k = st.np k) ∧
    (ii > 0 → IndexedIn tv u ii (env.getOverlaps n.ident) →
      initPlace_quals env tv u ii true n.ident = [] →
      u.optimize_initPlace env tv ii true st = .ok { st with failed := n.ident :: st.failed }) ∧
    (NoSelfOverlap tv u ii (env.getOverlaps n.ident) →
      initPlace_quals env tv u ii true n.ident =
        (env.getOverlaps n.ident).filter (spec_earlier tv u ii)) ∧
    (∀ o, candMin st.op n.ident o =
      (if (st.op n.ident).fwd then (st.op o.b_iid).min - Dbl.ofInt o.a_hang
       else (st.op o.b_iid).min + Dbl.ofInt o.b_hang)) := by
  refine ⟨?_, ?_, ?_, fun h => initPlace_quals_earlier env tv u ii n.ident h, fun o => rfl⟩
  · intro h0
    subst h0
    unfold Unitig.optimize_initPlace
    simp only [hn, Bool.true_eq_false, false_and, if_false, gt_iff_lt, lt_irrefl]
    refine ⟨_, rfl, ?_, ?_, rfl⟩
    · simp only [initPlace_store, if_true]
      rw [setMax_min, setMin_min]
    · simp only [initPlace_store, if_true]
      rw [setMax_max, setMin_min]
      simp [Dbl.ofInt]
  · intro hii hidx hq
    have hlen : (initPlace_quals env tv u ii true n.ident).length ≠ 0 := by
      intro h
      exact hq (List.length_eq_zero.mp h)
    unfold Unitig.optimize_initPlace
    simp only [hn, Bool.true_eq_false, false_and, if_false, if_pos hii]
    rw [initPlace_scan_eq tv u ii true st.op n.ident _ _ hidx]
    simp only [Nat.zero_add]
    have hlen' : (List.filter (initPlace_qualifies tv u ii true)
        (env.getOverlaps n.ident)).length ≠ 0 := hlen
    rw [if_neg (fun h => hlen' h.2), if_neg hlen']
    refine ⟨_, rfl, ?_, ?_, ?_, ?_, rfl, ?_⟩
    · simp only [initPlace_store, if_neg hlen']
      rw [setMax_min, setMin_min]
      rfl
    · simp only [initPlace_store]
      rw [setMax_max, setMax_min]
    · simp only [initPlace_store]
      rw [setMax_min, setMin_min]
    · simp only [initPlace_store]
      rw [setMax_max]
    · intro k hk
      simp only [initPlace_store]
      exact ⟨by rw [setMax_other _ _ _ _ hk, setMin_other _ _ _ _ hk],
        by rw [setMax_other _ _ _ _ hk, setMin_other _ _ _ _ hk]⟩
  · intro hii hidx hq
    unfold Unitig.optimize_initPlace
    simp only [hn, Bool.true_eq_false, false_and, if_false, if_pos hii]
    rw [initPlace_scan_eq tv u ii true st.op n.ident _ _ hidx]
    have hq' : List.filter (initPlace_qualifies tv u ii true) (env.getOverlaps n.ident) = [] := hq
    rw [hq']
    simp

/-- Witness for claim C18: read 2 of the two coincident reads, at path index 1, whose
one overlap qualifies; it is set to the mean `0` of its one candidate and to length
500, and is not marked failed. -/
theorem optimize_initPlace_first_pass_witness :
    IndexedIn coincidentTigs coincidentTig 1 ((coincidentEnv 0).getOverlaps 2) ∧
    initPlace_quals (coincidentEnv 0) coincidentTigs coincidentTig 1 true 2 ≠ [] ∧
    (stateOf coincidentInit (coincidentTig.optimize_initPlace (coincidentEnv 0) coincidentTigs
      1 true coincidentInit)).failed = [] ∧
    ((stateOf coincidentInit (coincidentTig.optimize_initPlace (coincidentEnv 0) coincidentTigs
      1 true coincidentInit)).op 2).max = Dbl.fin 500 := by
  have hidx : IndexedIn coincidentTigs coincidentTig 1 ((coincidentEnv 0).getOverlaps 2) :=
    ⟨⟨plainNode 2 10 510, rfl⟩, by
      intro o ho _
      have : o = ⟨1, 0, 0⟩ := by simpa [coincidentEnv] using ho
      subst this
      exact ⟨plainNode 1 0 500, rfl⟩⟩
  have hq : initPlace_quals (coincidentEnv 0) coincidentTigs coincidentTig 1 true 2 ≠ [] := by
    decide
  refine ⟨hidx, hq, ?_, by with_unfolding_all rfl⟩
  obtain ⟨st1, h1, _, _, _, _, hf, _⟩ :=
    (optimize_initPlace_first_pass (coincidentEnv 0) coincidentTigs coincidentTig 1
      (plainNode 2 10 510) coincidentInit rfl).2.1 (by decide) hidx hq
  rw [h1]
  exact hf


/-! ## Running the pass twice -/

/-- On the drifting example the first run completes and commits `[0,10)`, `[3,13)`,
`[9,19)`. -/
theorem drift_first_run :
    driftTigs.optimizePositions driftEnv id =
      .ok [none, some ⟨1, [plainNode 1 0 10, plainNode 2 3 13, plainNode 3 9 19]⟩] := by
  with_unfolding_all rfl

/-- On the layout the first run left, a run commits `[0,10)`, `[2,12)`, `[8,18)`. -/
theorem drift_second_run :
    (driftTigs.withTigs
        [none, some ⟨1, [plainNode 1 0 10, plainNode 2 3 13, plainNode 3 9 19]⟩]).optimizePositions
        driftEnv id =
      .ok [none, some ⟨1, [plainNode 1 0 10, plainNode 2 2 12, plainNode 3 8 18]⟩] := by
  with_unfolding_all rfl

/-- Claim C16 as stated fails: on three reads of length 10 laid out at `[0,10)`,
`[3,13)`, `[12,22)`, with overlaps of hangs 3 (reads 1,2), 6 (reads 2,3) and 8 (reads
1,3), the first run completes and commits `[0,10)`, `[3,13)`, `[9,19)`; the third read
now intersects the first, so in a second run their overlap takes part, and the second
run commits `[0,10)`, `[2,12)`, `[8,18)`: two intervals move.  The indices of the
example agree with its path and every read after the first has a qualifying overlap;
what the first run changed is the set of intersecting pairs. -/
theorem optimizePositions_not_idempotent :
    driftTigs.optimizePositions driftEnv id =
      .ok [none, some ⟨1, [plainNode 1 0 10, plainNode 2 3 13, plainNode 3 9 19]⟩] ∧
    driftTigs.optimizeTwice driftEnv id =
      .ok [none, some ⟨1, [plainNode 1 0 10, plainNode 2 2 12, plainNode 3 8 18]⟩] ∧
    overlapsIndexed driftEnv driftTigs = true ∧ allSeeded driftEnv driftTigs = true ∧
    placedIndexed driftEnv driftTigs = true ∧
    sameSlots driftTigs.tigs
      [none, some ⟨1, [plainNode 1 0 10, plainNode 2 3 13, plainNode 3 9 19]⟩] = false := by
  refine ⟨drift_first_run, ?_, by decide, by decide, by decide, by decide⟩
  unfold TigVector.optimizeTwice
  rw [drift_first_run]
  exact drift_second_run

/-! ## Layouts that agree but for the coordinates: what the predicates give -/

/-- A lookup that succeeds is in range. -/
theorem lookup_lt {α : Type} (l : List α) (i : Nat) (a : α) (h : l[i]? = some a) :
    i < l.length := by
  by_contra hc
  rw [List.getElem?_eq_none (Nat.le_of_not_lt hc)] at h
  cases h

/-- A lookup in range succeeds. -/
theorem lookup_some {α : Type} (l : List α) (i : Nat) (h : i < l.length) :
    ∃ a, l[i]? = some a := ⟨l[i], List.getElem?_eq_getElem h⟩

/-- Same read: the entries differ at most in the interval, and agree in orientation. -/
theorem sameRead_spec (n m : ufNode) (h : sameRead n m = true) :
    { m with position := n.position } = n ∧ m.ident = n.ident ∧
      m.position.isForward = n.position.isForward := by
  unfold sameRead at h
  simp only [Bool.and_eq_true, decide_eq_true_eq, beq_iff_eq] at h
  refine ⟨h.1, ?_, h.2⟩
  have := congrArg ufNode.ident h.1
  exact this

/-- Agreeing paths have one length and agree entry by entry. -/
theorem pathAgree_spec (p q : List ufNode) (h : pathAgree p q = true) :
    q.length = p.length ∧
      ∀ (i : Nat) (n m : ufNode), p[i]? = some n → q[i]? = some m → sameRead n m = true := by
  unfold pathAgree at h
  simp only [Bool.and_eq_true, decide_eq_true_eq, List.all_eq_true, List.mem_range] at h
  refine ⟨h.1, ?_⟩
  intro i n m hn hm
  have := h.2 i (lookup_lt p i n hn)
  rw [hn, hm] at this
  exact this

/-- Agreeing patterns: the same pairs of entries intersect. -/
theorem patternAgree_spec (p q : List ufNode) (h : patternAgree p q = true)
    (i j : Nat) (ni nj mi mj : ufNode)
    (hni : p[i]? = some ni) (hnj : p[j]? = some nj)
    (hmi : q[i]? = some mi) (hmj : q[j]? = some mj) :
    isOverlapping mi.position mj.position = isOverlapping ni.position nj.position := by
  unfold patternAgree at h
  simp only [List.all_eq_true, List.mem_range] at h
  have := h i (lookup_lt p i ni hni) j (lookup_lt p j nj hnj)
  rw [hni, hnj, hmi, hmj] at this
  simpa using this

/-- The parts of a layout agreement. -/
theorem sameLayout_spec (u v : Unitig) (h : sameLayout u v = true) :
    v.id = u.id ∧ pathAgree u.ufpath v.ufpath = true ∧ patternAgree u.ufpath v.ufpath = true := by
  unfold sameLayout at h
  simp only [Bool.and_eq_true, decide_eq_true_eq] at h
  exact ⟨h.1.1, h.1.2, h.2⟩

/-- Under a layout agreement a path entry of one unitig has its counterpart in the
other, at the same index. -/
theorem sameLayout_lookup (u v : Unitig) (h : sameLayout u v = true) (i : Nat) (n : ufNode)
    (hn : u.ufpath[i]? = some n) :
    ∃ m, v.ufpath[i]? = some m ∧ sameRead n m = true := by
  obtain ⟨_, hp, _⟩ := sameLayout_spec u v h
  obtain ⟨hlen, hrd⟩ := pathAgree_spec _ _ hp
  obtain ⟨m, hm⟩ := lookup_some v.ufpath i (by rw [hlen]; exact lookup_lt _ _ _ hn)
  exact ⟨m, hm, hrd i n m hn hm⟩

/-- Under a layout agreement an index out of range of one path is out of range of the
other. -/
theorem sameLayout_lookup_none (u v : Unitig) (h : sameLayout u v = true) (i : Nat)
    (hn : u.ufpath[i]? = none) : v.ufpath[i]? = none := by
  obtain ⟨_, hp, _⟩ := sameLayout_spec u v h
  obtain ⟨hlen, _⟩ := pathAgree_spec _ _ hp
  rw [List.getElem?_eq_none_iff] at hn ⊢
  rw [hlen]
  exact hn

/-- Entry-wise agreeing paths list the same read ids. -/
theorem idents_of_agree : ∀ (p q : List ufNode), q.length = p.length →
    (∀ (i : Nat) (n m : ufNode), p[i]? = some n → q[i]? = some m → sameRead n m = true) →
    q.map ufNode.ident = p.map ufNode.ident
  | [], [], _, _ => rfl
  | [], _ :: _, hl, _ => by simp at hl
  | _ :: _, [], hl, _ => by simp at hl
  | n :: p, m :: q, hl, h => by
      have h0 := (sameRead_spec n m (h 0 n m (by simp) (by simp))).2.1
      have ht := idents_of_agree p q (by simpa using hl)
        (fun i a b ha hb => h (i + 1) a b (by simpa using ha) (by simpa using hb))
      simp only [List.map_cons, h0, ht]

/-- Under a layout agreement the two paths list the same read ids. -/
theorem sameLayout_idents (u v : Unitig) (h : sameLayout u v = true) :
    v.ufpath.map ufNode.ident = u.ufpath.map ufNode.ident := by
  obtain ⟨_, hp, _⟩ := sameLayout_spec u v h
  obtain ⟨hlen, hrd⟩ := pathAgree_spec _ _ hp
  exact idents_of_agree _ _ hlen hrd

/-- Slot-wise agreement, read at one slot. -/
theorem sameSlots_lookup : ∀ (l l1 : List (Option Unitig)), sameSlots l l1 = true →
    ∀ (i : Nat), (l[i]? = none → l1[i]? = none) ∧ (l[i]? = some none → l1[i]? = some none) ∧
      ∀ u, l[i]? = some (some u) → ∃ v, l1[i]? = some (some v) ∧ sameLayout u v = true
  | [], [], _, i => by simp
  | [], _ :: _, h, _ => by simp [sameSlots] at h
  | _ :: _, [], h, _ => by simp [sameSlots] at h
  | none :: l, none :: l1, h, i => by
      have ih := sameSlots_lookup l l1 (by simpa [sameSlots] using h)
      cases i with
      | zero => simp
      | succ i => simpa using ih i
  | none :: _, some _ :: _, h, _ => by simp [sameSlots] at h
  | some _ :: _, none :: _, h, _ => by simp [sameSlots] at h
  | some u :: l, some v :: l1, h, i => by
      simp only [sameSlots, Bool.and_eq_true] at h
      have ih := sameSlots_lookup l l1 h.2
      cases i with
      | zero => simpa using h.1
      | succ i => simpa using ih i

/-! ## The passes read a layout only through its reads, orientations and intersections -/

/-- A dereference that succeeds succeeds on an agreeing vector, at an agreeing
unitig. -/
theorem deref_same (tv tv1 : TigVector) (hs : sameSlots tv.tigs tv1.tigs = true)
    (ti : Nat) (u : Unitig) (h : tv.deref ti = .ok u) :
    ∃ v, tv1.deref ti = .ok v ∧ sameLayout u v = true := by
  unfold TigVector.deref at h ⊢
  have hl := sameSlots_lookup _ _ hs ti
  cases hti : tv.tigs[ti]? with
  | none => rw [hti] at h; cases h
  | some t =>
      cases t with
      | none => rw [hti] at h; cases h
      | some u0 =>
          rw [hti] at h
          injection h with h
          subst h
          obtain ⟨v, hv, hsl⟩ := hl.2.2 u0 hti
          exact ⟨v, by rw [hv], hsl⟩

/-- A dereference that faults faults on an agreeing vector. -/
theorem deref_same_error (tv tv1 : TigVector) (hs : sameSlots tv.tigs tv1.tigs = true)
    (ti : Nat) (e : Fault) (h : tv.deref ti = .error e) : tv1.deref ti = .error e := by
  unfold TigVector.deref at h ⊢
  have hl := sameSlots_lookup _ _ hs ti
  cases hti : tv.tigs[ti]? with
  | none => rw [hti] at h; rw [hl.1 hti]; exact h
  | some t =>
      cases t with
      | none => rw [hti] at h; rw [hl.2.1 hti]; exact h
      | some u0 => rw [hti] at h; cases h

/-- The overlap loop of the recomputation gives the same sums on an agreeing layout. -/
theorem recompute_scan_same (tv tv1 : TigVector) (u v : Unitig)
    (hin : tv1.inUnitig = tv.inUnitig) (hix : tv1.ufpathIdx = tv.ufpathIdx)
    (hs : sameLayout u v = true) (op : Nat → optPos) (iid : Nat) :
    ∀ (ovl : List BAToverlap) (acc : Dbl × Dbl × Nat),
      recompute_scan tv1 v op iid ovl acc = recompute_scan tv u op iid ovl acc
  | [], acc => by simp only [recompute_scan]
  | o :: rest, acc => by
      have ih := recompute_scan_same tv tv1 u v hin hix hs op iid rest
      obtain ⟨hid, _, hpat⟩ := sameLayout_spec u v hs
      unfold recompute_scan
      simp only [hin, hix, hid]
      by_cases huu : tv.inUnitig o.b_iid ≠ u.id
      · rw [if_pos huu, if_pos huu]
        exact ih acc
      · rw [if_neg huu, if_neg huu]
        cases hni : u.ufpath[tv.ufpathIdx iid]? with
        | none => rw [sameLayout_lookup_none u v hs _ hni]
        | some ni =>
            obtain ⟨mi, hmi, _⟩ := sameLayout_lookup u v hs _ ni hni
            cases hnj : u.ufpath[tv.ufpathIdx o.b_iid]? with
            | none => rw [hmi, sameLayout_lookup_none u v hs _ hnj]
            | some nj =>
                obtain ⟨mj, hmj, _⟩ := sameLayout_lookup u v hs _ nj hnj
                rw [hmi, hmj]
                simp only [patternAgree_spec _ _ hpat _ _ ni nj mi mj hni hnj hmi hmj, ih]

/-- One iteration of the recompute loop gives the same array on an agreeing vector. -/
theorem recompute_step_same (env : Env) (tv tv1 : TigVector)
    (hin : tv1.inUnitig = tv.inUnitig) (hix : tv1.ufpathIdx = tv.ufpathIdx)
    (hs : sameSlots tv.tigs tv1.tigs = true) (op np : Nat → optPos) (fi : Nat) :
    recompute_step env tv1 op np fi = recompute_step env tv op np fi := by
  unfold recompute_step
  rw [hin]
  by_cases h0 : tv.inUnitig fi = 0
  · rw [if_pos h0, if_pos h0]
  · rw [if_neg h0, if_neg h0]
    cases hd : tv.deref (tv.inUnitig fi) with
    | error e => rw [deref_same_error tv tv1 hs _ e hd]
    | ok u =>
        obtain ⟨v, hv, hsl⟩ := deref_same tv tv1 hs _ u hd
        rw [hv]
        simp only [Unitig.optimize_recompute, recompute_scan_same tv tv1 u v hin hix hsl]

/-- A loop over a path that reads only the read ids is a loop over the ids. -/
theorem foldl_idents {α : Type} (f : α → Nat → α) (p : List ufNode) (a : α) :
    p.foldl (fun x n => f x n.ident) a = (p.map ufNode.ident).foldl f a := by
  rw [List.foldl_map]

/-- Two paths with the same read ids give the same result in a loop that reads only
the ids. -/
theorem foldl_idents_congr {α : Type} (f : α → Nat → α) (p q : List ufNode)
    (h : q.map ufNode.ident = p.map ufNode.ident) (a : α) :
    q.foldl (fun x n => f x n.ident) a = p.foldl (fun x n => f x n.ident) a := by
  rw [foldl_idents, foldl_idents, h]

/-- The reset-zero step gives the same array on an agreeing slot. -/
theorem resetZero_same (np : Nat → optPos) (u v : Unitig) (hs : sameLayout u v = true) :
    resetZero np (some v) = resetZero np (some u) := by
  have hids := sameLayout_idents u v hs
  cases u with
  | mk uid up =>
  cases v with
  | mk vid vq =>
  simp only [] at hids
  cases up with
  | nil =>
      have hv : vq = [] := by simpa using hids
      subst hv
      rfl
  | cons n p =>
      cases vq with
      | nil => simp at hids
      | cons m q =>
          have h0 : m.ident = n.ident := by
            simp only [List.map_cons, List.cons.injEq] at hids
            exact hids.1
          simp only [resetZero, h0]
          cases Dbl.toInt32 (np n.ident).min with
          | none => rfl
          | some z =>
              exact congrArg Except.ok
                (foldl_idents_congr
                  (fun a k =>
                    setMax (setMin a k ((a k).min - Dbl.ofInt z)) k
                      ((setMin a k ((a k).min - Dbl.ofInt z) k).max - Dbl.ofInt z))
                  (n :: p) (m :: q) hids np)

/-- The reset-zero loop gives the same array on agreeing slots. -/
theorem resetZero_fold_same : ∀ (l l1 : List (Option Unitig)), sameSlots l l1 = true →
    ∀ np, foldE resetZero l1 np = foldE resetZero l np
  | [], [], _, _ => rfl
  | [], _ :: _, h, _ => by simp [sameSlots] at h
  | _ :: _, [], h, _ => by simp [sameSlots] at h
  | none :: l, none :: l1, h, np => by
      have ih := resetZero_fold_same l l1 (by simpa [sameSlots] using h)
      simp only [foldE, resetZero, ih]
  | none :: _, some _ :: _, h, _ => by simp [sameSlots] at h
  | some _ :: _, none :: _, h, _ => by simp [sameSlots] at h
  | some u :: l, some v :: l1, h, np => by
      simp only [sameSlots, Bool.and_eq_true] at h
      have ih := resetZero_fold_same l l1 h.2
      unfold foldE
      rw [resetZero_same np u v h.1]
      cases resetZero np (some u) with
      | error e => rfl
      | ok a => exact ih a

/-- Every faulting loop is determined by its body. -/
theorem foldE_congr {α β : Type} (f g : α → β → Except Fault α) (h : ∀ a b, f a b = g a b) :
    ∀ (l : List β) (a : α), foldE f l a = foldE g l a
  | [], _ => rfl
  | b :: bs, a => by
      unfold foldE
      rw [h a b]
      cases g a b with
      | error e => rfl
      | ok a1 => exact foldE_congr f g h bs a1

/-- One refinement round gives the same result on an agreeing vector. -/
theorem refineRound_same (env : Env) (tv tv1 : TigVector)
    (hin : tv1.inUnitig = tv.inUnitig) (hix : tv1.ufpathIdx = tv.ufpathIdx)
    (hs : sameSlots tv.tigs tv1.tigs = true) (op np : Nat → optPos) :
    refineRound env tv1 op np = refineRound env tv op np := by
  unfold refineRound
  rw [foldE_congr _ _ (recompute_step_same env tv tv1 hin hix hs op)]
  cases foldE (recompute_step env tv op) (List.range (env.numReads + 1)) np with
  | error e => rfl
  | ok np1 => simp only [resetZero_fold_same _ _ hs]

/-- The refinement loop gives the same result on an agreeing vector. -/
theorem refineLoop_same (env : Env) (tv tv1 : TigVector)
    (hin : tv1.inUnitig = tv.inUnitig) (hix : tv1.ufpathIdx = tv.ufpathIdx)
    (hs : sameSlots tv.tigs tv1.tigs = true) :
    ∀ (left : Nat) (op np : Nat → optPos),
      refineLoop env tv1 left op np = refineLoop env tv left op np
  | 0, _, _ => rfl
  | left + 1, op, np => by
      unfold refineLoop
      rw [refineRound_same env tv tv1 hin hix hs]
      cases refineRound env tv op np with
      | error e => rfl
      | ok r => simp only [refineLoop_same env tv tv1 hin hix hs left]

/-- One step of the expansion reads the path only through its read ids. -/
theorem optimize_expand_step_same (env : Env) (p q : List ufNode)
    (h : q.map ufNode.ident = p.map ufNode.ident) (op : Nat → optPos) (iid : Nat) :
    optimize_expand_step env q op iid = optimize_expand_step env p op iid := by
  unfold optimize_expand_step
  simp only [foldl_idents_congr _ p q h]

/-- The expansion of a unitig gives the same array on an agreeing layout. -/
theorem optimize_expand_same (env : Env) (u v : Unitig) (hs : sameLayout u v = true)
    (op : Nat → optPos) : v.optimize_expand env op = u.optimize_expand env op := by
  have hids := sameLayout_idents u v hs
  unfold Unitig.optimize_expand
  have hfun : (fun (o : Nat → optPos) (n : ufNode) => optimize_expand_step env v.ufpath o n.ident) =
      (fun o n => optimize_expand_step env u.ufpath o n.ident) := by
    funext o n
    exact optimize_expand_step_same env _ _ hids o n.ident
  rw [hfun]
  exact foldl_idents_congr (fun o k => optimize_expand_step env u.ufpath o k) _ _ hids op

/-- The expansion pass gives the same array on agreeing slots. -/
theorem expand_fold_same (env : Env) : ∀ (l l1 : List (Option Unitig)),
    sameSlots l l1 = true → ∀ (op : Nat → optPos),
    l1.foldl (fun a t => match t with
      | none => a
      | some u => u.optimize_expand env a) op =
    l.foldl (fun a t => match t with
      | none => a
      | some u => u.optimize_expand env a) op
  | [], [], _, _ => rfl
  | [], _ :: _, h, _ => by simp [sameSlots] at h
  | _ :: _, [], h, _ => by simp [sameSlots] at h
  | none :: l, none :: l1, h, op => by
      have ih := expand_fold_same env l l1 (by simpa [sameSlots] using h)
      simp only [List.foldl_cons, ih]
  | none :: _, some _ :: _, h, _ => by simp [sameSlots] at h
  | some _ :: _, none :: _, h, _ => by simp [sameSlots] at h
  | some u :: l, some v :: l1, h, op => by
      simp only [sameSlots, Bool.and_eq_true] at h
      have ih := expand_fold_same env l l1 h.2
      simp only [List.foldl_cons, optimize_expand_same env u v h.1, ih]

/-- The commit of one entry gives the same entry on an agreeing read. -/
theorem setPosition_same (op : Nat → optPos) (n m : ufNode) (h : sameRead n m = true) :
    setPosition op m = setPosition op n := by
  obtain ⟨heq, _, _⟩ := sameRead_spec n m h
  cases n
  cases m
  simp only [ufNode.mk.injEq] at heq
  obtain ⟨h1, h2, h3, h4, h5, _⟩ := heq
  subst h1 h2 h3 h4 h5
  rfl

/-- The commit of a path gives the same path on entry-wise agreeing paths. -/
theorem setPositions_path_same (op : Nat → optPos) : ∀ (p q : List ufNode),
    q.length = p.length →
    (∀ (i : Nat) (n m : ufNode), p[i]? = some n → q[i]? = some m → sameRead n m = true) →
    setPositions_path op q = setPositions_path op p
  | [], [], _, _ => rfl
  | [], _ :: _, hl, _ => by simp at hl
  | _ :: _, [], hl, _ => by simp at hl
  | n :: p, m :: q, hl, h => by
      have h0 := setPosition_same op n m (h 0 n m (by simp) (by simp))
      have ht := setPositions_path_same op p q (by simpa using hl)
        (fun i a b ha hb => h (i + 1) a b (by simpa using ha) (by simpa using hb))
      simp only [setPositions_path, h0, ht]

/-- The commit loop gives the same unitigs on agreeing slots. -/
theorem commitAll_same (op : Nat → optPos) : ∀ (l l1 : List (Option Unitig)),
    sameSlots l l1 = true → commitAll op l1 = commitAll op l
  | [], [], _ => rfl
  | [], _ :: _, h => by simp [sameSlots] at h
  | _ :: _, [], h => by simp [sameSlots] at h
  | none :: l, none :: l1, h => by
      have ih := commitAll_same op l l1 (by simpa [sameSlots] using h)
      simp only [commitAll, ih]
  | none :: _, some _ :: _, h => by simp [sameSlots] at h
  | some _ :: _, none :: _, h => by simp [sameSlots] at h
  | some u :: l, some v :: l1, h => by
      simp only [sameSlots, Bool.and_eq_true] at h
      have ih := commitAll_same op l l1 h.2
      obtain ⟨hid, hp, _⟩ := sameLayout_spec u v h.1
      obtain ⟨hlen, hrd⟩ := pathAgree_spec _ _ hp
      have hpath := setPositions_path_same op u.ufpath v.ufpath hlen hrd
      have hu : v.optimize_setPositions op = u.optimize_setPositions op := by
        unfold Unitig.optimize_setPositions
        rw [hpath]
        cases setPositions_path op u.ufpath with
        | none => rfl
        | some p1 =>
            cases u
            cases v
            simp only [] at hid
            simp only [hid]
      simp only [commitAll, commitTig, hu, ih]

/-! ## The initialisation forgets the coordinates it starts from -/

/-- What `overlapsIndexed` gives for one path entry. -/
theorem overlapsIndexed_spec (env : Env) (tv : TigVector) (h : overlapsIndexed env tv = true)
    (u : Unitig) (hu : some u ∈ tv.tigs) (ii : Nat) (n : ufNode) (hn : u.ufpath[ii]? = some n)
    (o : BAToverlap) (ho : o ∈ env.getOverlaps n.ident) (huu : tv.inUnitig o.b_iid = u.id) :
    tv.ufpathIdx o.b_iid ≠ ii ∧
      ∃ nj, u.ufpath[tv.ufpathIdx o.b_iid]? = some nj ∧ nj.ident = o.b_iid := by
  unfold overlapsIndexed at h
  simp only [List.all_eq_true] at h
  have h1 := h (some u) hu
  simp only [List.all_eq_true, List.mem_range] at h1
  have h2 := h1 ii (lookup_lt _ _ _ hn)
  rw [hn] at h2
  simp only [List.all_eq_true] at h2
  have h3 := h2 o ho
  simp only [huu, bne_self_eq_false, Bool.false_or, Bool.and_eq_true, bne_iff_ne, ne_eq] at h3
  refine ⟨h3.1, ?_⟩
  cases hj : u.ufpath[tv.ufpathIdx o.b_iid]? with
  | none => rw [hj] at h3; simp at h3
  | some nj =>
      rw [hj] at h3
      exact ⟨nj, rfl, by simpa using h3.2⟩

/-- What `allSeeded` gives for one path entry. -/
theorem allSeeded_spec (env : Env) (tv : TigVector) (h : allSeeded env tv = true)
    (u : Unitig) (hu : some u ∈ tv.tigs) (ii : Nat) (n : ufNode) (hn : u.ufpath[ii]? = some n)
    (hii : 0 < ii) : initPlace_quals env tv u ii true n.ident ≠ [] := by
  unfold allSeeded at h
  simp only [List.all_eq_true] at h
  have h1 := h (some u) hu
  simp only [List.all_eq_true, List.mem_range] at h1
  have h2 := h1 ii (lookup_lt _ _ _ hn)
  rw [hn] at h2
  have hne : (ii == 0) = false := by simpa using Nat.pos_iff_ne_zero.mp hii
  simp only [hne, Bool.false_or, Bool.not_eq_true', List.isEmpty_eq_false] at h2
  intro hc
  rw [hc] at h2
  simp at h2

/-- What `placedIndexed` gives for one read id. -/
theorem placedIndexed_spec (env : Env) (tv : TigVector) (h : placedIndexed env tv = true)
    (k : Nat) (hk : k ≤ env.numReads) (hp : tv.inUnitig k ≠ 0) : k ∈ allIdents tv.tigs := by
  unfold placedIndexed at h
  simp only [List.all_eq_true, List.mem_range] at h
  have h1 := h k (by omega)
  simpa [hp] using h1

/-- Agreement on a set gives agreement on every subset. -/
theorem AgreeOn_mono (P Q : Nat → Prop) (a b : (Nat → optPos) × (Nat → optPos))
    (hPQ : ∀ k, Q k → P k) (h : AgreeOn P a b) : AgreeOn Q a b :=
  ⟨h.1, h.2.1, fun k hk => h.2.2 k (hPQ k hk)⟩

/-- The test of the initialisation's overlap loop gives the same answer on an agreeing
layout. -/
theorem initPlace_qualifies_same (tv tv1 : TigVector) (u v : Unitig)
    (hin : tv1.inUnitig = tv.inUnitig) (hix : tv1.ufpathIdx = tv.ufpathIdx)
    (hs : sameLayout u v = true) (ii : Nat) (fp : Bool) (o : BAToverlap) :
    initPlace_qualifies tv1 v ii fp o = initPlace_qualifies tv u ii fp o := by
  obtain ⟨hid, _, hpat⟩ := sameLayout_spec u v hs
  unfold initPlace_qualifies
  rw [hin, hix, hid]
  cases hni : u.ufpath[ii]? with
  | none => rw [sameLayout_lookup_none u v hs _ hni]
  | some ni =>
      obtain ⟨mi, hmi, _⟩ := sameLayout_lookup u v hs _ ni hni
      cases hnj : u.ufpath[tv.ufpathIdx o.b_iid]? with
      | none => rw [hmi, sameLayout_lookup_none u v hs _ hnj]
      | some nj =>
          obtain ⟨mj, hmj, _⟩ := sameLayout_lookup u v hs _ nj hnj
          rw [hmi, hmj]
          simp only [patternAgree_spec _ _ hpat _ _ ni nj mi mj hni hnj hmi hmj]

/-- The index hypotheses of the overlap loop pass to an agreeing layout. -/
theorem IndexedIn_same (tv tv1 : TigVector) (u v : Unitig)
    (hin : tv1.inUnitig = tv.inUnitig) (hix : tv1.ufpathIdx = tv.ufpathIdx)
    (hs : sameLayout u v = true) (ii : Nat) (ovl : List BAToverlap)
    (h : IndexedIn tv u ii ovl) : IndexedIn tv1 v ii ovl := by
  obtain ⟨hid, _, _⟩ := sameLayout_spec u v hs
  obtain ⟨⟨ni, hni⟩, hall⟩ := h
  obtain ⟨mi, hmi, _⟩ := sameLayout_lookup u v hs _ ni hni
  refine ⟨⟨mi, hmi⟩, ?_⟩
  intro o ho huu
  rw [hin, hid] at huu
  obtain ⟨nj, hnj⟩ := hall o ho huu
  obtain ⟨mj, hmj, _⟩ := sameLayout_lookup u v hs _ nj hnj
  rw [hix]
  exact ⟨mj, hmj⟩

/-- The store at the end of `optimize_initPlace` makes the record of the read agree. -/
theorem initPlace_store_agree (env : Env) (iid : Nat) (nmin : Dbl) (cnt : Nat)
    (P : Nat → Prop) (st st1 : InitState)
    (h : AgreeOn P (st.op, st.np) (st1.op, st1.np)) :
    AgreeOn (fun k => P k ∨ k = iid)
      ((initPlace_store env iid nmin cnt st).op, (initPlace_store env iid nmin cnt st).np)
      ((initPlace_store env iid nmin cnt st1).op, (initPlace_store env iid nmin cnt st1).np) := by
  obtain ⟨h1, h2, h3⟩ := h
  simp only [] at h1 h2 h3
  refine ⟨?_, ?_, ?_⟩
  · intro k
    have := h1 k
    simp only [initPlace_store, setMin, setMax]
    by_cases hk : k = iid
    · subst hk
      simpa using this
    · simpa [hk] using this
  · intro k
    have := h2 k
    simp only [initPlace_store, setMin, setMax]
    by_cases hk : k = iid
    · subst hk
      simpa using this
    · simpa [hk] using this
  · intro k hk
    simp only [initPlace_store, setMin, setMax]
    by_cases hki : k = iid
    · subst hki
      have a1 := h1 k
      have a2 := h2 k
      cases hx : st.op k
      cases hy : st1.op k
      cases hz : st.np k
      cases hw : st1.np k
      rw [hx, hy] at a1
      rw [hz, hw] at a2
      simp only [] at a1 a2
      simp [a1.1, a1.2, a2.1, a2.2]
    · have hP : P k := by
        cases hk with
        | inl hp => exact hp
        | inr he => exact absurd he hki
      simpa [hki] using h3 k hP

/-- A faulting loop over two lists in a row is the loop over the first, then over the
second. -/
theorem foldE_append {α β : Type} (f : α → β → Except Fault α) :
    ∀ (l1 l2 : List β) (a : α),
      foldE f (l1 ++ l2) a =
        match foldE f l1 a with
        | .error e => .error e
        | .ok a1 => foldE f l2 a1
  | [], _, _ => rfl
  | b :: bs, l2, a => by
      simp only [List.cons_append, foldE]
      cases f a b with
      | error e => rfl
      | ok a1 => exact foldE_append f bs l2 a1

/-- One step of the first initialisation pass on two agreeing layouts, from states that
agree on the reads earlier in the path: both steps return, and the states they leave
agree on the read of the step as well. -/
theorem initPlace_first_same (env : Env) (tv tv1 : TigVector) (u v : Unitig)
    (hin : tv1.inUnitig = tv.inUnitig) (hix : tv1.ufpathIdx = tv.ufpathIdx)
    (hs : sameLayout u v = true) (ii : Nat) (n : ufNode) (hn : u.ufpath[ii]? = some n)
    (hwf : ∀ o ∈ env.getOverlaps n.ident, tv.inUnitig o.b_iid = u.id →
      tv.ufpathIdx o.b_iid ≠ ii ∧
        ∃ nj, u.ufpath[tv.ufpathIdx o.b_iid]? = some nj ∧ nj.ident = o.b_iid)
    (hseed : 0 < ii → initPlace_quals env tv u ii true n.ident ≠ [])
    (P : Nat → Prop) (st st1 : InitState)
    (hag : AgreeOn P (st.op, st.np) (st1.op, st1.np))
    (hf : st.failed = []) (hf1 : st1.failed = [])
    (hP : ∀ (jj : Nat) (nj : ufNode), jj < ii → u.ufpath[jj]? = some nj → P nj.ident) :
    ∃ st2 st3, u.optimize_initPlace env tv ii true st = .ok st2 ∧
      v.optimize_initPlace env tv1 ii true st1 = .ok st3 ∧
      AgreeOn (fun k => P k ∨ k = n.ident) (st2.op, st2.np) (st3.op, st3.np) ∧
      st2.failed = [] ∧ st3.failed = [] := by
  obtain ⟨m, hm, hsr⟩ := sameLayout_lookup u v hs ii n hn
  have hmid : m.ident = n.ident := (sameRead_spec n m hsr).2.1
  unfold Unitig.optimize_initPlace
  simp only [hn, hm, hmid, Bool.true_eq_false, false_and, if_false]
  by_cases hii : ii > 0
  · have hidx : IndexedIn tv u ii (env.getOverlaps n.ident) :=
      ⟨⟨n, hn⟩, fun o ho huu => by
        obtain ⟨_, nj, hnj, _⟩ := hwf o ho huu
        exact ⟨nj, hnj⟩⟩
    have hidx1 := IndexedIn_same tv tv1 u v hin hix hs ii _ hidx
    have hfil : (env.getOverlaps n.ident).filter (initPlace_qualifies tv1 v ii true) =
        (env.getOverlaps n.ident).filter (initPlace_qualifies tv u ii true) :=
      List.filter_congr (fun o _ => initPlace_qualifies_same tv tv1 u v hin hix hs ii true o)
    have hq := hseed hii
    have hlen : (List.filter (initPlace_qualifies tv u ii true)
        (env.getOverlaps n.ident)).length ≠ 0 := by
      intro h
      exact hq (List.length_eq_zero.mp h)
    have hcand : ((env.getOverlaps n.ident).filter (initPlace_qualifies tv u ii true)).map
          (candMin st1.op n.ident) =
        ((env.getOverlaps n.ident).filter (initPlace_qualifies tv u ii true)).map
          (candMin st.op n.ident) := by
      apply List.map_congr_left
      intro o ho
      rw [List.mem_filter] at ho
      obtain ⟨ho, hqo⟩ := ho
      unfold initPlace_qualifies at hqo
      simp only [Bool.and_eq_true, decide_eq_true_eq] at hqo
      obtain ⟨huu, hrest⟩ := hqo
      obtain ⟨hne, nj, hnj, hnjid⟩ := hwf o ho huu
      rw [hn, hnj] at hrest
      simp only [Bool.and_eq_true, Bool.not_eq_true', Bool.true_and, decide_eq_false_iff_not,
        gt_iff_lt, not_lt] at hrest
      have hlt : tv.ufpathIdx o.b_iid < ii := by omega
      have hPo : P o.b_iid := by
        have := hP _ nj hlt hnj
        rw [hnjid] at this
        exact this
      have hfwd := (hag.1 n.ident).1
      simp only [] at hfwd
      have hpart := (hag.2.2 o.b_iid hPo).1
      simp only [] at hpart
      unfold candMin
      rw [hpart, hfwd]
    rw [if_pos hii, if_pos hii, initPlace_scan_eq tv u ii true st.op n.ident _ _ hidx,
      initPlace_scan_eq tv1 v ii true st1.op n.ident _ _ hidx1, hfil, hcand]
    simp only [Nat.zero_add]
    rw [if_neg (fun h => hlen h.2), if_neg hlen, if_neg (fun h => hlen h.2), if_neg hlen]
    exact ⟨_, _, rfl, rfl, initPlace_store_agree env n.ident _ _ P st st1 hag, hf, hf1⟩
  · rw [if_neg hii, if_neg hii]
    exact ⟨_, _, rfl, rfl, initPlace_store_agree env n.ident _ _ P st st1 hag, hf, hf1⟩

/-- The first initialisation pass over the first `k` path entries of two agreeing
layouts, from agreeing states: both loops return, and the states they leave agree on
the reads of those entries as well. -/
theorem initFirst_same (env : Env) (tv tv1 : TigVector) (u v : Unitig)
    (hin : tv1.inUnitig = tv.inUnitig) (hix : tv1.ufpathIdx = tv.ufpathIdx)
    (hs : sameLayout u v = true)
    (hwf : ∀ (ii : Nat) (n : ufNode), u.ufpath[ii]? = some n →
      ∀ o ∈ env.getOverlaps n.ident, tv.inUnitig o.b_iid = u.id →
        tv.ufpathIdx o.b_iid ≠ ii ∧
          ∃ nj, u.ufpath[tv.ufpathIdx o.b_iid]? = some nj ∧ nj.ident = o.b_iid)
    (hseed : ∀ (ii : Nat) (n : ufNode), u.ufpath[ii]? = some n → 0 < ii →
      initPlace_quals env tv u ii true n.ident ≠ [])
    (P : Nat → Prop) (st st1 : InitState)
    (hag : AgreeOn P (st.op, st.np) (st1.op, st1.np))
    (hf : st.failed = []) (hf1 : st1.failed = []) :
    ∀ k, k ≤ u.ufpath.length →
      ∃ st2 st3,
        foldE (fun s ii => u.optimize_initPlace env tv ii true s) (List.range k) st = .ok st2 ∧
        foldE (fun s ii => v.optimize_initPlace env tv1 ii true s) (List.range k) st1 = .ok st3 ∧
        AgreeOn (fun x => P x ∨ ∃ (jj : Nat) (nj : ufNode),
            jj < k ∧ u.ufpath[jj]? = some nj ∧ nj.ident = x)
          (st2.op, st2.np) (st3.op, st3.np) ∧
        st2.failed = [] ∧ st3.failed = []
  | 0, _ => by
      refine ⟨st, st1, rfl, rfl, AgreeOn_mono _ _ _ _ ?_ hag, hf, hf1⟩
      intro x hx
      cases hx with
      | inl h => exact h
      | inr h =>
          obtain ⟨jj, _, hjj, _⟩ := h
          omega
  | k + 1, hk => by
      obtain ⟨st2, st3, e2, e3, hag2, hf2, hf3⟩ :=
        initFirst_same env tv tv1 u v hin hix hs hwf hseed P st st1 hag hf hf1 k (by omega)
      obtain ⟨n, hn⟩ := lookup_some u.ufpath k (by omega)
      obtain ⟨st4, st5, e4, e5, hag4, hf4, hf5⟩ :=
        initPlace_first_same env tv tv1 u v hin hix hs k n hn (hwf k n hn) (hseed k n hn)
          _ st2 st3 hag2 hf2 hf3
          (fun jj nj hjj hnj => Or.inr ⟨jj, nj, hjj, hnj, rfl⟩)
      refine ⟨st4, st5, ?_, ?_, AgreeOn_mono _ _ _ _ ?_ hag4, hf4, hf5⟩
      · rw [List.range_succ, foldE_append, e2]
        simp only [foldE, e4]
      · rw [List.range_succ, foldE_append, e3]
        simp only [foldE, e5]
      · intro x hx
        cases hx with
        | inl h => exact Or.inl (Or.inl h)
        | inr h =>
            obtain ⟨jj, nj, hjj, hnj, hid⟩ := h
            by_cases hjk : jj < k
            · exact Or.inl (Or.inr ⟨jj, nj, hjk, hnj, hid⟩)
            · have hjeq : jj = k := by omega
              subst hjeq
              rw [hn] at hnj
              injection hnj with hnj
              subst hnj
              exact Or.inr hid.symm

/-- With no read marked failed, the second initialisation pass changes nothing. -/
theorem initSecond_noop (env : Env) (tv : TigVector) (u : Unitig) (st : InitState)
    (hf : st.failed = []) :
    ∀ (l : List Nat), (∀ ii ∈ l, ii < u.ufpath.length) →
      foldE (fun s ii => u.optimize_initPlace env tv ii false s) l st = .ok st
  | [], _ => rfl
  | ii :: l, h => by
      obtain ⟨n, hn⟩ := lookup_some u.ufpath ii (h ii (List.mem_cons_self _ _))
      have hstep : u.optimize_initPlace env tv ii false st = .ok st := by
        unfold Unitig.optimize_initPlace
        simp [hn, hf]
      unfold foldE
      rw [hstep]
      exact initSecond_noop env tv u st hf l (fun j hj => h j (List.mem_cons_of_mem _ hj))

/-- The initialisation of one slot on two agreeing slots, from agreeing arrays: both
return, and the arrays they leave agree on the reads of the slot as well. -/
theorem initTig_same (env : Env) (tv tv1 : TigVector)
    (hin : tv1.inUnitig = tv.inUnitig) (hix : tv1.ufpathIdx = tv.ufpathIdx)
    (hidx : overlapsIndexed env tv = true) (hseed : allSeeded env tv = true)
    (P : Nat → Prop) (a a1 : (Nat → optPos) × (Nat → optPos)) (hag : AgreeOn P a a1) :
    ∀ (t t1 : Option Unitig), t ∈ tv.tigs → sameSlots [t] [t1] = true →
      ∃ b b1, initTig env tv a t = .ok b ∧ initTig env tv1 a1 t1 = .ok b1 ∧
        AgreeOn (fun x => P x ∨ x ∈ slotIdents t) b b1
  | none, none, _, _ =>
      ⟨a, a1, rfl, rfl, AgreeOn_mono _ _ _ _ (fun x hx => by simpa [slotIdents] using hx) hag⟩
  | none, some _, _, h => by simp [sameSlots] at h
  | some _, none, _, h => by simp [sameSlots] at h
  | some u, some v, hu, h => by
      have hs : sameLayout u v = true := by simpa [sameSlots] using h
      have hlen : v.ufpath.length = u.ufpath.length :=
        (pathAgree_spec _ _ (sameLayout_spec u v hs).2.1).1
      obtain ⟨st2, st3, e2, e3, hag2, hf2, hf3⟩ :=
        initFirst_same env tv tv1 u v hin hix hs
          (fun ii n hn o ho huu => overlapsIndexed_spec env tv hidx u hu ii n hn o ho huu)
          (fun ii n hn hii => allSeeded_spec env tv hseed u hu ii n hn hii)
          P { op := a.1, np := a.2, failed := [] } { op := a1.1, np := a1.2, failed := [] }
          hag rfl rfl u.ufpath.length (Nat.le_refl _)
      have e4 := initSecond_noop env tv u st2 hf2 (List.range u.ufpath.length)
        (fun ii hi => List.mem_range.mp hi)
      have e5 := initSecond_noop env tv1 v st3 hf3 (List.range v.ufpath.length)
        (fun ii hi => List.mem_range.mp hi)
      rw [← hlen] at e3
      refine ⟨(st2.op, st2.np), (st3.op, st3.np), ?_, ?_, AgreeOn_mono _ _ _ _ ?_ hag2⟩
      · simp only [initTig, e2, e4]
      · simp only [initTig, e3, e5]
      · intro x hx
        cases hx with
        | inl h => exact Or.inl h
        | inr h =>
            simp only [slotIdents, List.mem_map] at h
            obtain ⟨nj, hnj, hid⟩ := h
            obtain ⟨jj, hjj, hget⟩ := List.getElem_of_mem hnj
            exact Or.inr ⟨jj, nj, hjj, by rw [List.getElem?_eq_getElem hjj, hget], hid⟩

/-- The initialisation pass over agreeing slots, from agreeing arrays: both return, and
the arrays they leave agree on all reads of the slots as well. -/
theorem initAll_same (env : Env) (tv tv1 : TigVector)
    (hin : tv1.inUnitig = tv.inUnitig) (hix : tv1.ufpathIdx = tv.ufpathIdx)
    (hidx : overlapsIndexed env tv = true) (hseed : allSeeded env tv = true) :
    ∀ (l l1 : List (Option Unitig)), (∀ t ∈ l, t ∈ tv.tigs) → sameSlots l l1 = true →
      ∀ (P : Nat → Prop) (a a1 : (Nat → optPos) × (Nat → optPos)), AgreeOn P a a1 →
      ∃ b b1, foldE (initTig env tv) l a = .ok b ∧ foldE (initTig env tv1) l1 a1 = .ok b1 ∧
        AgreeOn (fun x => P x ∨ x ∈ allIdents l) b b1
  | [], [], _, _, P, a, a1, hag =>
      ⟨a, a1, rfl, rfl, AgreeOn_mono _ _ _ _ (fun x hx => by simpa [allIdents] using hx) hag⟩
  | [], _ :: _, _, h, _, _, _, _ => by simp [sameSlots] at h
  | _ :: _, [], _, h, _, _, _, _ => by simp [sameSlots] at h
  | t :: l, t1 :: l1, hmem, h, P, a, a1, hag => by
      have hhead : sameSlots [t] [t1] = true ∧ sameSlots l l1 = true := by
        cases t with
        | none =>
            cases t1 with
            | none => simpa [sameSlots] using h
            | some _ => simp [sameSlots] at h
        | some u =>
            cases t1 with
            | none => simp [sameSlots] at h
            | some v => simpa [sameSlots] using h
      obtain ⟨b, b1, e, e1, hagb⟩ :=
        initTig_same env tv tv1 hin hix hidx hseed P a a1 hag t t1
          (hmem t (List.mem_cons_self _ _)) hhead.1
      obtain ⟨c, c1, f, f1, hagc⟩ :=
        initAll_same env tv tv1 hin hix hidx hseed l l1
          (fun s hs => hmem s (List.mem_cons_of_mem _ hs)) hhead.2 _ b b1 hagb
      refine ⟨c, c1, ?_, ?_, AgreeOn_mono _ _ _ _ ?_ hagc⟩
      · simp only [foldE, e, f]
      · simp only [foldE, e1, f1]
      · intro x hx
        cases hx with
        | inl h => exact Or.inl (Or.inl h)
        | inr h =>
            simp only [allIdents, List.mem_append] at h
            cases h with
            | inl h => exact Or.inl (Or.inr h)
            | inr h => exact Or.inr h

/-- Two faulting loops over one list whose bodies keep a relation: when the first
returns, so does the second, in related states. -/
theorem foldE_rel {α β : Type} (R : α → α → Prop) (f g : α → β → Except Fault α) :
    ∀ (l : List β),
      (∀ a a1 b a2, b ∈ l → R a a1 → f a b = .ok a2 → ∃ a3, g a1 b = .ok a3 ∧ R a2 a3) →
      ∀ a a1 r, R a a1 → foldE f l a = .ok r → ∃ r1, foldE g l a1 = .ok r1 ∧ R r r1
  | [], _, a, a1, r, hR, h => by
      simp only [foldE] at h
      injection h with h
      subst h
      exact ⟨a1, rfl, hR⟩
  | b :: bs, hstep, a, a1, r, hR, h => by
      unfold foldE at h
      cases hf : f a b with
      | error e => rw [hf] at h; cases h
      | ok a2 =>
          rw [hf] at h
          obtain ⟨a3, hg, hR2⟩ := hstep a a1 b a2 (List.mem_cons_self _ _) hR hf
          obtain ⟨r1, hr1, hRr⟩ :=
            foldE_rel R f g bs
              (fun x x1 y x2 hy => hstep x x1 y x2 (List.mem_cons_of_mem _ hy)) a2 a3 r hR2 h
          refine ⟨r1, ?_, hRr⟩
          unfold foldE
          rw [hg]
          exact hr1

/-- The snapshot of an agreeing vector returns when the snapshot of the vector does,
with the same orientation flags and read ids, and the same zeroed records for the read
ids it does not copy. -/
theorem snapshot_agree (env : Env) (tv tv1 : TigVector)
    (hin : tv1.inUnitig = tv.inUnitig) (hix : tv1.ufpathIdx = tv.ufpathIdx)
    (hs : sameSlots tv.tigs tv1.tigs = true)
    (s : (Nat → optPos) × (Nat → optPos)) (h : snapshot env tv = .ok s) :
    ∃ s1, snapshot env tv1 = .ok s1 ∧
      AgreeOn (fun k => tv.inUnitig k = 0 ∨ env.numReads < k) s s1 := by
  unfold snapshot at h ⊢
  refine foldE_rel (AgreeOn (fun k => tv.inUnitig k = 0 ∨ env.numReads < k))
    (snapshot_step tv) (snapshot_step tv1) _ ?_ _ _ s ?_ h
  · intro a a1 fi a2 hfi hag hstep
    rw [List.mem_range] at hfi
    unfold snapshot_step at hstep ⊢
    rw [hin, hix]
    by_cases h0 : tv.inUnitig fi = 0
    · rw [if_pos h0] at hstep
      rw [if_pos h0]
      injection hstep with hstep
      subst hstep
      exact ⟨a1, rfl, hag⟩
    · rw [if_neg h0] at hstep
      rw [if_neg h0]
      cases hd : tv.deref (tv.inUnitig fi) with
      | error e => rw [hd] at hstep; cases hstep
      | ok u =>
          rw [hd] at hstep
          dsimp only at hstep
          obtain ⟨v, hv, hsl⟩ := deref_same tv tv1 hs _ u hd
          rw [hv]
          dsimp only
          cases hn : u.ufpath[tv.ufpathIdx fi]? with
          | none => rw [hn] at hstep; cases hstep
          | some n =>
              rw [hn] at hstep
              obtain ⟨m, hm, hsr⟩ := sameLayout_lookup u v hsl _ n hn
              obtain ⟨_, hmid, hfw⟩ := sameRead_spec n m hsr
              simp only [hm]
              injection hstep with hstep
              subst hstep
              refine ⟨_, rfl, ?_, ?_, ?_⟩
              · intro k
                by_cases hk : k = fi
                · simp [hk, optPos.set, hmid, hfw]
                · simpa [hk] using hag.1 k
              · intro k
                by_cases hk : k = fi
                · simp [hk, optPos.set, hmid, hfw]
                · simpa [hk] using hag.2.1 k
              · intro k hk
                have hne : k ≠ fi := by
                  intro hc
                  subst hc
                  cases hk with
                  | inl hk => exact h0 hk
                  | inr hk => omega
                simpa [hne] using hag.2.2 k hk
  · refine ⟨fun k => ⟨rfl, rfl⟩, fun k => ⟨rfl, rfl⟩, fun k _ => ⟨rfl, rfl⟩⟩

/-- The working arrays at the start of the refinement loop are the same for an
agreeing vector: the initialisation overwrites every coordinate the snapshot copied. -/
theorem initArrays_same (env : Env) (tv tv1 : TigVector)
    (hin : tv1.inUnitig = tv.inUnitig) (hix : tv1.ufpathIdx = tv.ufpathIdx)
    (hs : sameSlots tv.tigs tv1.tigs = true)
    (hidx : overlapsIndexed env tv = true) (hseed : allSeeded env tv = true)
    (hplaced : placedIndexed env tv = true)
    (b : (Nat → optPos) × (Nat → optPos)) (h : initArrays env tv = .ok b) :
    initArrays env tv1 = .ok b := by
  unfold initArrays at h ⊢
  cases hsn : snapshot env tv with
  | error e => rw [hsn] at h; cases h
  | ok s =>
      rw [hsn] at h
      obtain ⟨s1, hs1, hag⟩ := snapshot_agree env tv tv1 hin hix hs s hsn
      obtain ⟨c, c1, e, e1, hagc⟩ :=
        initAll_same env tv tv1 hin hix hidx hseed tv.tigs tv1.tigs (fun t ht => ht) hs _ s s1 hag
      rw [hs1]
      dsimp only at h ⊢
      rw [e] at h
      injection h with h
      subst h
      rw [e1]
      have hall : ∀ k, c1.1 k = c.1 k ∧ c1.2 k = c.2 k := by
        intro k
        apply hagc.2.2 k
        by_cases hk : k ≤ env.numReads
        · by_cases h0 : tv.inUnitig k = 0
          · exact Or.inl (Or.inl h0)
          · exact Or.inr (placedIndexed_spec env tv hplaced k hk h0)
        · exact Or.inl (Or.inr (by omega))
      have h1 : c1.1 = c.1 := funext (fun k => (hall k).1)
      have h2 : c1.2 = c.2 := funext (fun k => (hall k).2)
      rw [Prod.ext h1 h2]

/-- A run on an agreeing vector commits what the run on the vector commits. -/
theorem committedPositions_same (env : Env) (tv tv1 : TigVector)
    (hin : tv1.inUnitig = tv.inUnitig) (hix : tv1.ufpathIdx = tv.ufpathIdx)
    (hs : sameSlots tv.tigs tv1.tigs = true)
    (hidx : overlapsIndexed env tv = true) (hseed : allSeeded env tv = true)
    (hplaced : placedIndexed env tv = true)
    (c : List (Option Unitig)) (h : tv.committedPositions env = .ok c) :
    tv1.committedPositions env = .ok c := by
  unfold TigVector.committedPositions optimizeArrays at h ⊢
  cases hi : initArrays env tv with
  | error e => rw [hi] at h; cases h
  | ok b =>
      rw [hi] at h
      rw [initArrays_same env tv tv1 hin hix hs hidx hseed hplaced b hi]
      dsimp only at h ⊢
      rw [refineLoop_same env tv tv1 hin hix hs]
      cases hr : refineLoop env tv 5 b.1 b.2 with
      | error e => rw [hr] at h; cases h
      | ok r =>
          rw [hr] at h
          dsimp only at h ⊢
          have hexp : expandAll env tv1 r.op = expandAll env tv r.op :=
            expand_fold_same env _ _ hs r.op
          rw [hexp, commitAll_same _ _ _ hs]
          exact h

/-- Claim C16, amended: a second run changes nothing when the first run kept the shape
of the layout.  Let the inverse indices agree with the paths (`overlapsIndexed`,
`placedIndexed`), let every read but the first of each path have an overlap that
qualifies in the first initialisation pass (`allSeeded`), and let the run complete and
leave the slots `l`.  If `l` has, slot by slot, the same reads in the same path order
with the same orientations and the same pairs of intersecting intervals as the input
(`sameSlots`), then running `optimizePositions` again on `l` completes and leaves
exactly `l`. -/
theorem optimizePositions_idempotent_on_same_layout (env : Env) (cleanUp : Unitig → Unitig)
    (tv : TigVector) (l : List (Option Unitig))
    (hrun : tv.optimizePositions env cleanUp = .ok l)
    (hsame : sameSlots tv.tigs l = true)
    (hidx : overlapsIndexed env tv = true) (hseed : allSeeded env tv = true)
    (hplaced : placedIndexed env tv = true) :
    tv.optimizeTwice env cleanUp = .ok l := by
  unfold TigVector.optimizeTwice
  rw [hrun]
  dsimp only
  unfold TigVector.optimizePositions at hrun ⊢
  cases hc : tv.committedPositions env with
  | error e => rw [hc] at hrun; cases hrun
  | ok c =>
      rw [hc] at hrun
      rw [committedPositions_same env tv (tv.withTigs l) rfl rfl hsame hidx hseed hplaced c hc]
      exact hrun

/-- Witness for claim C16: the three discordant reads.  The first run moves them from
`[5,15)`, `[0,10)`, `[2,12)` to `[0,10)`, `[-5,4)`, `[-2,7)`; all three still intersect
pairwise and are forward, and the second run leaves them there. -/
theorem optimizePositions_idempotent_on_same_layout_witness :
    sameSlots discordTigs.tigs
      [none, some ⟨1, [plainNode 1 0 10, plainNode 2 (-5) 4, plainNode 3 (-2) 7]⟩] = true ∧
    overlapsIndexed discordEnv discordTigs = true ∧
    allSeeded discordEnv discordTigs = true ∧
    placedIndexed discordEnv discordTigs = true ∧
    discordTigs.optimizeTwice discordEnv id =
      .ok [none, some ⟨1, [plainNode 1 0 10, plainNode 2 (-5) 4, plainNode 3 (-2) 7]⟩] :=
  ⟨by decide, by decide, by decide, by decide,
    optimizePositions_idempotent_on_same_layout discordEnv id discordTigs _
      (by with_unfolding_all rfl) (by decide) (by decide) (by decide) (by decide)⟩

/-! ## Seeds that are not extended -/

/-- Claim C21: for a seed that passes the seed filter and is suspicious or a zombie,
`populateUnitig(tigs, fi)` returns with one new unitig in a fresh last slot whose path
is the seed alone, placed at `begin = readLength(fi)`, `end = 0`, every other read
recorded where it was.  No best edge is consulted: the call gives the same result for
every table of best edges (and every loop bound), and it does not stop at a dovetail
assertion. -/
theorem populateUnitig_suspicious_seed (g : Graph) (fuel : Nat) (tv : TigVector) (fi : Nat)
    (hpass : ¬ seedFiltered g tv fi)
    (hsz : g.isSuspicious fi = true ∨ g.isZombie fi = true) :
    populateUnitig g fuel tv fi = Outcome.done (seedTig g tv fi) ∧
    (seedTig g tv fi).tigs =
      tv.tigs ++ [some { id := tv.tigs.length, ufpath := [seedNode g fi] }] ∧
    (seedNode g fi).ident = fi ∧
    (seedNode g fi).position = { bgn := (g.readLength fi : Int), end_ := 0 } ∧
    (∀ k, k ≠ fi → (seedTig g tv fi).inUnitig k = tv.inUnitig k) ∧
    (∀ (be : Nat → Bool → BestEdgeOverlap) (fuel2 : Nat),
      populateUnitig (g.withBestEdges be) fuel2 tv fi = populateUnitig g fuel tv fi) ∧
    (populateUnitig g fuel tv fi).isDovetailFailed = false := by
  have h1 : ¬ (g.readLength fi = 0 ∨ tv.inUnitig fi ≠ 0) := by
    intro h
    rcases h with h | h
    · exact hpass (Or.inl h)
    · exact hpass (Or.inr (Or.inl h))
  have h2 : ¬ (g.isContained fi = true ∧ g.isZombie fi = false) :=
    fun h => hpass (Or.inr (Or.inr h))
  have hrun : ∀ (be : Nat → Bool → BestEdgeOverlap) (f : Nat),
      populateUnitig (g.withBestEdges be) f tv fi = Outcome.done (seedTig g tv fi) := by
    intro be f
    unfold populateUnitig
    simp only [Graph.withBestEdges]
    rw [if_neg h1, if_neg h2]
    rcases hsz with hs | hz
    · simp only [hs, if_true]
      rfl
    · by_cases hs : g.isSuspicious fi = true
      · simp only [hs, if_true]
        rfl
      · simp only [hs, hz, if_true]
        rfl
  have hself : populateUnitig g fuel tv fi = Outcome.done (seedTig g tv fi) :=
    hrun g.getBestEdgeOverlap fuel
  refine ⟨hself, seedTig_tigs g tv fi, rfl, rfl, fun k hk => seedTig_inUnitig g tv fi k hk, ?_, ?_⟩
  · intro be fuel2
    rw [hrun be fuel2, hself]
  · rw [hself]
    rfl

/-- Witness for claim C21: read 1 of the construction example marked suspicious, its 5'
best edge carrying the illegal `bHang = 50`; the call returns with the seed alone at
`[1000, 0)`. -/
theorem populateUnitig_suspicious_seed_witness :
    ¬ seedFiltered suspectGraph emptyTigs 1 ∧
    populateUnitig suspectGraph 10 emptyTigs 1 = Outcome.done (seedTig suspectGraph emptyTigs 1) ∧
    (seedTig suspectGraph emptyTigs 1).tigs = [none, some ⟨1, [plainNode 1 1000 0]⟩] := by
  have hpass : ¬ seedFiltered suspectGraph emptyTigs 1 := by
    unfold seedFiltered
    simp [suspectGraph, seedGraph, emptyTigs]
  have h := populateUnitig_suspicious_seed suspectGraph 10 emptyTigs 1 hpass (Or.inl rfl)
  exact ⟨hpass, h.1, rfl⟩

/-! ## The walk loop ends -/

/-- Removing one element that passes a test from a list without repetition makes the
list of elements that pass one shorter. -/
theorem filter_length_remove (p : Nat → Bool) (id : Nat) (hp : p id = true) :
    ∀ (l : List Nat), l.Nodup → id ∈ l →
      (l.filter (fun k => p k && !decide (k = id))).length + 1 = (l.filter p).length
  | [], _, h => by simp at h
  | a :: l, hnd, h => by
      rw [List.nodup_cons] at hnd
      by_cases ha : a = id
      · subst ha
        have hrest : l.filter (fun k => p k && !decide (k = a)) = l.filter p := by
          apply List.filter_congr
          intro k hk
          have : k ≠ a := fun hc => hnd.1 (hc ▸ hk)
          simp [this]
        simp [List.filter_cons, hp, hrest]
      · have hmem : id ∈ l := by
          rcases List.mem_cons.mp h with h | h
          · exact absurd h.symm ha
          · exact h
        have ih := filter_length_remove p id hp l hnd.2 hmem
        by_cases hpa : p a = true
        · simp [List.filter_cons, hpa, ha, ih]
        · simp [List.filter_cons, hpa, ih]

/-- Adding an unplaced read of the graph to a unitig other than the reserved slot 0
leaves one unplaced read fewer. -/
theorem unplacedCount_addRead (tv : TigVector) (N tid : Nat) (node : ufNode)
    (htid : tid ≠ 0) (h0 : node.ident ≠ 0) (hN : node.ident ≤ N)
    (hun : tv.inUnitig node.ident = 0) :
    unplacedCount (tv.addRead tid node 0) N + 1 = unplacedCount tv N := by
  unfold unplacedCount
  have hmem : node.ident ∈ List.range' 1 N := List.mem_range'_1.mpr (by omega)
  have h := filter_length_remove (fun k => decide (tv.inUnitig k = 0)) node.ident
    (by simp [hun]) (List.range' 1 N) (List.nodup_range' 1 N) hmem
  rw [← h]
  congr 2
  apply List.filter_congr
  intro k _
  simp only [TigVector.addRead]
  by_cases hk : k = node.ident
  · simp [hk, htid]
  · simp [hk]

/-- With no unplaced read left among the reads of the graph, the loop condition is
false. -/
theorem unplacedCount_zero (tv : TigVector) (N : Nat) (h : unplacedCount tv N = 0)
    (k : Nat) (h0 : k ≠ 0) (hk : k ≤ N) : tv.inUnitig k ≠ 0 := by
  unfold unplacedCount at h
  rw [List.length_eq_zero, List.filter_eq_nil_iff] at h
  have := h k (List.mem_range'_1.mpr (by omega))
  simpa using this

/-- The walk loop does not reach a bound that is at least the number of unplaced
reads. -/
theorem populateUnitig_loop_within (g : Graph) (hg : g.PlacesAsked) (N : Nat)
    (hN : g.EdgesWithin N) (tid : Nat) (htid : tid ≠ 0) :
    ∀ (fuel : Nat) (tv : TigVector) (read : ufNode) (lastID : Nat) (last3p : Bool)
      (bestnext : BestEdgeOverlap),
      bestnext.readId ≤ N → unplacedCount tv N ≤ fuel →
      (populateUnitig_loop g tid fuel tv read lastID last3p bestnext).isOutOfFuel = false
  | 0, tv, read, lastID, last3p, bestnext, hb, hf => by
      unfold populateUnitig_loop
      have hz : unplacedCount tv N = 0 := by omega
      rw [if_neg (fun h => unplacedCount_zero tv N hz bestnext.readId h.1 hb h.2)]
      rfl
  | fuel + 1, tv, read, lastID, last3p, bestnext, hb, hf => by
      unfold populateUnitig_loop
      by_cases hc : bestnext.readId ≠ 0 ∧ tv.inUnitig bestnext.readId = 0
      · rw [if_pos hc]
        dsimp only
        cases hp : g.placeRead tv (tv.tig tid) read bestnext.readId bestnext.read3p
            (reverseEdge lastID last3p bestnext) with
        | none => rfl
        | some read1 =>
            have hid : read1.ident = bestnext.readId := hg _ _ _ _ _ _ _ hp
            have hcnt := unplacedCount_addRead tv N tid read1 htid (by rw [hid]; exact hc.1)
              (by rw [hid]; exact hb) (by rw [hid]; exact hc.2)
            exact populateUnitig_loop_within g hg N hN tid htid fuel _ _ _ _ _ (hN _ _)
              (by omega)
      · rw [if_neg hc]
        rfl

/-- A walk loop that ends within a bound gives the same result under every larger
bound. -/
theorem populateUnitig_loop_fuel (g : Graph) (tid : Nat) :
    ∀ (fuel fuel2 : Nat) (tv : TigVector) (read : ufNode) (lastID : Nat) (last3p : Bool)
      (bestnext : BestEdgeOverlap), fuel ≤ fuel2 →
      (populateUnitig_loop g tid fuel tv read lastID last3p bestnext).isOutOfFuel = false →
      populateUnitig_loop g tid fuel2 tv read lastID last3p bestnext =
        populateUnitig_loop g tid fuel tv read lastID last3p bestnext
  | 0, fuel2, tv, read, lastID, last3p, bestnext, _, h => by
      have hc : ¬ (bestnext.readId ≠ 0 ∧ tv.inUnitig bestnext.readId = 0) := by
        intro hc
        unfold populateUnitig_loop at h
        rw [if_pos hc] at h
        cases h
      cases fuel2 with
      | zero => rfl
      | succ f =>
          unfold populateUnitig_loop
          rw [if_neg hc, if_neg hc]
  | fuel + 1, fuel2, tv, read, lastID, last3p, bestnext, hle, h => by
      cases fuel2 with
      | zero => omega
      | succ f =>
          unfold populateUnitig_loop at h ⊢
          by_cases hc : bestnext.readId ≠ 0 ∧ tv.inUnitig bestnext.readId = 0
          · rw [if_pos hc] at h
            rw [if_pos hc, if_pos hc]
            dsimp only at h ⊢
            cases hp : g.placeRead tv (tv.tig tid) read bestnext.readId bestnext.read3p
                (reverseEdge lastID last3p bestnext) with
            | none => rfl
            | some read1 =>
                rw [hp] at h
                dsimp only at h ⊢
                exact populateUnitig_loop_fuel g tid fuel f _ _ _ _ _ (by omega) h
          · rw [if_neg hc, if_neg hc]

/-- Claim C22: the walk loop of `populateUnitig(unitig, bestnext)` ends.  On a best
overlap graph over the reads `1..N`, with a `placeRead` that returns the read it was
asked to place and a unitig other than the reserved slot 0, the loop never needs more
iterations than there are unplaced reads at entry: run with that number as a bound it
does not reach the bound, and every larger bound gives the same result.  It exits at
once, leaving the vector as it is, when the next best edge is null or targets a placed
read; otherwise an iteration whose placement succeeds adds a read that was in no
unitig and leaves one unplaced read fewer. -/
theorem populateUnitig_loop_terminates (g : Graph) (hg : g.PlacesAsked) (N : Nat)
    (hN : g.EdgesWithin N) (tid : Nat) (htid : tid ≠ 0)
    (fuel : Nat) (tv : TigVector) (read : ufNode) (lastID : Nat) (last3p : Bool)
    (bestnext : BestEdgeOverlap) (hb : bestnext.readId ≤ N)
    (hfuel : unplacedCount tv N ≤ fuel) :
    (populateUnitig_loop g tid (unplacedCount tv N) tv read lastID last3p
      bestnext).isOutOfFuel = false ∧
    populateUnitig_loop g tid fuel tv read lastID last3p bestnext =
      populateUnitig_loop g tid (unplacedCount tv N) tv read lastID last3p bestnext ∧
    ((bestnext.readId = 0 ∨ tv.inUnitig bestnext.readId ≠ 0) →
      populateUnitig_loop g tid fuel tv read lastID last3p bestnext = Outcome.done tv) ∧
    (bestnext.readId ≠ 0 ∧ tv.inUnitig bestnext.readId = 0 →
      ∀ read1, g.placeRead tv (tv.tig tid) read bestnext.readId bestnext.read3p
          (reverseEdge lastID last3p bestnext) = some read1 →
        tv.inUnitig read1.ident = 0 ∧
        (tv.addRead tid read1 0).inUnitig read1.ident = tid ∧
        unplacedCount (tv.addRead tid read1 0) N + 1 = unplacedCount tv N) := by
  have hin := populateUnitig_loop_within g hg N hN tid htid (unplacedCount tv N) tv read
    lastID last3p bestnext hb (Nat.le_refl _)
  refine ⟨hin, populateUnitig_loop_fuel g tid _ fuel tv read lastID last3p bestnext hfuel hin,
    ?_, ?_⟩
  · intro hexit
    have hc : ¬ (bestnext.readId ≠ 0 ∧ tv.inUnitig bestnext.readId = 0) := by
      intro hc
      rcases hexit with h | h
      · exact hc.1 h
      · exact h hc.2
    cases fuel with
    | zero =>
        unfold populateUnitig_loop
        rw [if_neg hc]
    | succ f =>
        unfold populateUnitig_loop
        rw [if_neg hc]
  · intro hc read1 hp
    have hid : read1.ident = bestnext.readId := hg _ _ _ _ _ _ _ hp
    refine ⟨by rw [hid]; exact hc.2, by simp [TigVector.addRead], ?_⟩
    exact unplacedCount_addRead tv N tid read1 htid (by rw [hid]; exact hc.1)
      (by rw [hid]; exact hb) (by rw [hid]; exact hc.2)

/-- Witness for claim C22: three reads whose 3' best edges form the cycle 1, 2, 3, 1.
Two reads are unplaced when the walk starts from the seed 1; the loop places reads 2
and 3 and ends at the edge back to read 1, within a bound of 2 iterations. -/
theorem populateUnitig_loop_terminates_witness :
    cycleGraph.PlacesAsked ∧ cycleGraph.EdgesWithin 3 ∧ unplacedCount cycleStart 3 = 2 ∧
    (populateUnitig_loop cycleGraph 1 2 cycleStart (plainNode 1 0 1000) 1 true
      (cycleGraph.getBestEdgeOverlap 1 true)).isOutOfFuel = false ∧
    allIdents (populateUnitig_loop cycleGraph 1 7 cycleStart (plainNode 1 0 1000) 1 true
      (cycleGraph.getBestEdgeOverlap 1 true)).tv.tigs = [1, 2, 3] ∧
    (cycleStart.tig 1).ufpath = [plainNode 1 0 1000] ∧
    (populateUnitig cycleGraph 2 emptyTigs 1).isDone = true ∧
    allIdents (populateUnitig cycleGraph 2 emptyTigs 1).tv.tigs = [1, 2, 3] := by
  have hg : cycleGraph.PlacesAsked := by
    intro tv u r id r3p e n h
    simp only [cycleGraph, Option.some.injEq] at h
    rw [← h]
  have hN : cycleGraph.EdgesWithin 3 := by
    intro i e
    simp only [cycleGraph]
    split
    · have : i % 3 < 3 := Nat.mod_lt _ (by decide)
      show i % 3 + 1 ≤ 3
      omega
    · exact Nat.zero_le _
  have hcount : unplacedCount cycleStart 3 = 2 := by decide
  have h := populateUnitig_loop_terminates cycleGraph hg 3 hN 1 (by decide) 7 cycleStart
    (plainNode 1 0 1000) 1 true (cycleGraph.getBestEdgeOverlap 1 true) (by decide)
    (by rw [hcount]; decide)
  rw [hcount] at h
  refine ⟨hg, hN, hcount, h.1, ?_, by decide, by decide, by decide⟩
  rw [h.2.1]
  decide

/-! ## The stretch step and the order of coordinates -/

/-- Claim C23, evaluated on the code: read 1, of length 10, is stretched from `[0, 5]`
to `[0, 10]`.  With read 1 first in the path, the inner loop has already moved
`op[1].max` to 10 when it reaches reads 2 and 3: the start 9 of read 2 is scaled to 18
and the start 10 of read 3 is shifted to 15, so `9 <= 10` becomes `18 > 15`.  With
read 1 last in the path the same two starts are both shifted, to 14 and 15, and keep
their order. -/
theorem optimize_expand_step_breaks_order :
    (stretchOp 2).min = Dbl.fin 9 ∧ (stretchOp 3).min = Dbl.fin 10 ∧
    (optimize_expand_step stretchEnv stretchFirst stretchOp 1 2).min = Dbl.fin 18 ∧
    (optimize_expand_step stretchEnv stretchFirst stretchOp 1 3).min = Dbl.fin 15 ∧
    (optimize_expand_step stretchEnv stretchFirst stretchOp 1 1).min = Dbl.fin 0 ∧
    (optimize_expand_step stretchEnv stretchFirst stretchOp 1 1).max = Dbl.fin 10 ∧
    (optimize_expand_step stretchEnv stretchLast stretchOp 1 2).min = Dbl.fin 14 ∧
    (optimize_expand_step stretchEnv stretchLast stretchOp 1 3).min = Dbl.fin 15 := by
  refine ⟨rfl, rfl, ?_, ?_, ?_, ?_, ?_, ?_⟩ <;> with_unfolding_all rfl

/-! ## The orientation of the committed intervals -/

/-- Claim C24, evaluated on the code: a read of length 1 whose working interval is
`[-1/2, 1/2]` is long enough, so the expansion leaves it alone, and both casts
truncate to 0: the committed interval is `begin = end = 0` whether the read's `fwd`
flag is set or not, neither forward nor reverse.  A whole run reaches this: of three
forward reads of length 1 placed at `[0,1)`, `optimizePositions` commits the second
at `begin = end = 0`. -/
theorem expandAndCommit_loses_orientation :
    straddleTig.expandAndCommit straddleEnv (straddleOp true) =
      some ⟨1, [plainNode 1 0 0]⟩ ∧
    straddleTig.expandAndCommit straddleEnv (straddleOp false) =
      some ⟨1, [plainNode 1 0 0]⟩ ∧
    (plainNode 1 0 0).position.isForward = false ∧
    unitTigs.committedPositions unitEnv =
      .ok [none, some ⟨1, [plainNode 1 0 1, plainNode 2 0 0, plainNode 3 0 1]⟩] := by
  refine ⟨?_, ?_, rfl, ?_⟩ <;> with_unfolding_all rfl

/-! ## Where the committed orientation is kept -/

/-- Truncation toward zero keeps two values apart that are at least 2 apart. -/
theorem trunc_lt_of_two (a b : ℚ) (h : a + 2 ≤ b) :
    (if 0 ≤ a then ⌊a⌋ else ⌈a⌉) < (if 0 ≤ b then ⌊b⌋ else ⌈b⌉) := by
  have h1 : (((if 0 ≤ a then ⌊a⌋ else ⌈a⌉ : ℤ)) : ℚ) < a + 1 := by
    split_ifs
    · exact lt_of_le_of_lt (Int.floor_le a) (by linarith)
    · exact Int.ceil_lt_add_one a
  have h2 : b - 1 < (((if 0 ≤ b then ⌊b⌋ else ⌈b⌉ : ℤ)) : ℚ) := by
    split_ifs
    · exact Int.sub_one_lt_floor b
    · exact lt_of_lt_of_le (by linarith) (Int.le_ceil b)
  have h3 : (((if 0 ≤ a then ⌊a⌋ else ⌈a⌉ : ℤ)) : ℚ) <
      (((if 0 ≤ b then ⌊b⌋ else ⌈b⌉ : ℤ)) : ℚ) := by linarith
  exact_mod_cast h3

/-- The value of a defined cast of a finite number. -/
theorem trunc32_of_castable (q : ℚ) (h : (Dbl.toInt32 (Dbl.fin q)).isSome = true) :
    Dbl.trunc32 (Dbl.fin q) = if 0 ≤ q then ⌊q⌋ else ⌈q⌉ := by
  obtain ⟨z, hz⟩ := Option.isSome_iff_exists.mp h
  obtain ⟨q1, hq, hval, _, _⟩ := toInt32_spec _ z hz
  injection hq with hq
  subst hq
  unfold Dbl.trunc32
  rw [hz]
  exact hval

/-- When the two ends of a working interval are at least 2 apart and both casts are
defined, the commit writes `begin < end` for a read whose `fwd` flag is set and
`begin > end` for a read whose flag is clear. -/
theorem spec_commit_orientation (op : Nat → optPos) (n : ufNode) (a b : ℚ)
    (hmin : (op n.ident).min = Dbl.fin a) (hmax : (op n.ident).max = Dbl.fin b)
    (h2 : a + 2 ≤ b) (hcast : Castable op n.ident) :
    ((op n.ident).fwd = true →
      (spec_commit op n).position.bgn < (spec_commit op n).position.end_) ∧
    ((op n.ident).fwd = false →
      (spec_commit op n).position.end_ < (spec_commit op n).position.bgn) := by
  obtain ⟨c1, c2⟩ := hcast
  rw [hmin] at c1
  rw [hmax] at c2
  have ta := trunc32_of_castable a c1
  have tb := trunc32_of_castable b c2
  have hlt := trunc_lt_of_two a b h2
  unfold spec_commit
  rw [hmin, hmax, ta, tb]
  constructor
  · intro hf
    simp only [hf, if_true]
    exact hlt
  · intro hf
    simp only [hf, Bool.false_eq_true, if_false]
    exact hlt

/-! ## The rounds of the refinement loop in a run -/

/-- A read id whose length is 0 is never counted converged: its measure is a quotient
by zero, `NaN` or an infinity, and the test `< 0.005` is false. -/
theorem isConverged_zero_length (env : Env) (op np : Nat → optPos) (fi : Nat)
    (h0 : env.readLength fi = 0) : isConverged env op np fi = false := by
  cases hc : isConverged env op np fi with
  | false => rfl
  | true =>
      exfalso
      unfold isConverged at hc
      simp only [Bool.and_eq_true] at hc
      obtain ⟨q, hq, _⟩ := absIf_lt_fin hc.1
      obtain ⟨_, _, hz, _⟩ := Dbl.div_ofInt_eq_fin hq
      apply hz
      rw [h0]
      simp

/-- With a read id of length 0 among `0..numReads`, every round counts at least one
changed read. -/
theorem countChanged_zero_length (env : Env) (op np : Nat → optPos)
    (h : ∃ fi, fi ≤ env.numReads ∧ env.readLength fi = 0) : countChanged env op np ≠ 0 := by
  obtain ⟨fi, hfi, h0⟩ := h
  intro hc
  have h1 := countChanged_zero env op np hc fi hfi
  rw [isConverged_zero_length env op np fi h0] at h1
  cases h1

/-- With a read id of length 0 among `0..numReads`, the refinement loop never leaves
early: it runs every round it is allowed. -/
theorem refineLoop_runs_all (env : Env) (tv : TigVector)
    (hz : ∃ fi, fi ≤ env.numReads ∧ env.readLength fi = 0) :
    ∀ (left : Nat) (op np : Nat → optPos) (res : Refined),
      refineLoop env tv left op np = .ok res → res.rounds = left
  | 0, op, np, res, h => by
      simp only [refineLoop] at h
      injection h with h
      subst h
      rfl
  | left + 1, op, np, res, h => by
      unfold refineLoop at h
      cases hr : refineRound env tv op np with
      | error e => rw [hr] at h; cases h
      | ok r =>
          rw [hr] at h
          dsimp only at h
          have hne : r.nChanged ≠ 0 := by
            rw [(refineRound_ok env tv op np r hr).2]
            exact countChanged_zero_length env op r.np hz
          rw [if_neg hne] at h
          cases hl : refineLoop env tv left r.np r.op with
          | error e => rw [hl] at h; cases h
          | ok res1 =>
              rw [hl] at h
              dsimp only at h
              injection h with h
              subst h
              have := refineLoop_runs_all env tv hz left _ _ res1 hl
              simp only [this]

/-- When the refinement loop leaves before its last allowed round, the arrays of its
last round pass the convergence test at every read id. -/
theorem refineLoop_early (env : Env) (tv : TigVector) :
    ∀ (left : Nat) (op np : Nat → optPos) (res : Refined),
      refineLoop env tv left op np = .ok res → res.rounds < left →
      ∀ fi, fi ≤ env.numReads → isConverged env res.np res.op fi = true
  | 0, op, np, res, h, hlt => by
      simp only [refineLoop] at h
      injection h with h
      subst h
      exact absurd hlt (Nat.lt_irrefl _)
  | left + 1, op, np, res, h, hlt => by
      unfold refineLoop at h
      cases hr : refineRound env tv op np with
      | error e => rw [hr] at h; cases h
      | ok r =>
          rw [hr] at h
          dsimp only at h
          obtain ⟨h1, h2⟩ := refineRound_ok env tv op np r hr
          by_cases h0 : r.nChanged = 0
          · rw [if_pos h0] at h
            injection h with h
            subst h
            intro fi hfi
            dsimp only
            rw [h2] at h0
            rw [h1]
            exact countChanged_zero env op r.np h0 fi hfi
          · rw [if_neg h0] at h
            cases hl : refineLoop env tv left r.np r.op with
            | error e => rw [hl] at h; cases h
            | ok res1 =>
                rw [hl] at h
                dsimp only at h
                injection h with h
                subst h
                exact refineLoop_early env tv left _ _ res1 hl (Nat.lt_of_succ_lt_succ hlt)

/-- Claim C6: in every run of `optimizePositions` that reaches the expansion pass, the
refinement loop has executed at most 5 rounds.  The arrays the expansion starts from
are those the loop `for (iter = 0; iter < 5; iter++)` leaves on the initialised
arrays; when that loop has left before the fifth round, its last round reported zero
changed reads: the two arrays of that round pass the computed test
`|2 (op - np) / readLength| < 0.005` at every read id `0..numReads`, in `min` and in
`max`, and so (in the exact arithmetic of the model) agree there within 0.5% of the
read length.  Every round that reports zero changed reads leaves `op` and its
zero-reset `np` so.
A round can report zero changed reads only when no read id `0..numReads` has length
0: with such an id, every round counts a changed read and the loop runs exactly 5
rounds. -/
theorem optimizeArrays_rounds_and_convergence (env : Env) (tv : TigVector) (r : Refined)
    (h : optimizeArrays env tv = .ok r) :
    r.rounds ≤ 5 ∧
    ((∃ fi, fi ≤ env.numReads ∧ env.readLength fi = 0) → r.rounds = 5) ∧
    (∃ s res, initArrays env tv = .ok s ∧ refineLoop env tv 5 s.1 s.2 = .ok res ∧
      r.rounds = res.rounds ∧ r.np = res.np ∧ r.op = expandAll env tv res.op ∧
      (res.rounds < 5 → ∀ fi, fi ≤ env.numReads →
        Within env (res.np fi) (res.op fi) fi ∧ isConverged env res.np res.op fi = true)) ∧
    (∀ a b rd, refineRound env tv a b = .ok rd →
      (rd.nChanged = 0 → rd.op = a ∧ ∀ fi, fi ≤ env.numReads →
        Within env (rd.op fi) (rd.np fi) fi ∧ isConverged env rd.op rd.np fi = true) ∧
      ((∃ fi, fi ≤ env.numReads ∧ env.readLength fi = 0) → rd.nChanged ≠ 0)) := by
  have hround : ∀ a b rd, refineRound env tv a b = .ok rd →
      (rd.nChanged = 0 → rd.op = a ∧ ∀ fi, fi ≤ env.numReads →
        Within env (rd.op fi) (rd.np fi) fi ∧ isConverged env rd.op rd.np fi = true) ∧
      ((∃ fi, fi ≤ env.numReads ∧ env.readLength fi = 0) → rd.nChanged ≠ 0) := by
    intro a b rd hrd
    obtain ⟨h1, h2⟩ := refineRound_ok env tv a b rd hrd
    refine ⟨?_, ?_⟩
    · intro h0
      refine ⟨h1, ?_⟩
      intro fi hfi
      rw [h2] at h0
      have hc := countChanged_zero env a rd.np h0 fi hfi
      rw [h1]
      exact ⟨isConverged_within env a rd.np fi hc, hc⟩
    · intro hz
      rw [h2]
      exact countChanged_zero_length env a rd.np hz
  unfold optimizeArrays at h
  cases hi : initArrays env tv with
  | error e => rw [hi] at h; cases h
  | ok s =>
      rw [hi] at h
      dsimp only at h
      cases hl : refineLoop env tv 5 s.1 s.2 with
      | error e => rw [hl] at h; cases h
      | ok res =>
          rw [hl] at h
          dsimp only at h
          injection h with h
          subst h
          refine ⟨(refineLoop_rounds env tv 5 s.1 s.2 res hl).1,
            fun hz => refineLoop_runs_all env tv hz 5 s.1 s.2 res hl,
            ⟨s, res, rfl, hl, rfl, rfl, rfl, ?_⟩, hround⟩
          intro hlt fi hfi
          have hc := refineLoop_early env tv 5 s.1 s.2 res hl hlt fi hfi
          exact ⟨isConverged_within env res.np res.op fi hc, hc⟩

/-- Witness for claim C6: the two coincident reads.  With a read store that reports
length 0 for the unused id 0 the run reaches the expansion after exactly 5 rounds;
with one that reports length 500 for every id the first round counts no changed read
and the run reaches the expansion after 1 round. -/
theorem optimizeArrays_rounds_and_convergence_witness :
    optimizeArrays (coincidentEnv 0) coincidentTigs =
      .ok (refinedOf (optimizeArrays (coincidentEnv 0) coincidentTigs)) ∧
    (refinedOf (optimizeArrays (coincidentEnv 0) coincidentTigs)).rounds = 5 ∧
    optimizeArrays (coincidentEnv 500) coincidentTigs =
      .ok (refinedOf (optimizeArrays (coincidentEnv 500) coincidentTigs)) ∧
    (refinedOf (optimizeArrays (coincidentEnv 500) coincidentTigs)).rounds ≤ 5 ∧
    (refinedOf (optimizeArrays (coincidentEnv 500) coincidentTigs)).rounds = 1 :=
  ⟨by with_unfolding_all rfl,
    (optimizeArrays_rounds_and_convergence (coincidentEnv 0) coincidentTigs _
      (by with_unfolding_all rfl)).2.1 ⟨0, by decide, rfl⟩,
    by with_unfolding_all rfl,
    (optimizeArrays_rounds_and_convergence (coincidentEnv 500) coincidentTigs _
      (by with_unfolding_all rfl)).1,
    by with_unfolding_all rfl⟩

end Bogart
